import Mathlib

/-!
# Heterogeneous tree library: load, dump and print

A shallow embedding of `tree_lib` (`tree_visitors.hpp`, `tree_helpers.hpp`,
`tree_node.hpp`, `tree.hpp`) and of the parts of the C++ stream library the
code calls (`operator>>` on `int`, `double`, `std::string`; `operator<<`).

* A character stream is the list of characters still to be read plus the
  three state bits of `std::ios`.
* A `std::variant<std::monostate, Types...>` is its stored index and payload;
  the template parameter pack `Types...` is a list passed to the operations.
* A `NodeType*` held on the work stack of `Tree::LoadImpl` is the path of
  child positions leading from the local root to the node.
* The two `while` loops run under a step budget; the budget chosen by
  `LoadImpl` and `DumpImpl` is shown to be never exhausted.
* Diagnostics written to `std::cerr` are not modelled.
-/

namespace tree_lib

/-! ## Characters and decimal numerals -/

/-- The predicate `std::isspace` of the "C" locale: space, and the control
characters tab, line feed, vertical tab, form feed, carriage return. -/
def isspace (c : Char) : Bool :=
  c.toNat == 32 || (9 ≤ c.toNat && c.toNat ≤ 13)

/-- The predicate `std::isdigit`. -/
def isdigit (c : Char) : Bool :=
  48 ≤ c.toNat && c.toNat ≤ 57

/-- The character of a decimal digit `d < 10`. -/
def digitChar (d : Nat) : Char :=
  Char.ofNat (48 + d)

/-- Decimal digits of `n`, most significant first, under a recursion budget. -/
def natToCharsAux : Nat → Nat → List Char
  | 0, _ => []
  | fuel + 1, n =>
    if n < 10 then [digitChar n] else natToCharsAux fuel (n / 10) ++ [digitChar (n % 10)]

/-- The text `operator<<` writes for an unsigned integer (decimal, no padding). -/
def natToChars (n : Nat) : List Char :=
  natToCharsAux (n + 1) n

/-- The text `operator<<` writes for a signed integer. -/
def intToChars (i : Int) : List Char :=
  if i < 0 then '-' :: natToChars i.natAbs else natToChars i.natAbs

/-- Value of a run of decimal digits, most significant first. -/
def digitsToNat (ds : List Char) : Nat :=
  ds.foldl (fun acc c => 10 * acc + (c.toNat - 48)) 0

/-- Smallest value of a C++ `int` (32 bits). -/
def INT_MIN : Int := -2147483648

/-- Largest value of a C++ `int` (32 bits). -/
def INT_MAX : Int := 2147483647

/-! ## Input streams -/

/-- A `std::istream`: the characters not yet extracted and the state bits. -/
structure IStream where
  buf : List Char
  eofbit : Bool
  failbit : Bool
  badbit : Bool
deriving DecidableEq, Repr

/-- A fresh stream over a text, as `std::istringstream(text)`. -/
def IStream.ofChars (cs : List Char) : IStream :=
  { buf := cs, eofbit := false, failbit := false, badbit := false }

/-- The member `good()`: no state bit is set. -/
def IStream.good (is : IStream) : Bool :=
  !is.eofbit && !is.failbit && !is.badbit

/-- The call `setstate(failbit)`. -/
def IStream.setFail (is : IStream) : IStream :=
  { is with failbit := true }

/-- The constructor of `std::istream::sentry` with `skipws` set: on a good
stream leading whitespace is skipped, and reaching the end sets `eofbit`;
the extraction may proceed only if the stream is still good, otherwise
`failbit` is set. -/
def IStream.sentry (is : IStream) : Bool × IStream :=
  if is.good then
    match is.buf.dropWhile isspace with
    | [] => (false, { is with buf := [], eofbit := true, failbit := true })
    | c :: cs => (true, { is with buf := c :: cs })
  else (false, is.setFail)

/-- The stream with the characters `tail` put after its own, the end of the
stream not having been met. -/
def IStream.extend (tail : List Char) (is : IStream) : IStream :=
  { buf := is.buf ++ tail, eofbit := false, failbit := is.failbit, badbit := is.badbit }

/-- The optional sign in front of a number: whether it is a minus, and the
characters after it. -/
def takeSign : List Char → Bool × List Char
  | '-' :: cs => (true, cs)
  | '+' :: cs => (false, cs)
  | cs => (false, cs)

/-- The number `n` with the sign read in front of it. -/
def applySign (neg : Bool) (n : Nat) : Int :=
  if neg then -(n : Int) else (n : Int)

/-- The extraction `is >> i` for an `int` (decimal base): skip whitespace, read
an optional sign and the longest run of digits. It fails when there is no
digit or when the value does not fit an `int`. `eofbit` is set when the
scan ran into the end of the stream. -/
def IStream.extractInt (is : IStream) : Option Int × IStream :=
  match is.sentry with
  | (false, is1) => (none, is1)
  | (true, is1) =>
    let (neg, b) := takeSign is1.buf
    let ds := b.takeWhile isdigit
    let rest := b.dropWhile isdigit
    let is2 : IStream := { is1 with buf := rest, eofbit := rest.isEmpty }
    if ds.isEmpty then (none, is2.setFail)
    else
      let v : Int := applySign neg (digitsToNat ds)
      if v < INT_MIN || INT_MAX < v then (none, is2.setFail) else (some v, is2)

/-- The extraction `is >> s` for a `std::string`: skip whitespace, read up to
the next whitespace character or the end of the stream. -/
def IStream.extractString (is : IStream) : Option (List Char) × IStream :=
  match is.sentry with
  | (false, is1) => (none, is1)
  | (true, is1) =>
    let w := is1.buf.takeWhile (fun c => !isspace c)
    let rest := is1.buf.dropWhile (fun c => !isspace c)
    let is2 : IStream := { is1 with buf := rest, eofbit := rest.isEmpty }
    if w.isEmpty then (none, is2.setFail) else (some w, is2)

/-! ## Floating point: `double` values, their extraction and insertion -/

/-- A `double` (IEEE-754 binary64). `finite neg m e` is the number
`(-1)^neg * m * 2^e`; the values of the format have `m < 2^53` and
`-1074 ≤ e ≤ 971`, with `m ≥ 2^52` unless `e = -1074`. -/
inductive Dbl
  | finite (neg : Bool) (m : Nat) (e : Int)
  | inf (neg : Bool)
  | nan (neg : Bool)
deriving DecidableEq, Repr

/-- The rational number a finite `double` stands for (zero otherwise). -/
def Dbl.toRat : Dbl → ℚ
  | .finite neg m e => (if neg then -1 else 1) * (m : ℚ) * (2 : ℚ) ^ e
  | _ => 0

/-- Nearest integer to `num / den`, ties to the even one. -/
def roundHalfEven (num den : Nat) : Nat :=
  let q := num / den
  let r := num % den
  if 2 * r < den then q
  else if den < 2 * r then q + 1
  else if q % 2 = 0 then q else q + 1

/-- The fraction `num / den` divided by `2^e`, as a fraction. -/
def scale2 (num den : Nat) (e : Int) : Nat × Nat :=
  if 0 ≤ e then (num, den * 2 ^ e.toNat) else (num * 2 ^ (-e).toNat, den)

/-- The fraction `num / den` multiplied by `10^k`, as a fraction. -/
def scale10 (num den : Nat) (k : Int) : Nat × Nat :=
  if 0 ≤ k then (num * 10 ^ k.toNat, den) else (num, den * 10 ^ (-k).toNat)

/-- The `double` nearest to `± num / den` (round to nearest, ties to even), as
`strtod` computes it; an overflow gives an infinity. -/
def Dbl.ofFraction (neg : Bool) (num den : Nat) : Dbl :=
  if num = 0 then .finite neg 0 (-1074)
  else
    let l : Int := (Nat.log2 num : Int) - (Nat.log2 den : Int)
    let s := scale2 num den l
    let fl : Int := if s.2 ≤ s.1 then l else l - 1
    let e : Int := max (fl - 52) (-1074)
    let t := scale2 num den e
    let m := roundHalfEven t.1 t.2
    let m1 := if m = 2 ^ 53 then 2 ^ 52 else m
    let e1 := if m = 2 ^ 53 then e + 1 else e
    if 971 < e1 then .inf neg else .finite neg m1 e1

/-- The fractional part of a number text: after a point, the digits that
follow; the digits read and the characters after them. -/
def takeFraction : List Char → List Char × List Char
  | '.' :: r => (r.takeWhile isdigit, r.dropWhile isdigit)
  | r => ([], r)

/-- The exponent part of a number text, read only when the mantissa has a
digit: after `e` or `E`, an optional sign and digits; whether the mark was
read, the sign, the digits read and the characters after them. -/
def takeExponent (hasMantissa : Bool) : List Char → Bool × Bool × List Char × List Char
  | c :: r =>
    if (c = 'e' || c = 'E') && hasMantissa then
      (true, (takeSign r).1, (takeSign r).2.takeWhile isdigit, (takeSign r).2.dropWhile isdigit)
    else (false, false, [], c :: r)
  | [] => (false, false, [], [])

/-- The characters `num_get` accumulates for a floating-point number. -/
structure FloatText where
  neg : Bool
  intDigits : List Char
  fracDigits : List Char
  hasExp : Bool
  expNeg : Bool
  expDigits : List Char
  rest : List Char
deriving DecidableEq, Repr

/-- Scan a floating-point number text: an optional sign, digits, an optional
point followed by digits, and, once a digit has been read, an optional
exponent. -/
def scanFloat (b : List Char) : FloatText :=
  let s := takeSign b
  let ip := s.2.takeWhile isdigit
  let f := takeFraction (s.2.dropWhile isdigit)
  let x := takeExponent (!(ip ++ f.1).isEmpty) f.2
  { neg := s.1, intDigits := ip, fracDigits := f.1, hasExp := x.1, expNeg := x.2.1,
    expDigits := x.2.2.1, rest := x.2.2.2 }

/-- The conversion of the accumulated text as by `strtod`: no value when the
text has no mantissa digit, when an exponent mark is followed by no digit, or
when the value overflows. -/
def FloatText.convert (t : FloatText) : Option Dbl :=
  if (t.intDigits ++ t.fracDigits).isEmpty || (t.hasExp && t.expDigits.isEmpty) then none
  else
    let x : Int := applySign t.expNeg (digitsToNat t.expDigits)
    let f := scale10 (digitsToNat (t.intDigits ++ t.fracDigits)) 1 (x - (t.fracDigits.length : Int))
    match Dbl.ofFraction t.neg f.1 f.2 with
    | .finite n m e => some (.finite n m e)
    | _ => none

/-- The extraction `is >> d` for a `double`: skip whitespace, scan the number
text and convert it. `eofbit` is set when the scan ran into the end of the
stream. -/
def IStream.extractDouble (is : IStream) : Option Dbl × IStream :=
  match is.sentry with
  | (false, is1) => (none, is1)
  | (true, is1) =>
    let t := scanFloat is1.buf
    let is2 : IStream := { is1 with buf := t.rest, eofbit := t.rest.isEmpty }
    match t.convert with
    | some d => (some d, is2)
    | none => (none, is2.setFail)

/-- Remove the zeros at the end of a run of digits. -/
def stripTrailingZeros (ds : List Char) : List Char :=
  (ds.reverse.dropWhile (fun c => c = '0')).reverse

/-- A fractional part for `%g`: the digits without trailing zeros, led by the
point, and nothing at all when no digit is left. -/
def fracPart (ds : List Char) : List Char :=
  match stripTrailingZeros ds with
  | [] => []
  | d :: r => '.' :: d :: r

/-- The least `k` from `k` on, trying `fuel` candidates, with
`den ≤ num * 10^k`. -/
def firstScale (num den : Nat) : Nat → Nat → Nat
  | 0, k => k
  | fuel + 1, k => if den ≤ num * 10 ^ k then k else firstScale num den fuel (k + 1)

/-- The conversion `%g` with precision 6 of the positive number `num / den`:
six significant digits, rounded to nearest with ties to even; exponent form
when the decimal exponent is below -4 or at least 6; trailing zeros removed. -/
def formatG (num den : Nat) : List Char :=
  let x0 : Int :=
    if den ≤ num then ((natToChars (num / den)).length : Int) - 1
    else -((firstScale num den (natToChars den).length 1 : Nat) : Int)
  let s := scale10 num den (5 - x0)
  let d0 := roundHalfEven s.1 s.2
  let d := if 1000000 ≤ d0 then d0 / 10 else d0
  let x : Int := if 1000000 ≤ d0 then x0 + 1 else x0
  let ds := natToChars d
  if x < -4 || 6 ≤ x then
    let ex := natToChars x.natAbs
    ds.take 1 ++ fracPart (ds.drop 1) ++ ['e', if x < 0 then '-' else '+']
      ++ (if ex.length < 2 then '0' :: ex else ex)
  else if 0 ≤ x then
    ds.take (x.toNat + 1) ++ fracPart (ds.drop (x.toNat + 1))
  else
    '0' :: fracPart (List.replicate ((-x).toNat - 1) '0' ++ ds)

/-- The text `os << d` writes for a `double` on a stream with the default
format flags (`%g`, precision 6). -/
def Dbl.format : Dbl → List Char
  | .nan neg => if neg then "-nan".toList else "nan".toList
  | .inf neg => if neg then "-inf".toList else "inf".toList
  | .finite neg m e =>
    (if neg then ['-'] else []) ++
      (if m = 0 then ['0'] else formatG (scale2 m 1 (-e)).1 (scale2 m 1 (-e)).2)

/-- The comparison `a == b` of two `double`s: a NaN is equal to nothing, the
two zeros are equal, and otherwise the numbers are compared. -/
def Dbl.eq : Dbl → Dbl → Bool
  | .finite n m e, .finite k l f =>
    if m = 0 then l = 0
    else if l = 0 then false
    else n == k && m * 2 ^ (e - f).toNat == l * 2 ^ (f - e).toNat
  | .inf n, .inf k => n == k
  | _, _ => false

/-! ## Kinds, visitors and the dispatcher (`tree_visitors.hpp`, `tree_helpers.hpp`) -/

/-- The types an alternative of the node's variant can have: `std::monostate`
(no value) and the types the visitors are written for, the arithmetic types
`int` and `double` and `std::string`. -/
inductive Alt
  | monostate
  | int
  | double
  | string
deriving DecidableEq, Repr

/-- The payload a variant holds. -/
inductive Data
  | monostate
  | int (v : Int)
  | double (v : Dbl)
  | string (v : List Char)
deriving DecidableEq, Repr

/-- The type of a payload. -/
def Data.alt : Data → Alt
  | .monostate => .monostate
  | .int _ => .int
  | .double _ => .double
  | .string _ => .string

/-- A value of `std::variant<std::monostate, Types...>`: the index of the
active alternative and its payload. -/
structure Variant where
  index : Nat
  data : Data
deriving DecidableEq, Repr

/-- The comparison `==` of two payloads of the same type (`std::monostate`
values are all equal); payloads of different types never meet under one
index. -/
def Data.eq : Data → Data → Bool
  | .monostate, .monostate => true
  | .int a, .int b => a == b
  | .double a, .double b => Dbl.eq a b
  | .string a, .string b => a == b
  | _, _ => false

/-- The comparison `operator==` of `std::variant`: the same active alternative
and equal payloads. -/
def Variant.eq (v w : Variant) : Bool :=
  v.index == w.index && Data.eq v.data w.data

/-- The type `std::variant_alternative_t<N, std::variant<std::monostate, Types...>>`. -/
def variant_alternative (Types : List Alt) (N : Nat) : Option Alt :=
  (Alt.monostate :: Types)[N]?

/-- A variant is well typed for `Types...` when its payload has the type of
the alternative at its index and an `int` payload is a value of `int`. -/
def Variant.WellTyped (Types : List Alt) (v : Variant) : Prop :=
  variant_alternative Types v.index = some v.data.alt ∧
    ∀ i, v.data = .int i → INT_MIN ≤ i ∧ i ≤ INT_MAX

/-- The visitor `PrintVisitor<T>` applied to a value of type `T`, appending to
the output: arithmetic values in their `operator<<` form, a string between
double quotes, no value as `<->`. -/
def PrintVisitor (T : Alt) (os : List Char) (v : Data) : List Char :=
  match T, v with
  | .monostate, .monostate => os ++ "<->".toList
  | .int, .int v => os ++ intToChars v
  | .double, .double v => os ++ v.format
  | .string, .string v => os ++ ['"'] ++ v ++ ['"']
  | _, _ => os

/-- The visitor `PackVisitor<T>` applied to a value of type `T`, appending to
the output: arithmetic values in their `operator<<` form, a string as it is, no
value as nothing. -/
def PackVisitor (T : Alt) (os : List Char) (v : Data) : List Char :=
  match T, v with
  | .monostate, .monostate => os
  | .int, .int v => os ++ intToChars v
  | .double, .double v => os ++ v.format
  | .string, .string v => os ++ v
  | _, _ => os

/-- The visitor `UnPackVisitor<T>`: extract a value of type `T` from the stream;
`std::monostate` reads nothing and always succeeds. -/
def UnPackVisitor (T : Alt) (is : IStream) : Option Data × IStream :=
  match T with
  | .monostate => (some .monostate, is)
  | .int =>
    match is.extractInt with
    | (some v, is1) => (some (.int v), is1)
    | (none, is1) => (none, is1)
  | .double =>
    match is.extractDouble with
    | (some v, is1) => (some (.double v), is1)
    | (none, is1) => (none, is1)
  | .string =>
    match is.extractString with
    | (some v, is1) => (some (.string v), is1)
    | (none, is1) => (none, is1)

/-- The helper `VariantSwitchHelper::PrintByTypeIndex<N>`. -/
def VariantSwitchHelper.PrintByTypeIndex (Types : List Alt) (N : Nat) (os : List Char)
    (v : Variant) : List Char :=
  match variant_alternative Types N with
  | some T => PrintVisitor T os v.data
  | none => os

/-- The helper `VariantSwitchHelper::PackByTypeIndex<N>`. -/
def VariantSwitchHelper.PackByTypeIndex (Types : List Alt) (N : Nat) (os : List Char)
    (v : Variant) : List Char :=
  match variant_alternative Types N with
  | some T => PackVisitor T os v.data
  | none => os

/-- The helper `VariantSwitchHelper::UnPackByTypeIndex<N, Variant>`: the value
unpacked by the visitor of alternative `N`, stored in a variant whose active
alternative is `N` (the variant is built from a value of the type of
alternative `N`, and the registered types are pairwise distinct in any
instantiation that compiles). -/
def VariantSwitchHelper.UnPackByTypeIndex (Types : List Alt) (N : Nat) (is : IStream) :
    Option Variant × IStream :=
  match variant_alternative Types N with
  | some T =>
    match UnPackVisitor T is with
    | (some v, is1) => (some { index := N, data := v }, is1)
    | (none, is1) => (none, is1)
  | none => (none, is)

/-- The member `VariantSwitch<N>::Print`. -/
def VariantSwitch.Print (Types : List Alt) : Nat → Nat → List Char → Variant → List Char
  | 0, _, os, v => VariantSwitchHelper.PrintByTypeIndex Types 0 os v
  | N + 1, index, os, v =>
    if index = N + 1 then VariantSwitchHelper.PrintByTypeIndex Types (N + 1) os v
    else VariantSwitch.Print Types N index os v

/-- The member `VariantSwitch<N>::Pack`. -/
def VariantSwitch.Pack (Types : List Alt) : Nat → Nat → List Char → Variant → List Char
  | 0, _, os, v => VariantSwitchHelper.PackByTypeIndex Types 0 os v
  | N + 1, index, os, v =>
    if index = N + 1 then VariantSwitchHelper.PackByTypeIndex Types (N + 1) os v
    else VariantSwitch.Pack Types N index os v

/-- The member `VariantSwitch<N>::UnPack`. -/
def VariantSwitch.UnPack (Types : List Alt) : Nat → Nat → IStream → Option Variant × IStream
  | 0, index, is =>
    if index = 0 then VariantSwitchHelper.UnPackByTypeIndex Types 0 is else (none, is)
  | N + 1, index, is =>
    if index = N + 1 then VariantSwitchHelper.UnPackByTypeIndex Types (N + 1) is
    else VariantSwitch.UnPack Types N index is

/-! ## Tree nodes (`tree_node.hpp`) -/

/-- A `TreeNode<Types...>`: the value and the child nodes from left to right. -/
inductive TreeNode where
  | mk (m_data : Variant) (m_childs : List TreeNode)
deriving Repr

namespace TreeNode

/-- The field `m_data`. -/
def m_data : TreeNode → Variant
  | mk d _ => d

/-- The field `m_childs`. -/
def m_childs : TreeNode → List TreeNode
  | mk _ cs => cs

/-- The default constructor `TreeNode()`: no value, no children. -/
def init : TreeNode :=
  mk { index := 0, data := .monostate } []

/-- The constant `InternalVariantStorageTypeIndexSize`: the size of the
variant minus one, that is the number of registered types. -/
def InternalVariantStorageTypeIndexSize (Types : List Alt) : Nat :=
  (Alt.monostate :: Types).length - 1

/-- The member `HasChilds`. -/
def HasChilds (self : TreeNode) : Bool :=
  !self.m_childs.isEmpty

/-- The member `IsLeaf`. -/
def IsLeaf (self : TreeNode) : Bool :=
  !self.HasChilds

/-- The member `GetChilds`. -/
def GetChilds (self : TreeNode) : List TreeNode :=
  self.m_childs

/-- The member `GetCurrentTypeIndex`. -/
def GetCurrentTypeIndex (self : TreeNode) : Nat :=
  self.m_data.index

/-- The member `AddChild`: the node with the child appended, and the position
of the inserted child, `m_childs.size() - 1`. -/
def AddChild (self child : TreeNode) : TreeNode × Nat :=
  (mk self.m_data (self.m_childs ++ [child]), (self.m_childs ++ [child]).length - 1)

/-- The member `operator==`. -/
def operatorEq (self other : TreeNode) : Bool :=
  Variant.eq self.m_data other.m_data

/-- The member `PrintNodeData`. -/
def PrintNodeData (Types : List Alt) (self : TreeNode) (os : List Char) : List Char :=
  VariantSwitch.Print Types (InternalVariantStorageTypeIndexSize Types) self.m_data.index os
    self.m_data

/-- The member `DumpNodeData`. -/
def DumpNodeData (Types : List Alt) (self : TreeNode) (os : List Char) : List Char :=
  VariantSwitch.Pack Types (InternalVariantStorageTypeIndexSize Types) self.m_data.index os
    self.m_data

/-- The member `LoadNodeData` (`LoadNodeDataImpl`): the returned flag, the node
after the call and the stream after the call. -/
def LoadNodeData (Types : List Alt) (self : TreeNode) (is : IStream) :
    Bool × TreeNode × IStream :=
  match is.extractInt with
  | (none, is1) => (false, self, is1)
  | (some i, is1) =>
    if i < 0 then (false, self, is1)
    else
      let typeIndex := i.toNat
      if InternalVariantStorageTypeIndexSize Types < typeIndex then (false, self, is1)
      else
        match VariantSwitch.UnPack Types (InternalVariantStorageTypeIndexSize Types)
            typeIndex is1 with
        | (none, is2) => (false, self, is2)
        | (some nodeData, is2) => (true, mk nodeData self.m_childs, is2)

/-- The node a pointer refers to: follow the child positions from `self`. -/
def deref : TreeNode → List Nat → Option TreeNode
  | self, [] => some self
  | self, i :: p =>
    match self.m_childs[i]? with
    | some c => c.deref p
    | none => none

/-- The call `parent->AddChild(child)` for a pointer `parent` into the tree
`self`: the tree after the call and the pointer to the inserted child; `none`
when the pointer refers to no node. -/
def AddChildAt : TreeNode → List Nat → TreeNode → Option (TreeNode × List Nat)
  | self, [], child => some ((self.AddChild child).1, [(self.AddChild child).2])
  | self, i :: p, child =>
    match self.m_childs[i]? with
    | some c =>
      match c.AddChildAt p child with
      | some (c1, q) => some (mk self.m_data (self.m_childs.set i c1), i :: q)
      | none => none
    | none => none

/-- Whether a pointer refers to a node on the rightmost path of the tree
`self`: the root, its last child, that child's last child, and so on. -/
def onRightmostPath : TreeNode → List Nat → Bool
  | _, [] => true
  | self, i :: p =>
    i + 1 == self.m_childs.length &&
      match self.m_childs[i]? with
      | some c => c.onRightmostPath p
      | none => false

/-- The calls `parent->AddChild(c)` for each `c` of `cs` in turn, for a pointer
`parent` into the tree `self`: the tree after the calls. -/
def AddChildsAt : TreeNode → List Nat → List TreeNode → Option TreeNode
  | self, _, [] => some self
  | self, p, c :: cs =>
    match self.AddChildAt p c with
    | some (r, _) => r.AddChildsAt p cs
    | none => none

end TreeNode

mutual
/-- Number of nodes of a tree. -/
def TreeNode.size : TreeNode → Nat
  | .mk _ cs => 1 + TreeNode.sizeList cs
/-- Number of nodes of a sequence of trees. -/
def TreeNode.sizeList : List TreeNode → Nat
  | [] => 0
  | c :: cs => c.size + TreeNode.sizeList cs
end

mutual
/-- Equality of trees is decidable. -/
def TreeNode.decEq : (a b : TreeNode) → Decidable (a = b)
  | .mk d cs, .mk e ds =>
    if h : d = e then
      match TreeNode.decEqList cs ds with
      | isTrue h2 => isTrue (by rw [h, h2])
      | isFalse h2 => isFalse (fun he => h2 (by injection he))
    else isFalse (fun he => h (by injection he))
/-- Equality of sequences of trees is decidable. -/
def TreeNode.decEqList : (as bs : List TreeNode) → Decidable (as = bs)
  | [], [] => isTrue rfl
  | [], _ :: _ => isFalse (fun he => by cases he)
  | _ :: _, [] => isFalse (fun he => by cases he)
  | a :: as, b :: bs =>
    match TreeNode.decEq a b with
    | isTrue h =>
      match TreeNode.decEqList as bs with
      | isTrue h2 => isTrue (by rw [h, h2])
      | isFalse h2 => isFalse (fun he => h2 (by injection he))
    | isFalse h => isFalse (fun he => h (by injection he))
end

instance : DecidableEq TreeNode :=
  TreeNode.decEq

/-! ## Trees (`tree.hpp`) -/

/-- A `Tree<Types...>`: its root node. -/
structure Tree where
  m_root : TreeNode
deriving DecidableEq, Repr

/-- The statement `for (i = 0; i < n; i++) stck.push(x)` on a stack whose top
is the head of the list. -/
def pushCopies {α : Type} (x : α) : Nat → List α → List α
  | 0, stck => stck
  | n + 1, stck => pushCopies x n (x :: stck)

/-- The statement `for (it = xs.crbegin(); it != xs.crend(); it++) stck.push(&*it)`
on a stack whose top is the head of the list. -/
def pushReversed {α : Type} (xs : List α) (stck : List α) : List α :=
  xs.reverse.foldl (fun s x => x :: s) stck

namespace Tree

/-- The variables of `LoadImpl` that live across iterations of its loop: the
local `root`, the stack of pointers into it (top first) and the stream. -/
structure LoadState where
  root : TreeNode
  stck : List (List Nat)
  is : IStream
deriving Repr, DecidableEq

/-- What one pass through the body of the loop of `LoadImpl` does: go on with
new variables, leave with `return false`, or use a pointer that refers to no
node. -/
inductive LoadStep
  | next (s : LoadState)
  | fail (is : IStream)
  | dangling
deriving Repr

/-- The body of the loop of `LoadImpl`, after `parent` has been popped from the
stack leaving `stck`. -/
def LoadImpl.body (Types : List Alt) (root : TreeNode) (parent : List Nat)
    (stck : List (List Nat)) (is : IStream) : LoadStep :=
  match TreeNode.LoadNodeData Types TreeNode.init is with
  | (false, _, is1) => .fail is1
  | (true, node, is1) =>
    match root.AddChildAt parent node with
    | none => .dangling
    | some (root1, parent1) =>
      match is1.extractInt with
      | (none, is2) => .fail is2
      | (some numChilds, is2) =>
        if numChilds < 0 then .fail is2
        else .next { root := root1, stck := pushCopies parent1 numChilds.toNat stck, is := is2 }

/-- The loop `while (!stck.empty())` of `LoadImpl` under a budget of passes:
the local root when the stack has become empty, no root when the body has
returned false; `none` when the budget is used up or a pointer dangles. -/
def LoadImpl.loop (Types : List Alt) : Nat → LoadState → Option (Option TreeNode × IStream)
  | _, { root := root, stck := [], is := is } => some (some root, is)
  | 0, { root := _, stck := _ :: _, is := _ } => none
  | fuel + 1, { root := root, stck := parent :: stck, is := is } =>
    match LoadImpl.body Types root parent stck is with
    | .next s => LoadImpl.loop Types fuel s
    | .fail is1 => some (none, is1)
    | .dangling => none

/-- The member `LoadImpl`: the returned flag, the tree after the call and the
stream after the call. The loop is given one pass per character of the
stream. -/
def LoadImpl (Types : List Alt) (self : Tree) (is : IStream) : Option (Bool × Tree × IStream) :=
  if !is.good then some (false, self, is)
  else
    match TreeNode.LoadNodeData Types TreeNode.init is with
    | (false, _, is1) => some (false, self, is1)
    | (true, root, is1) =>
      match is1.extractInt with
      | (none, is2) => some (false, self, is2)
      | (some numChilds, is2) =>
        if numChilds < 0 then some (false, self, is2)
        else
          match LoadImpl.loop Types is.buf.length
              { root := root, stck := pushCopies [] numChilds.toNat [], is := is2 } with
          | some (some root1, is3) => some (true, { m_root := root1 }, is3)
          | some (none, is3) => some (false, self, is3)
          | none => none

/-- The member `Load`. -/
def Load (Types : List Alt) (self : Tree) (is : IStream) : Option (Bool × Tree × IStream) :=
  self.LoadImpl Types is

/-- The loop of `DumpImpl` under a budget of passes, the stack holding the
nodes pointed to (top first). -/
def DumpImpl.loop (Types : List Alt) : Nat → List TreeNode → List Char → Option (List Char)
  | _, [], oss => some oss
  | 0, _ :: _, _ => none
  | fuel + 1, current :: stck, oss =>
    let childs := current.GetChilds
    let oss1 := oss ++ natToChars current.GetCurrentTypeIndex ++ [' ']
    let oss2 := current.DumpNodeData Types oss1
    let oss3 := oss2 ++ [' '] ++ natToChars childs.length ++ [' ']
    DumpImpl.loop Types fuel (pushReversed childs stck) oss3

/-- The member `DumpImpl`, writing to `oss`. The loop is given one pass per
node of the tree. -/
def DumpImpl (Types : List Alt) (self : Tree) (oss : List Char) : Option (List Char) :=
  DumpImpl.loop Types self.m_root.size [self.m_root] oss

/-- The member `Dump()`. -/
def Dump (Types : List Alt) (self : Tree) : Option (List Char) :=
  self.DumpImpl Types []

mutual
/-- The member `PrintImpl`, writing to `oss`. -/
def PrintImpl (Types : List Alt) (oss : List Char) (pfx : List Char) :
    TreeNode → Bool → List Char
  | .mk d cs, isRightChild =>
    let oss1 := oss ++ pfx ++ (if isRightChild then "├───".toList else "└───".toList)
    let oss2 := (TreeNode.mk d cs).PrintNodeData Types oss1 ++ ['\n']
    if !(TreeNode.mk d cs).IsLeaf then
      PrintImpl.childs Types oss2
        (pfx ++ (if isRightChild then "│  ".toList else "   ".toList)) cs
    else oss2
/-- The traversal of the children in `PrintImpl`, from the last child to the
first: the last child is printed with `isRightChild` set, the others without. -/
def PrintImpl.childs (Types : List Alt) (oss : List Char) (newPfx : List Char) :
    List TreeNode → List Char
  | [] => oss
  | c :: cs =>
    match cs with
    | [] => PrintImpl Types oss newPfx c true
    | _ :: _ => PrintImpl Types (PrintImpl.childs Types oss newPfx cs) newPfx c false
end

/-- The member `Print()`. -/
def Print (Types : List Alt) (self : Tree) : List Char :=
  PrintImpl Types [] [] self.m_root false

end Tree

/-- The number of lines of a text: the number of its line feeds. -/
def lineCount (text : List Char) : Nat :=
  text.count '\n'

/-! ## The demo driver (`demo.cpp`) -/

/-- The kinds of the demo program, `Tree<int, double, std::string>`. -/
def demoTypes : List Alt :=
  [.int, .double, .string]

namespace demo

/-- The exit status `EXIT_SUCCESS`. -/
def EXIT_SUCCESS : Nat := 0

/-- The exit status `EXIT_FAILURE`. -/
def EXIT_FAILURE : Nat := 1

/-- What `main` finds on the command line and in the file system: whether the
options are in error (`po::error` thrown), whether help is asked for, whether
the input path exists, whether the paths are directories, the input file
stream as opened, and whether the output file stream could be opened. -/
structure Env where
  optionsError : Bool
  help : Bool
  inputExists : Bool
  inputIsDirectory : Bool
  outputIsDirectory : Bool
  input : IStream
  outputOpens : Bool
deriving Repr

/-- What `main` leaves: its exit status, the tree diagram written to
`std::cout` and the text written to the output file (messages are not
modelled). -/
structure Outcome where
  status : Nat
  printed : Option (List Char)
  output : Option (List Char)
deriving DecidableEq, Repr

/-- The function `main` of the demo, where `TreeType` is
`Tree<int, double, std::string>`. -/
def main (env : Env) : Option Outcome :=
  if env.optionsError then some { status := EXIT_FAILURE, printed := none, output := none }
  else if env.help then some { status := EXIT_SUCCESS, printed := none, output := none }
  else if !env.inputExists || env.inputIsDirectory then
    some { status := EXIT_FAILURE, printed := none, output := none }
  else if env.outputIsDirectory then
    some { status := EXIT_FAILURE, printed := none, output := none }
  else
    match (Tree.mk TreeNode.init).Load demoTypes env.input with
    | none => none
    | some (_, tree, _) =>
      match tree.Dump demoTypes with
      | none => none
      | some dump =>
        some { status := EXIT_SUCCESS,
               printed := some (tree.Print demoTypes),
               output :=
                 if env.outputOpens then
                   some (dump ++ ['\n', '\n'] ++ tree.Print demoTypes)
                 else none }

end demo

/-! ## Reference definitions the code is compared with -/

/-- The whitespace-delimited tokens of a text, under a budget of characters. -/
def tokensAux : Nat → List Char → List (List Char)
  | 0, _ => []
  | fuel + 1, cs =>
    match cs.dropWhile isspace with
    | [] => []
    | c :: r =>
      (c :: r).takeWhile (fun x => !isspace x) ::
        tokensAux fuel ((c :: r).dropWhile (fun x => !isspace x))

/-- The whitespace-delimited tokens of a text. -/
def tokens (cs : List Char) : List (List Char) :=
  tokensAux cs.length cs

/-- The first whitespace-delimited token of a text (empty when there is none). -/
def nextToken (cs : List Char) : List Char :=
  (cs.dropWhile isspace).takeWhile (fun x => !isspace x)

/-- A token that is, in its entirety, a decimal integer: an optional sign
followed by one or more digits. -/
def isDecimalInteger (tok : List Char) : Bool :=
  !(takeSign tok).2.isEmpty && (takeSign tok).2.all isdigit

/-- A token that begins with a decimal integer: an optional sign followed by
a digit. -/
def startsWithInteger (tok : List Char) : Bool :=
  match (takeSign tok).2 with
  | c :: _ => isdigit c
  | [] => false

mutual
/-- The nodes of a tree in preorder: a node before its children, the children
from left to right. -/
def TreeNode.preorder : TreeNode → List TreeNode
  | .mk d cs => .mk d cs :: TreeNode.preorderList cs
/-- The nodes of a sequence of trees in preorder. -/
def TreeNode.preorderList : List TreeNode → List TreeNode
  | [] => []
  | c :: cs => c.preorder ++ TreeNode.preorderList cs
end

/-- The record of one node in the dump: its kind index, its packed value and
its number of children, each followed by a space. -/
def TreeNode.record (Types : List Alt) (n : TreeNode) : List Char :=
  natToChars n.GetCurrentTypeIndex ++ [' '] ++ n.DumpNodeData Types [] ++ [' ']
    ++ natToChars n.GetChilds.length ++ [' ']

/-- The text of a tree: the records of its nodes in preorder. -/
def TreeNode.preorderText (Types : List Alt) (t : TreeNode) : List Char :=
  (t.preorder.map (TreeNode.record Types)).flatten

mutual
/-- Every node of the tree satisfies `P`. -/
def TreeNode.All (P : TreeNode → Prop) : TreeNode → Prop
  | .mk d cs => P (.mk d cs) ∧ TreeNode.AllList P cs
/-- Every node of the trees of the sequence satisfies `P`. -/
def TreeNode.AllList (P : TreeNode → Prop) : List TreeNode → Prop
  | [] => True
  | c :: cs => c.All P ∧ TreeNode.AllList P cs
end

/-- The node values for which pack and unpack are exact inverses: no value, an
`int`, or a text that is not empty and has no whitespace, stored at the index
of its type among `std::monostate, Types...`. -/
def Variant.Exact (Types : List Alt) (v : Variant) : Prop :=
  variant_alternative Types v.index = some v.data.alt ∧
    match v.data with
    | .monostate => True
    | .int i => INT_MIN ≤ i ∧ i ≤ INT_MAX
    | .double _ => False
    | .string s => s ≠ [] ∧ ∀ c ∈ s, isspace c = false

/-- The nodes whose record `Load` reads back exactly: a value for which pack
and unpack are exact inverses, and a number of children that fits the `int`
into which `Load` reads the child count. -/
def TreeNode.Exact (Types : List Alt) (n : TreeNode) : Prop :=
  Variant.Exact Types n.m_data ∧ (n.m_childs.length : Int) ≤ INT_MAX

/-- A payload token that is valid for the kind `T`: a token (not empty, no
whitespace) that the kind's unpack visitor reads whole, giving the value `v`. -/
def ValidPayload (T : Alt) (tok : List Char) (v : Data) : Prop :=
  tok ≠ [] ∧ (∀ c ∈ tok, isspace c = false) ∧
    ∀ r : List Char,
      UnPackVisitor T (IStream.ofChars (' ' :: (tok ++ ' ' :: r))) =
        (some v, IStream.ofChars (' ' :: r))

namespace RecursiveDescent

/-- Parse `n` node records one after the other with the parser `parseNode`. -/
def parseChilds (parseNode : IStream → Option (Option TreeNode × IStream)) :
    Nat → IStream → Option (Option (List TreeNode) × IStream)
  | 0, is => some (some [], is)
  | n + 1, is =>
    match parseNode is with
    | some (some c, is1) =>
      match parseChilds parseNode n is1 with
      | some (some cs, is2) => some (some (c :: cs), is2)
      | some (none, is2) => some (none, is2)
      | none => none
    | some (none, is1) => some (none, is1)
    | none => none

/-- The recursive-descent parser of the grammar
`node := kindIndex value-tokens childCount node^childCount`, under a budget on
the nesting depth: the tree read, or no tree when a token is in error; `none`
when the budget is used up. -/
def parseNode (Types : List Alt) : Nat → IStream → Option (Option TreeNode × IStream)
  | 0, _ => none
  | depth + 1, is =>
    match TreeNode.LoadNodeData Types TreeNode.init is with
    | (false, _, is1) => some (none, is1)
    | (true, node, is1) =>
      match is1.extractInt with
      | (none, is2) => some (none, is2)
      | (some numChilds, is2) =>
        if numChilds < 0 then some (none, is2)
        else
          match parseChilds (parseNode Types depth) numChilds.toNat is2 with
          | some (some cs, is3) => some (some (.mk node.m_data cs), is3)
          | some (none, is3) => some (none, is3)
          | none => none

/-- Load by recursive descent: the parsed tree replaces the root when the
parse succeeds, and the tree is kept when it fails. The nesting depth allowed
is one more than the number of characters of the stream. -/
def Load (Types : List Alt) (self : Tree) (is : IStream) : Option (Bool × Tree × IStream) :=
  if !is.good then some (false, self, is)
  else
    match parseNode Types (is.buf.length + 1) is with
    | some (some root, is1) => some (true, { m_root := root }, is1)
    | some (none, is1) => some (false, self, is1)
    | none => none

end RecursiveDescent

namespace Tree

/-- The variables of `LoadImpl` at the head of its loop after `k` passes
through the body, when the execution gets that far. -/
def LoadImpl.stateAt (Types : List Alt) (is : IStream) : Nat → Option LoadState
  | 0 =>
    if !is.good then none
    else
      match TreeNode.LoadNodeData Types TreeNode.init is with
      | (false, _, _) => none
      | (true, root, is1) =>
        match is1.extractInt with
        | (none, _) => none
        | (some numChilds, is2) =>
          if numChilds < 0 then none
          else some { root := root, stck := pushCopies [] numChilds.toNat [], is := is2 }
  | k + 1 =>
    match LoadImpl.stateAt Types is k with
    | some { root := root, stck := parent :: stck, is := is1 } =>
      match LoadImpl.body Types root parent stck is1 with
      | .next s => some s
      | _ => none
    | _ => none

/-- The stream as it stands when `LoadImpl` extracts the child count of the
`k`-th node record (the root's for `k = 0`), when the execution gets that
far. -/
def LoadImpl.countStream (Types : List Alt) (is : IStream) : Nat → Option IStream
  | 0 =>
    if !is.good then none
    else
      match TreeNode.LoadNodeData Types TreeNode.init is with
      | (true, _, is1) => some is1
      | (false, _, _) => none
  | k + 1 =>
    match LoadImpl.stateAt Types is k with
    | some { root := root, stck := parent :: _, is := is1 } =>
      match TreeNode.LoadNodeData Types TreeNode.init is1 with
      | (true, node, is2) =>
        match root.AddChildAt parent node with
        | some _ => some is2
        | none => none
      | (false, _, _) => none
    | _ => none

/-- The child count `LoadImpl` extracts for the `k`-th node record (the root's
for `k = 0`), when the execution gets that far and the extraction succeeds. -/
def LoadImpl.countAt (Types : List Alt) (is : IStream) (k : Nat) : Option Int :=
  match LoadImpl.countStream Types is k with
  | some is1 => is1.extractInt.1
  | none => none

/-- The pointer `LoadImpl` holds to the node of the `k`-th node record once the
node is in the tree (`&root` for `k = 0`, the pointer `AddChild` has returned
otherwise), together with the node as `LoadNodeData` has filled it, when the
execution gets that far. -/
def LoadImpl.nodeAt (Types : List Alt) (is : IStream) : Nat → Option (List Nat × TreeNode)
  | 0 =>
    if !is.good then none
    else
      match TreeNode.LoadNodeData Types TreeNode.init is with
      | (true, root, _) => some ([], root)
      | (false, _, _) => none
  | k + 1 =>
    match LoadImpl.stateAt Types is k with
    | some { root := root, stck := parent :: _, is := is1 } =>
      match TreeNode.LoadNodeData Types TreeNode.init is1 with
      | (true, node, _) =>
        match root.AddChildAt parent node with
        | some (_, parent1) => some (parent1, node)
        | none => none
      | (false, _, _) => none
    | _ => none

/-- The invariant of the work stack of `LoadImpl` (top first): every slot refers
to a node on the rightmost path of the tree built so far, and the slots are
ordered from the deepest at the top to the shallowest at the bottom. -/
def LoadImpl.StackInvariant (root : TreeNode) (stck : List (List Nat)) : Prop :=
  (∀ p ∈ stck, root.onRightmostPath p = true) ∧
    stck.Pairwise (fun upper lower => lower.length ≤ upper.length)

end Tree

/-! ## Statements relating the loop of `LoadImpl` to the parser -/

/-- What the loop does with the slot on top of the stack when the parser reads
a whole tree `T` from the stream: it appends `T` to the slot's node. -/
def NodeSuccess (Types : List Alt) (d : Nat) : Prop :=
  ∀ (is is1 : IStream) (T : TreeNode), RecursiveDescent.parseNode Types d is = some (some T, is1) →
    is1.buf.length + T.size ≤ is.buf.length ∧
    ∀ (root r : TreeNode) (p q : List Nat) (stck : List (List Nat)) (f : Nat),
      root.AddChildAt p T = some (r, q) →
      Tree.LoadImpl.loop Types (f + T.size) { root := root, stck := p :: stck, is := is } =
        Tree.LoadImpl.loop Types f { root := r, stck := stck, is := is1 }

/-- What the loop does with the slot on top of the stack when the parser
fails: it returns false with the stream as the parser left it. -/
def NodeFailure (Types : List Alt) (d : Nat) : Prop :=
  ∀ (is is1 : IStream), RecursiveDescent.parseNode Types d is = some (none, is1) →
    ∀ (root : TreeNode) (p : List Nat) (stck : List (List Nat)) (f : Nat),
      (root.deref p).isSome = true → is.buf.length < f →
      Tree.LoadImpl.loop Types f { root := root, stck := p :: stck, is := is } = some (none, is1)

/-- The sub-diagrams of the children of a node as the claim on the print order
describes them: the children taken in reverse insertion order, the block of
the last-appended child first (drawn with `isRightChild` set), then the blocks
of the others down to the first-appended child. -/
def Tree.childBlocks (Types : List Alt) (newPfx : List Char) (cs : List TreeNode) :
    List Char :=
  match cs.reverse with
  | [] => []
  | last :: others =>
    Tree.PrintImpl Types [] newPfx last true ++
      (others.map (fun c => Tree.PrintImpl Types [] newPfx c false)).flatten

/-- The line `PrintImpl` draws for the node itself. -/
def Tree.ownLine (Types : List Alt) (pfx : List Char) (node : TreeNode) (isRightChild : Bool) :
    List Char :=
  pfx ++ (if isRightChild then "├───".toList else "└───".toList) ++
    node.PrintNodeData Types [] ++ ['\n']

/-- The connector glyph `PrintImpl` writes in front of a node's value. -/
def Tree.connector (isRightChild : Bool) : List Char :=
  if isRightChild then "├───".toList else "└───".toList

/-- The calls `PrintImpl(oss, newPrefix, child, isRightChild)` that `PrintImpl`
makes for the children of a node, in the order in which it makes them: the
child drawn and the flag passed. -/
def Tree.PrintImpl.childCalls (cs : List TreeNode) : List (TreeNode × Bool) :=
  match cs.reverse with
  | [] => []
  | last :: others => (last, true) :: others.map (fun c => (c, false))

/-- A stream from which the extraction of a child count makes `LoadImpl`
return false: the extraction fails or gives a negative number. -/
def BadCount (is : IStream) : Prop :=
  is.extractInt.1 = none ∨ ∃ n : Int, is.extractInt.1 = some n ∧ n < 0

/-! ## The demo program's kinds and the tree of the concrete scenario -/

/-- The `double` 3.5, that is `7881299347898368 * 2^(-51)`. -/
def dbl_3_5 : Dbl :=
  .finite false 7881299347898368 (-51)

/-- The tree of the scenario for the demo's kinds: a root holding the integer 5
with two leaf children, the float 3.5 and then the text `hello`. -/
def scenarioTree : Tree :=
  { m_root := .mk { index := 1, data := .int 5 }
      [.mk { index := 2, data := .double dbl_3_5 } [],
       .mk { index := 3, data := .string "hello".toList } []] }

/-- A tree whose values are all exact for the demo's kinds: the integer 5 with
two children, a node without value and the text `hello`, the latter with one
child holding the integer -3. -/
def exactTree : Tree :=
  { m_root := .mk { index := 1, data := .int 5 }
      [.mk { index := 0, data := .monostate } [],
       .mk { index := 3, data := .string "hello".toList }
         [.mk { index := 1, data := .int (-3) } []]] }

/-- A tree without values whose root has 2147483648 children, one more than
the largest `int`. -/
def wideTree : Tree :=
  { m_root := .mk { index := 0, data := .monostate }
      (List.replicate 2147483648 (.mk { index := 0, data := .monostate } [])) }

/-- A tree for the demo's kinds whose root, the integer 5, has one child
without value. -/
def oneChildTree : Tree :=
  { m_root := .mk { index := 1, data := .int 5 } [.mk { index := 0, data := .monostate } []] }

/-- A tree for the demo's kinds whose root, the integer 5, has one child
without value, which has one child, the leaf 7. -/
def chainTree : Tree :=
  { m_root := .mk { index := 1, data := .int 5 }
      [.mk { index := 0, data := .monostate } [.mk { index := 1, data := .int 7 } []]] }

/-- A tree for the demo's kinds whose root, the integer 5, has the three leaf
children 1, 2 and 3, appended in that order. -/
def threeChildTree : Tree :=
  { m_root := .mk { index := 1, data := .int 5 }
      [.mk { index := 1, data := .int 1 } [],
       .mk { index := 1, data := .int 2 } [],
       .mk { index := 1, data := .int 3 } []] }

/-- A tree for the demo's kinds that is a single leaf holding the empty text. -/
def emptyTextTree : Tree :=
  { m_root := .mk { index := 3, data := .string [] } [] }

/-- A tree for the demo's kinds whose root holds the empty text and has one
child without value. -/
def emptyTextParent : Tree :=
  { m_root := .mk { index := 3, data := .string [] } [.mk { index := 0, data := .monostate } []] }

end tree_lib

namespace tree_lib

/-! ## Decimal numerals -/

theorem digitChar_toNat (d : Nat) (h : d < 10) : (digitChar d).toNat = 48 + d := by
  interval_cases d <;> rfl

theorem isdigit_digitChar (d : Nat) (h : d < 10) : isdigit (digitChar d) = true := by
  interval_cases d <;> rfl

theorem isspace_of_isdigit {c : Char} (h : isdigit c = true) : isspace c = false := by
  simp only [isdigit, Bool.and_eq_true, decide_eq_true_eq] at h
  simp only [isspace, Bool.or_eq_false_iff, Bool.and_eq_false_iff, beq_eq_false_iff_ne,
    decide_eq_false_iff_not]
  omega

theorem natToCharsAux_eq (f : Nat) : ∀ (g n : Nat), n < f → n < g →
    natToCharsAux f n = natToCharsAux g n := by
  induction f with
  | zero => intro g n h; omega
  | succ f ih =>
    intro g n hf hg
    cases g with
    | zero => omega
    | succ g =>
      simp only [natToCharsAux]
      split
      · rfl
      · rw [ih g (n / 10) (by omega) (by omega)]

theorem natToChars_eq (n : Nat) :
    natToChars n = if n < 10 then [digitChar n] else natToChars (n / 10) ++ [digitChar (n % 10)] := by
  show natToCharsAux (n + 1) n = _
  rw [natToCharsAux]
  split
  · rfl
  · rw [natToCharsAux_eq n (n / 10 + 1) (n / 10) (by omega) (by omega)]
    rfl

theorem natToChars_ne_nil (n : Nat) : natToChars n ≠ [] := by
  rw [natToChars_eq]; split <;> simp

theorem natToChars_isdigit (n : Nat) : ∀ c ∈ natToChars n, isdigit c = true := by
  induction n using Nat.strong_induction_on with
  | _ n ih =>
    rw [natToChars_eq]
    split
    · intro c hc
      simp only [List.mem_singleton] at hc
      subst hc
      exact isdigit_digitChar n (by omega)
    · intro c hc
      simp only [List.mem_append, List.mem_singleton] at hc
      rcases hc with hc | hc
      · exact ih (n / 10) (by omega) c hc
      · subst hc
        exact isdigit_digitChar (n % 10) (by omega)

theorem digitsToNat_append_single (ds : List Char) (c : Char) :
    digitsToNat (ds ++ [c]) = 10 * digitsToNat ds + (c.toNat - 48) := by
  simp [digitsToNat, List.foldl_append]

theorem digitsToNat_natToChars (n : Nat) : digitsToNat (natToChars n) = n := by
  induction n using Nat.strong_induction_on with
  | _ n ih =>
    rw [natToChars_eq]
    split
    · simp [digitsToNat, digitChar_toNat n (by omega)]
    · rw [digitsToNat_append_single, ih (n / 10) (by omega), digitChar_toNat _ (by omega)]
      omega

theorem natToChars_head_isdigit (n : Nat) :
    ∃ c r, natToChars n = c :: r ∧ isdigit c = true := by
  cases h : natToChars n with
  | nil => exact absurd h (natToChars_ne_nil n)
  | cons c r =>
    exact ⟨c, r, rfl, natToChars_isdigit n c (by rw [h]; exact List.mem_cons_self _ _)⟩

/-! ## Extraction from streams -/

theorem takeWhile_append_stop {p : Char → Bool} (a b : List Char)
    (ha : ∀ c ∈ a, p c = true) (hb : ∀ c r, b = c :: r → p c = false) :
    (a ++ b).takeWhile p = a ∧ (a ++ b).dropWhile p = b := by
  induction a with
  | nil =>
    cases b with
    | nil => simp
    | cons c r => simp [List.takeWhile, List.dropWhile, hb c r rfl]
  | cons x a ih =>
    have hx : p x = true := ha x (List.mem_cons_self _ _)
    have := ih (fun c hc => ha c (List.mem_cons_of_mem _ hc))
    simp [List.takeWhile, List.dropWhile, hx, this.1, this.2]

theorem dropWhile_length_le (p : Char → Bool) (l : List Char) :
    (l.dropWhile p).length ≤ l.length := by
  induction l with
  | nil => simp
  | cons x l ih =>
    simp only [List.dropWhile]
    split
    · simp only [List.length_cons]; omega
    · simp

theorem takeWhile_dropWhile_length (p : Char → Bool) (l : List Char) :
    (l.takeWhile p).length + (l.dropWhile p).length = l.length := by
  have := congrArg List.length (List.takeWhile_append_dropWhile p l)
  rw [List.length_append] at this
  exact this

theorem takeSign_length_le (cs : List Char) : (takeSign cs).2.length ≤ cs.length := by
  unfold takeSign
  split <;> simp

theorem sentry_true {is is1 : IStream} (h : is.sentry = (true, is1)) :
    is.good = true ∧ is1.buf = is.buf.dropWhile isspace ∧ is1.buf ≠ [] ∧
      is1.eofbit = is.eofbit ∧ is1.failbit = is.failbit ∧ is1.badbit = is.badbit := by
  unfold IStream.sentry at h
  split at h
  · next hg =>
    split at h
    · simp at h
    · next c cs hd =>
      simp only [Prod.mk.injEq, true_and] at h
      subst h
      simp [hg, hd]
  · simp at h

theorem sentry_length_le {is is1 : IStream} (h : is.sentry = (true, is1)) :
    is1.buf.length ≤ is.buf.length := by
  rw [(sentry_true h).2.1]
  exact dropWhile_length_le _ _

theorem sentry_of_prefix (is : IStream) (pre : List Char) (c : Char) (r : List Char)
    (hg : is.good = true) (hb : is.buf = pre ++ c :: r) (hpre : ∀ x ∈ pre, isspace x = true)
    (hc : isspace c = false) :
    is.sentry = (true, { is with buf := c :: r }) := by
  have := (takeWhile_append_stop pre (c :: r) hpre
    (fun x y hxy => by cases hxy; exact hc)).2
  unfold IStream.sentry
  rw [hg, hb, this]
  rfl

theorem extractInt_some_length {is is1 : IStream} {v : Int}
    (h : is.extractInt = (some v, is1)) : is1.buf.length < is.buf.length := by
  unfold IStream.extractInt at h
  split at h
  · simp at h
  · next is0 hs =>
    have h1 := sentry_length_le hs
    have h2 := takeSign_length_le is0.buf
    have h3 := takeWhile_dropWhile_length isdigit (takeSign is0.buf).2
    simp only at h
    split at h
    · simp at h
    · next hne =>
      split at h
      · simp at h
      · simp only [Prod.mk.injEq, Option.some.injEq] at h
        rw [← h.2]
        simp only
        have : ((takeSign is0.buf).2.takeWhile isdigit).length ≠ 0 := by
          intro h0
          apply hne
          simp [List.length_eq_zero.mp h0]
        omega

theorem extractString_some_length {is is1 : IStream} {v : List Char}
    (h : is.extractString = (some v, is1)) : is1.buf.length ≤ is.buf.length := by
  unfold IStream.extractString at h
  split at h
  · simp at h
  · next is0 hs =>
    have h1 := sentry_length_le hs
    have h3 := dropWhile_length_le (fun c => !isspace c) is0.buf
    simp only at h
    split at h
    · simp at h
    · simp only [Prod.mk.injEq, Option.some.injEq] at h
      rw [← h.2]
      simp only
      omega

theorem takeFraction_length_le (cs : List Char) : (takeFraction cs).2.length ≤ cs.length := by
  unfold takeFraction
  split
  · have := dropWhile_length_le isdigit ‹List Char›
    simp only [List.length_cons]
    omega
  · simp

theorem takeExponent_length_le (m : Bool) (cs : List Char) :
    (takeExponent m cs).2.2.2.length ≤ cs.length := by
  unfold takeExponent
  split
  · next c r =>
    split
    · have h1 := dropWhile_length_le isdigit (takeSign r).2
      have h2 := takeSign_length_le r
      simp only [List.length_cons]
      omega
    · simp
  · simp

theorem scanFloat_length_le (b : List Char) : (scanFloat b).rest.length ≤ b.length := by
  unfold scanFloat
  simp only
  have h1 := takeSign_length_le b
  have h2 := dropWhile_length_le isdigit (takeSign b).2
  have h3 := takeFraction_length_le ((takeSign b).2.dropWhile isdigit)
  have h4 := takeExponent_length_le
    (!((takeSign b).2.takeWhile isdigit ++ (takeFraction ((takeSign b).2.dropWhile isdigit)).1).isEmpty)
    (takeFraction ((takeSign b).2.dropWhile isdigit)).2
  omega

theorem extractDouble_some_length {is is1 : IStream} {v : Dbl}
    (h : is.extractDouble = (some v, is1)) : is1.buf.length ≤ is.buf.length := by
  unfold IStream.extractDouble at h
  split at h
  · simp at h
  · next is0 hs =>
    have h1 := sentry_length_le hs
    have h2 := scanFloat_length_le is0.buf
    simp only at h
    split at h
    · simp only [Prod.mk.injEq, Option.some.injEq] at h
      rw [← h.2]
      simp only
      omega
    · simp at h

/-! ## The dispatcher and the node parser -/

theorem VariantSwitch.UnPack_eq (Types : List Alt) (N index : Nat) (is : IStream) :
    VariantSwitch.UnPack Types N index is =
      if index ≤ N then VariantSwitchHelper.UnPackByTypeIndex Types index is else (none, is) := by
  induction N with
  | zero =>
    simp only [VariantSwitch.UnPack, Nat.le_zero_eq]
    split
    · next h => rw [h]
    · rfl
  | succ N ih =>
    simp only [VariantSwitch.UnPack]
    split
    · next h => rw [h]; simp
    · next h =>
      rw [ih]
      have : (index ≤ N + 1) = (index ≤ N) := by
        apply propext; constructor <;> intro h' <;> omega
      simp only [this]

theorem VariantSwitch.Pack_eq (Types : List Alt) (N index : Nat) (os : List Char) (v : Variant)
    (h : index ≤ N) :
    VariantSwitch.Pack Types N index os v =
      VariantSwitchHelper.PackByTypeIndex Types index os v := by
  induction N with
  | zero =>
    have : index = 0 := by omega
    subst this
    rfl
  | succ N ih =>
    simp only [VariantSwitch.Pack]
    split
    · next h' => rw [h']
    · next h' => exact ih (by omega)

theorem VariantSwitch.Print_eq (Types : List Alt) (N index : Nat) (os : List Char) (v : Variant)
    (h : index ≤ N) :
    VariantSwitch.Print Types N index os v =
      VariantSwitchHelper.PrintByTypeIndex Types index os v := by
  induction N with
  | zero =>
    have : index = 0 := by omega
    subst this
    rfl
  | succ N ih =>
    simp only [VariantSwitch.Print]
    split
    · next h' => rw [h']
    · next h' => exact ih (by omega)

theorem variant_alternative_some_le {Types : List Alt} {N : Nat} {T : Alt}
    (h : variant_alternative Types N = some T) :
    N ≤ TreeNode.InternalVariantStorageTypeIndexSize Types := by
  unfold variant_alternative at h
  have := List.getElem?_eq_some_iff.mp h
  obtain ⟨hlt, _⟩ := this
  unfold TreeNode.InternalVariantStorageTypeIndexSize
  omega

theorem UnPackVisitor_some_length {T : Alt} {is is1 : IStream} {d : Data}
    (h : UnPackVisitor T is = (some d, is1)) : is1.buf.length ≤ is.buf.length := by
  unfold UnPackVisitor at h
  split at h
  · simp only [Prod.mk.injEq, Option.some.injEq] at h
    rw [← h.2]
  · split at h
    · next v is' he =>
      simp only [Prod.mk.injEq, Option.some.injEq] at h
      rw [← h.2]
      exact Nat.le_of_lt (extractInt_some_length he)
    · simp at h
  · split at h
    · next v is' he =>
      simp only [Prod.mk.injEq, Option.some.injEq] at h
      rw [← h.2]
      exact extractDouble_some_length he
    · simp at h
  · split at h
    · next v is' he =>
      simp only [Prod.mk.injEq, Option.some.injEq] at h
      rw [← h.2]
      exact extractString_some_length he
    · simp at h

/-- What a successful `LoadNodeData` has done: it has read a kind index within
the range, and the visitor of that kind has unpacked the value. -/
theorem LoadNodeData_true {Types : List Alt} {self node : TreeNode} {is is1 : IStream}
    (h : TreeNode.LoadNodeData Types self is = (true, node, is1)) :
    ∃ (i : Int) (is0 : IStream) (T : Alt) (d : Data),
      is.extractInt = (some i, is0) ∧ 0 ≤ i ∧
      variant_alternative Types i.toNat = some T ∧
      UnPackVisitor T is0 = (some d, is1) ∧
      node = .mk { index := i.toNat, data := d } self.m_childs := by
  unfold TreeNode.LoadNodeData at h
  split at h
  · simp at h
  · next i is0 he =>
    split at h
    · simp at h
    · next hi =>
      simp only at h
      split at h
      · simp at h
      · next hk =>
        split at h
        · simp at h
        · next nodeData is2 hU =>
          rw [VariantSwitch.UnPack_eq, if_pos (by omega)] at hU
          unfold VariantSwitchHelper.UnPackByTypeIndex at hU
          split at hU
          · next T hT =>
            split at hU
            · next v is3 hu =>
              simp only [Prod.mk.injEq, Option.some.injEq] at hU
              simp only [Prod.mk.injEq, true_and] at h
              refine ⟨i, is0, T, v, he, by omega, hT, ?_, ?_⟩
              · rw [hu, ← h.2, hU.2]
              · rw [← h.1, ← hU.1]
            · simp at hU
          · simp at hU

/-- The converse of `LoadNodeData_true`. -/
theorem LoadNodeData_of_parts {Types : List Alt} (self : TreeNode) {is is0 is1 : IStream}
    {i : Int} {T : Alt} {d : Data}
    (he : is.extractInt = (some i, is0)) (hi : 0 ≤ i)
    (hT : variant_alternative Types i.toNat = some T)
    (hu : UnPackVisitor T is0 = (some d, is1)) :
    TreeNode.LoadNodeData Types self is =
      (true, .mk { index := i.toNat, data := d } self.m_childs, is1) := by
  have hk := variant_alternative_some_le hT
  unfold TreeNode.LoadNodeData
  rw [he]
  simp only
  rw [if_neg (by omega), if_neg (by omega), VariantSwitch.UnPack_eq, if_pos hk]
  unfold VariantSwitchHelper.UnPackByTypeIndex
  rw [hT]
  simp only
  rw [hu]

theorem LoadNodeData_true_length {Types : List Alt} {self node : TreeNode} {is is1 : IStream}
    (h : TreeNode.LoadNodeData Types self is = (true, node, is1)) :
    is1.buf.length < is.buf.length := by
  obtain ⟨i, is0, T, d, he, _, _, hu, _⟩ := LoadNodeData_true h
  have := extractInt_some_length he
  have := UnPackVisitor_some_length hu
  omega

theorem LoadNodeData_init_childs {Types : List Alt} {node : TreeNode} {is is1 : IStream}
    (h : TreeNode.LoadNodeData Types TreeNode.init is = (true, node, is1)) :
    node = .mk node.m_data [] := by
  obtain ⟨i, is0, T, d, _, _, _, _, hn⟩ := LoadNodeData_true h
  rw [hn]
  rfl

/-- A failing `LoadNodeData` leaves the node as it was. -/
theorem LoadNodeData_false {Types : List Alt} {self node : TreeNode} {is is1 : IStream}
    (h : TreeNode.LoadNodeData Types self is = (false, node, is1)) : node = self := by
  unfold TreeNode.LoadNodeData at h
  split at h
  · simp only [Prod.mk.injEq, true_and] at h; exact h.1.symm
  · split at h
    · simp only [Prod.mk.injEq, true_and] at h; exact h.1.symm
    · simp only at h
      split at h
      · simp only [Prod.mk.injEq, true_and] at h; exact h.1.symm
      · split at h
        · simp only [Prod.mk.injEq, true_and] at h; exact h.1.symm
        · simp at h

/-! ## Stacks and pointers into the tree -/

theorem pushCopies_eq {α : Type} (x : α) (n : Nat) (stck : List α) :
    pushCopies x n stck = List.replicate n x ++ stck := by
  induction n generalizing stck with
  | zero => rfl
  | succ n ih =>
    rw [pushCopies, ih, List.replicate_succ']
    simp

theorem pushReversed_eq {α : Type} (xs stck : List α) : pushReversed xs stck = xs ++ stck := by
  unfold pushReversed
  induction xs generalizing stck with
  | nil => rfl
  | cons x xs ih =>
    rw [List.reverse_cons, List.foldl_append]
    simp [ih]

@[simp] theorem TreeNode.m_childs_mk (d : Variant) (cs : List TreeNode) :
    (TreeNode.mk d cs).m_childs = cs := rfl

@[simp] theorem TreeNode.m_data_mk (d : Variant) (cs : List TreeNode) :
    (TreeNode.mk d cs).m_data = d := rfl

theorem TreeNode.eta (t : TreeNode) : TreeNode.mk t.m_data t.m_childs = t := by
  cases t; rfl

theorem TreeNode.size_pos (t : TreeNode) : 0 < t.size := by
  cases t; simp [TreeNode.size]

theorem AddChildAt_isSome_iff (p : List Nat) : ∀ (root x : TreeNode),
    (root.AddChildAt p x).isSome = (root.deref p).isSome := by
  induction p with
  | nil => intro root x; rfl
  | cons i p ih =>
    intro root x
    simp only [TreeNode.AddChildAt, TreeNode.deref]
    cases h : root.m_childs[i]? with
    | none => rfl
    | some c =>
      simp only
      rw [← ih c x]
      cases h2 : c.AddChildAt p x with
      | none => rfl
      | some r => rfl

theorem AddChildAt_deref_new (p : List Nat) : ∀ (root x r : TreeNode) (q : List Nat),
    root.AddChildAt p x = some (r, q) → r.deref q = some x := by
  induction p with
  | nil =>
    intro root x r q h
    obtain ⟨d, cs⟩ := root
    simp only [TreeNode.AddChildAt, TreeNode.AddChild, Option.some.injEq, Prod.mk.injEq,
      TreeNode.m_childs_mk, TreeNode.m_data_mk] at h
    obtain ⟨h1, h2⟩ := h
    subst h1 h2
    simp [TreeNode.deref]
  | cons i p ih =>
    intro root x r q h
    obtain ⟨d, cs⟩ := root
    simp only [TreeNode.AddChildAt, TreeNode.m_childs_mk, TreeNode.m_data_mk] at h
    cases hc : cs[i]? with
    | none => rw [hc] at h; simp at h
    | some c =>
      rw [hc] at h
      simp only at h
      cases h2 : c.AddChildAt p x with
      | none => rw [h2] at h; simp at h
      | some rq =>
        obtain ⟨c1, q1⟩ := rq
        rw [h2] at h
        simp only [Option.some.injEq, Prod.mk.injEq] at h
        obtain ⟨h3, h4⟩ := h
        subst h3 h4
        have hi : i < cs.length := (List.getElem?_eq_some_iff.mp hc).1
        simp only [TreeNode.deref, TreeNode.m_childs_mk]
        rw [List.getElem?_set_self hi]
        exact ih c x c1 q1 h2

theorem AddChildAt_deref_keep (p : List Nat) : ∀ (root x r : TreeNode) (q p' : List Nat),
    root.AddChildAt p x = some (r, q) → (root.deref p').isSome = true →
      (r.deref p').isSome = true := by
  induction p with
  | nil =>
    intro root x r q p' h hv
    obtain ⟨d, cs⟩ := root
    simp only [TreeNode.AddChildAt, TreeNode.AddChild, Option.some.injEq, Prod.mk.injEq,
      TreeNode.m_childs_mk, TreeNode.m_data_mk] at h
    obtain ⟨h1, _⟩ := h
    subst h1
    cases p' with
    | nil => rfl
    | cons j p'' =>
      simp only [TreeNode.deref, TreeNode.m_childs_mk] at hv ⊢
      cases hj : cs[j]? with
      | none => rw [hj] at hv; simp at hv
      | some c =>
        rw [hj] at hv
        have hlt : j < cs.length := (List.getElem?_eq_some_iff.mp hj).1
        rw [List.getElem?_append_left hlt, hj]
        exact hv
  | cons i p ih =>
    intro root x r q p' h hv
    obtain ⟨d, cs⟩ := root
    simp only [TreeNode.AddChildAt, TreeNode.m_childs_mk, TreeNode.m_data_mk] at h
    cases hc : cs[i]? with
    | none => rw [hc] at h; simp at h
    | some c =>
      rw [hc] at h
      simp only at h
      cases h2 : c.AddChildAt p x with
      | none => rw [h2] at h; simp at h
      | some rq =>
        obtain ⟨c1, q1⟩ := rq
        rw [h2] at h
        simp only [Option.some.injEq, Prod.mk.injEq] at h
        obtain ⟨h3, _⟩ := h
        subst h3
        have hi : i < cs.length := (List.getElem?_eq_some_iff.mp hc).1
        cases p' with
        | nil => rfl
        | cons j p'' =>
          simp only [TreeNode.deref, TreeNode.m_childs_mk] at hv ⊢
          by_cases hij : i = j
          · subst hij
            rw [List.getElem?_set_self hi]
            rw [hc] at hv
            exact ih c x c1 q1 p'' h2 hv
          · rw [List.getElem?_set_ne hij]
            exact hv

theorem AddChildAt_path (p : List Nat) : ∀ (root x y r : TreeNode) (q : List Nat),
    root.AddChildAt p x = some (r, q) → ∃ r', root.AddChildAt p y = some (r', q) := by
  induction p with
  | nil =>
    intro root x y r q h
    obtain ⟨d, cs⟩ := root
    simp only [TreeNode.AddChildAt, TreeNode.AddChild, Option.some.injEq, Prod.mk.injEq,
      TreeNode.m_childs_mk, TreeNode.m_data_mk] at h ⊢
    obtain ⟨_, h2⟩ := h
    subst h2
    exact ⟨_, rfl, by simp⟩
  | cons i p ih =>
    intro root x y r q h
    obtain ⟨d, cs⟩ := root
    simp only [TreeNode.AddChildAt, TreeNode.m_childs_mk, TreeNode.m_data_mk] at h ⊢
    cases hc : cs[i]? with
    | none => rw [hc] at h; simp at h
    | some c =>
      rw [hc] at h
      simp only at h ⊢
      cases h2 : c.AddChildAt p x with
      | none => rw [h2] at h; simp at h
      | some rq =>
        obtain ⟨c1, q1⟩ := rq
        rw [h2] at h
        simp only [Option.some.injEq, Prod.mk.injEq] at h
        obtain ⟨_, h4⟩ := h
        subst h4
        obtain ⟨c2, hc2⟩ := ih c x y c1 q1 h2
        rw [hc2]
        exact ⟨_, rfl⟩

theorem AddChildAt_then (p : List Nat) : ∀ (root r1 r2 c : TreeNode) (d : Variant)
    (ys : List TreeNode) (q q2 : List Nat),
    root.AddChildAt p (.mk d ys) = some (r1, q) → r1.AddChildAt q c = some (r2, q2) →
      root.AddChildAt p (.mk d (ys ++ [c])) = some (r2, q) := by
  induction p with
  | nil =>
    intro root r1 r2 c d ys q q2 h1 h2
    obtain ⟨rd, cs⟩ := root
    simp only [TreeNode.AddChildAt, TreeNode.AddChild, Option.some.injEq, Prod.mk.injEq,
      TreeNode.m_childs_mk, TreeNode.m_data_mk] at h1 ⊢
    obtain ⟨h1a, h1b⟩ := h1
    subst h1a h1b
    simp only [List.length_append, List.length_singleton, Nat.add_sub_cancel,
      TreeNode.AddChildAt, TreeNode.m_childs_mk, TreeNode.m_data_mk,
      List.getElem?_concat_length, TreeNode.AddChild, Option.some.injEq, Prod.mk.injEq] at h2
    obtain ⟨h2a, _⟩ := h2
    subst h2a
    simp
  | cons i p ih =>
    intro root r1 r2 c d ys q q2 h1 h2
    obtain ⟨rd, cs⟩ := root
    simp only [TreeNode.AddChildAt, TreeNode.m_childs_mk, TreeNode.m_data_mk] at h1 ⊢
    cases hc : cs[i]? with
    | none => rw [hc] at h1; simp at h1
    | some x =>
      rw [hc] at h1
      simp only at h1 ⊢
      cases hx : x.AddChildAt p (.mk d ys) with
      | none => rw [hx] at h1; simp at h1
      | some rq =>
        obtain ⟨x1, q1⟩ := rq
        rw [hx] at h1
        simp only [Option.some.injEq, Prod.mk.injEq] at h1
        obtain ⟨h1a, h1b⟩ := h1
        subst h1a h1b
        have hi : i < cs.length := (List.getElem?_eq_some_iff.mp hc).1
        simp only [TreeNode.AddChildAt, TreeNode.m_childs_mk, TreeNode.m_data_mk,
          List.getElem?_set_self hi] at h2
        cases hx2 : x1.AddChildAt q1 c with
        | none => rw [hx2] at h2; simp at h2
        | some rq2 =>
          obtain ⟨x2, q3⟩ := rq2
          rw [hx2] at h2
          simp only [Option.some.injEq, Prod.mk.injEq, List.set_set] at h2
          obtain ⟨h2a, _⟩ := h2
          subst h2a
          rw [ih x x1 x2 c d ys q1 q3 hx hx2]

theorem AddChildsAt_of_AddChildAt (cs : List TreeNode) : ∀ (root r1 r : TreeNode) (d : Variant)
    (ys : List TreeNode) (p q q' : List Nat),
    root.AddChildAt p (.mk d ys) = some (r1, q) →
    root.AddChildAt p (.mk d (ys ++ cs)) = some (r, q') →
      r1.AddChildsAt q cs = some r := by
  induction cs with
  | nil =>
    intro root r1 r d ys p q q' h1 h2
    rw [List.append_nil, h1] at h2
    simp only [Option.some.injEq, Prod.mk.injEq] at h2
    rw [TreeNode.AddChildsAt, h2.1]
  | cons c cs ih =>
    intro root r1 r d ys p q q' h1 h2
    have hv : (r1.AddChildAt q c).isSome = true := by
      rw [AddChildAt_isSome_iff, AddChildAt_deref_new p root _ r1 q h1]
      rfl
    cases h3 : r1.AddChildAt q c with
    | none => rw [h3] at hv; simp at hv
    | some rq =>
      obtain ⟨r2, q2⟩ := rq
      have h4 := AddChildAt_then p root r1 r2 c d ys q q2 h1 h3
      rw [TreeNode.AddChildsAt, h3]
      simp only
      refine ih root r2 r d (ys ++ [c]) p q q' h4 ?_
      rw [List.append_assoc]
      exact h2

theorem AddChildsAt_root (cs : List TreeNode) : ∀ (d : Variant) (ys : List TreeNode),
    (TreeNode.mk d ys).AddChildsAt [] cs = some (.mk d (ys ++ cs)) := by
  induction cs with
  | nil => intro d ys; simp [TreeNode.AddChildsAt]
  | cons c cs ih =>
    intro d ys
    simp only [TreeNode.AddChildsAt, TreeNode.AddChildAt, TreeNode.AddChild,
      TreeNode.m_data_mk, TreeNode.m_childs_mk]
    rw [ih]
    simp

/-! ## Dump -/

theorem PackVisitor_append (T : Alt) (os : List Char) (v : Data) :
    PackVisitor T os v = os ++ PackVisitor T [] v := by
  cases T <;> cases v <;> simp [PackVisitor]

theorem PackByTypeIndex_append (Types : List Alt) (N : Nat) (os : List Char) (v : Variant) :
    VariantSwitchHelper.PackByTypeIndex Types N os v =
      os ++ VariantSwitchHelper.PackByTypeIndex Types N [] v := by
  unfold VariantSwitchHelper.PackByTypeIndex
  split
  · exact PackVisitor_append _ _ _
  · simp

theorem VariantSwitch.Pack_append (Types : List Alt) (N index : Nat) (os : List Char)
    (v : Variant) :
    VariantSwitch.Pack Types N index os v = os ++ VariantSwitch.Pack Types N index [] v := by
  induction N with
  | zero => exact PackByTypeIndex_append _ _ _ _
  | succ N ih =>
    simp only [VariantSwitch.Pack]
    split
    · exact PackByTypeIndex_append _ _ _ _
    · exact ih

theorem DumpNodeData_append (Types : List Alt) (n : TreeNode) (os : List Char) :
    n.DumpNodeData Types os = os ++ n.DumpNodeData Types [] :=
  VariantSwitch.Pack_append _ _ _ _ _

theorem DumpImpl.loop_step (Types : List Alt) (f : Nat) (t : TreeNode) (stck : List TreeNode)
    (oss : List Char) :
    Tree.DumpImpl.loop Types (f + 1) (t :: stck) oss =
      Tree.DumpImpl.loop Types f (t.m_childs ++ stck) (oss ++ t.record Types) := by
  rw [Tree.DumpImpl.loop]
  simp only [pushReversed_eq, TreeNode.GetChilds, TreeNode.record]
  rw [DumpNodeData_append]
  simp only [List.append_assoc]

mutual
theorem DumpImpl.loop_node (Types : List Alt) : ∀ (t : TreeNode) (f : Nat)
    (stck : List TreeNode) (oss : List Char),
    Tree.DumpImpl.loop Types (f + t.size) (t :: stck) oss =
      Tree.DumpImpl.loop Types f stck (oss ++ (t.preorder.map (TreeNode.record Types)).flatten)
  | .mk d cs, f, stck, oss => by
    have ih := DumpImpl.loop_list Types cs f stck (oss ++ (TreeNode.mk d cs).record Types)
    have hs : f + (TreeNode.mk d cs).size = (f + TreeNode.sizeList cs) + 1 := by
      simp only [TreeNode.size]; omega
    rw [hs, DumpImpl.loop_step, TreeNode.m_childs_mk, ih]
    simp [TreeNode.preorder]
theorem DumpImpl.loop_list (Types : List Alt) : ∀ (cs : List TreeNode) (f : Nat)
    (stck : List TreeNode) (oss : List Char),
    Tree.DumpImpl.loop Types (f + TreeNode.sizeList cs) (cs ++ stck) oss =
      Tree.DumpImpl.loop Types f stck
        (oss ++ ((TreeNode.preorderList cs).map (TreeNode.record Types)).flatten)
  | [], f, stck, oss => by simp [TreeNode.sizeList, TreeNode.preorderList]
  | c :: cs, f, stck, oss => by
    have h1 := DumpImpl.loop_node Types c (f + TreeNode.sizeList cs) (cs ++ stck) oss
    have h2 := DumpImpl.loop_list Types cs f stck
      (oss ++ (c.preorder.map (TreeNode.record Types)).flatten)
    have hs : f + TreeNode.sizeList (c :: cs) = (f + TreeNode.sizeList cs) + c.size := by
      simp only [TreeNode.sizeList]; omega
    rw [hs, List.cons_append, h1, h2]
    simp [TreeNode.preorderList]
end

theorem Tree.Dump_eq (Types : List Alt) (t : Tree) :
    t.Dump Types = some ((t.m_root.preorder.map (TreeNode.record Types)).flatten) := by
  have h := DumpImpl.loop_node Types t.m_root 0 [] []
  simp only [Nat.zero_add, List.nil_append] at h
  show Tree.DumpImpl.loop Types t.m_root.size [t.m_root] [] = _
  rw [h]
  rfl

/-! ## Load: the loop and the recursive-descent parser -/

section LoadLoop

open Tree RecursiveDescent

theorem LoadImpl.loop_nil (Types : List Alt) (f : Nat) (root : TreeNode) (is : IStream) :
    LoadImpl.loop Types f { root := root, stck := [], is := is } = some (some root, is) := by
  cases f <;> rfl

theorem LoadImpl.loop_cons (Types : List Alt) (f : Nat) (root : TreeNode) (p : List Nat)
    (stck : List (List Nat)) (is : IStream) :
    LoadImpl.loop Types (f + 1) { root := root, stck := p :: stck, is := is } =
      match LoadImpl.body Types root p stck is with
      | .next s => LoadImpl.loop Types f s
      | .fail is1 => some (none, is1)
      | .dangling => none := rfl

theorem LoadImpl.body_next {Types : List Alt} {root node r1 : TreeNode} {p q : List Nat}
    (stck : List (List Nat)) {is is1 is2 : IStream} {n : Int}
    (h1 : TreeNode.LoadNodeData Types TreeNode.init is = (true, node, is1))
    (h2 : root.AddChildAt p node = some (r1, q))
    (h3 : is1.extractInt = (some n, is2)) (h4 : ¬ n < 0) :
    LoadImpl.body Types root p stck is =
      .next { root := r1, stck := List.replicate n.toNat q ++ stck, is := is2 } := by
  simp only [LoadImpl.body, h1, h2, h3, h4, if_false, pushCopies_eq]

theorem LoadImpl.body_fail_node {Types : List Alt} {root node : TreeNode} {p : List Nat}
    (stck : List (List Nat)) {is is1 : IStream}
    (h1 : TreeNode.LoadNodeData Types TreeNode.init is = (false, node, is1)) :
    LoadImpl.body Types root p stck is = .fail is1 := by
  simp only [LoadImpl.body, h1]

theorem LoadImpl.body_fail_count {Types : List Alt} {root node r1 : TreeNode} {p q : List Nat}
    (stck : List (List Nat)) {is is1 is2 : IStream}
    (h1 : TreeNode.LoadNodeData Types TreeNode.init is = (true, node, is1))
    (h2 : root.AddChildAt p node = some (r1, q))
    (h3 : is1.extractInt = (none, is2)) :
    LoadImpl.body Types root p stck is = .fail is2 := by
  simp only [LoadImpl.body, h1, h2, h3]

theorem LoadImpl.body_fail_negative {Types : List Alt} {root node r1 : TreeNode}
    {p q : List Nat} (stck : List (List Nat)) {is is1 is2 : IStream} {n : Int}
    (h1 : TreeNode.LoadNodeData Types TreeNode.init is = (true, node, is1))
    (h2 : root.AddChildAt p node = some (r1, q))
    (h3 : is1.extractInt = (some n, is2)) (h4 : n < 0) :
    LoadImpl.body Types root p stck is = .fail is2 := by
  simp only [LoadImpl.body, h1, h2, h3, h4, if_true]

theorem AddChildAt_of_deref {root : TreeNode} {p : List Nat} (x : TreeNode)
    (h : (root.deref p).isSome = true) : ∃ r q, root.AddChildAt p x = some (r, q) := by
  rw [← AddChildAt_isSome_iff p root x] at h
  cases h2 : root.AddChildAt p x with
  | none => rw [h2] at h; simp at h
  | some rq => exact ⟨rq.1, rq.2, rfl⟩

theorem forest_success {Types : List Alt} {d : Nat} (hS : NodeSuccess Types d) :
    ∀ (n : Nat) (is is1 : IStream) (cs : List TreeNode),
    parseChilds (parseNode Types d) n is = some (some cs, is1) →
      cs.length = n ∧ is1.buf.length + TreeNode.sizeList cs ≤ is.buf.length ∧
      ∀ (root r : TreeNode) (q : List Nat) (stck : List (List Nat)) (f : Nat),
        root.AddChildsAt q cs = some r →
        LoadImpl.loop Types (f + TreeNode.sizeList cs)
            { root := root, stck := List.replicate n q ++ stck, is := is } =
          LoadImpl.loop Types f { root := r, stck := stck, is := is1 } := by
  intro n
  induction n with
  | zero =>
    intro is is1 cs h
    simp only [parseChilds, Option.some.injEq, Prod.mk.injEq] at h
    obtain ⟨h1, h2⟩ := h
    subst h1 h2
    refine ⟨rfl, by simp [TreeNode.sizeList], ?_⟩
    intro root r q stck f hr
    simp only [TreeNode.AddChildsAt, Option.some.injEq] at hr
    subst hr
    simp [TreeNode.sizeList]
  | succ n ih =>
    intro is is1 cs h
    rw [parseChilds] at h
    cases hc : parseNode Types d is with
    | none => rw [hc] at h; simp at h
    | some r0 =>
      obtain ⟨oc, is2⟩ := r0
      cases oc with
      | none => rw [hc] at h; simp at h
      | some c =>
        rw [hc] at h
        simp only at h
        cases hcs : parseChilds (parseNode Types d) n is2 with
        | none => rw [hcs] at h; simp at h
        | some r1 =>
          obtain ⟨ocs, is3⟩ := r1
          cases ocs with
          | none => rw [hcs] at h; simp at h
          | some cs' =>
            rw [hcs] at h
            simp only [Option.some.injEq, Prod.mk.injEq] at h
            obtain ⟨h1, h2⟩ := h
            subst h1 h2
            obtain ⟨hl, hlen, hloop⟩ := ih is2 is3 cs' hcs
            obtain ⟨hlen1, hloop1⟩ := hS is is2 c hc
            refine ⟨by simp [hl], by simp only [TreeNode.sizeList]; omega, ?_⟩
            intro root r q stck f hr
            rw [TreeNode.AddChildsAt] at hr
            cases ha : root.AddChildAt q c with
            | none => rw [ha] at hr; simp at hr
            | some rq =>
              obtain ⟨r2, q2⟩ := rq
              rw [ha] at hr
              simp only at hr
              have e : f + TreeNode.sizeList (c :: cs') = (f + TreeNode.sizeList cs') + c.size := by
                simp only [TreeNode.sizeList]; omega
              rw [e, List.replicate_succ, List.cons_append,
                hloop1 root r2 q q2 _ _ ha, hloop r2 r q stck f hr]

end LoadLoop

section LoadLoop2

open Tree RecursiveDescent

theorem forest_failure {Types : List Alt} {d : Nat} (hS : NodeSuccess Types d)
    (hF : NodeFailure Types d) :
    ∀ (n : Nat) (is is1 : IStream),
    parseChilds (parseNode Types d) n is = some (none, is1) →
      ∀ (root : TreeNode) (q : List Nat) (stck : List (List Nat)) (f : Nat),
        (root.deref q).isSome = true → is.buf.length < f →
        LoadImpl.loop Types f { root := root, stck := List.replicate n q ++ stck, is := is } =
          some (none, is1) := by
  intro n
  induction n with
  | zero =>
    intro is is1 h
    simp [parseChilds] at h
  | succ n ih =>
    intro is is1 h root q stck f hv hf
    rw [parseChilds] at h
    cases hc : parseNode Types d is with
    | none => rw [hc] at h; simp at h
    | some r0 =>
      obtain ⟨oc, is2⟩ := r0
      cases oc with
      | none =>
        rw [hc] at h
        simp only [Option.some.injEq, Prod.mk.injEq, true_and] at h
        subst h
        rw [List.replicate_succ, List.cons_append]
        exact hF is is2 hc root q _ f hv hf
      | some c =>
        rw [hc] at h
        simp only at h
        cases hcs : parseChilds (parseNode Types d) n is2 with
        | none => rw [hcs] at h; simp at h
        | some r1 =>
          obtain ⟨ocs, is3⟩ := r1
          cases ocs with
          | some cs' => rw [hcs] at h; simp at h
          | none =>
            rw [hcs] at h
            simp only [Option.some.injEq, Prod.mk.injEq, true_and] at h
            subst h
            obtain ⟨hlen1, hloop1⟩ := hS is is2 c hc
            obtain ⟨r2, q2, ha⟩ := AddChildAt_of_deref c hv
            have hv2 := AddChildAt_deref_keep q root c r2 q2 q ha hv
            have e : f = (f - c.size) + c.size := by omega
            rw [e, List.replicate_succ, List.cons_append, hloop1 root r2 q q2 _ _ ha]
            exact ih is2 is3 hcs r2 q stck (f - c.size) hv2 (by omega)

theorem node_success_succ {Types : List Alt} {d : Nat} (hS : NodeSuccess Types d) :
    NodeSuccess Types (d + 1) := by
  intro is is4 T h
  rw [parseNode] at h
  cases h1 : TreeNode.LoadNodeData Types TreeNode.init is with
  | mk b rest =>
    obtain ⟨node, is1⟩ := rest
    cases b with
    | false => rw [h1] at h; simp at h
    | true =>
      rw [h1] at h
      simp only at h
      cases h3 : is1.extractInt with
      | mk oi is2 =>
        cases oi with
        | none => rw [h3] at h; simp at h
        | some n =>
          rw [h3] at h
          simp only at h
          by_cases h4 : n < 0
          · rw [if_pos h4] at h; simp at h
          · rw [if_neg h4] at h
            cases hcs : parseChilds (parseNode Types d) n.toNat is2 with
            | none => rw [hcs] at h; simp at h
            | some r1 =>
              obtain ⟨ocs, is3⟩ := r1
              cases ocs with
              | none => rw [hcs] at h; simp at h
              | some cs =>
                rw [hcs] at h
                simp only [Option.some.injEq, Prod.mk.injEq] at h
                obtain ⟨hT, his⟩ := h
                subst hT his
                obtain ⟨_, hlen, hloop⟩ := forest_success hS n.toNat is2 is3 cs hcs
                have l1 := LoadNodeData_true_length h1
                have l2 := extractInt_some_length h3
                refine ⟨by simp only [TreeNode.size]; omega, ?_⟩
                intro root r p q stck f ha
                have hn := LoadNodeData_init_childs h1
                obtain ⟨r1, ha1⟩ := AddChildAt_path p root _ node r q ha
                have hg : r1.AddChildsAt q cs = some r := by
                  rw [hn] at ha1
                  exact AddChildsAt_of_AddChildAt cs root r1 r node.m_data [] p q q ha1
                    (by simpa using ha)
                have e : f + (TreeNode.mk node.m_data cs).size = (f + TreeNode.sizeList cs) + 1 := by
                  simp only [TreeNode.size]; omega
                rw [e, LoadImpl.loop_cons, LoadImpl.body_next stck h1 ha1 h3 h4]
                exact hloop r1 r q stck f hg

theorem node_failure_succ {Types : List Alt} {d : Nat} (hS : NodeSuccess Types d)
    (hF : NodeFailure Types d) : NodeFailure Types (d + 1) := by
  intro is is4 h root p stck f hv hf
  obtain ⟨f, rfl⟩ : ∃ g, f = g + 1 := ⟨f - 1, by omega⟩
  rw [LoadImpl.loop_cons]
  rw [parseNode] at h
  cases h1 : TreeNode.LoadNodeData Types TreeNode.init is with
  | mk b rest =>
    obtain ⟨node, is1⟩ := rest
    cases b with
    | false =>
      rw [h1] at h
      simp only [Option.some.injEq, Prod.mk.injEq, true_and] at h
      subst h
      rw [LoadImpl.body_fail_node stck h1]
    | true =>
      rw [h1] at h
      simp only at h
      obtain ⟨r1, q, ha⟩ := AddChildAt_of_deref node hv
      cases h3 : is1.extractInt with
      | mk oi is2 =>
        cases oi with
        | none =>
          rw [h3] at h
          simp only [Option.some.injEq, Prod.mk.injEq, true_and] at h
          subst h
          rw [LoadImpl.body_fail_count stck h1 ha h3]
        | some n =>
          rw [h3] at h
          simp only at h
          by_cases h4 : n < 0
          · rw [if_pos h4] at h
            simp only [Option.some.injEq, Prod.mk.injEq, true_and] at h
            subst h
            rw [LoadImpl.body_fail_negative stck h1 ha h3 h4]
          · rw [if_neg h4] at h
            rw [LoadImpl.body_next stck h1 ha h3 h4]
            simp only
            cases hcs : parseChilds (parseNode Types d) n.toNat is2 with
            | none => rw [hcs] at h; simp at h
            | some r0 =>
              obtain ⟨ocs, is3⟩ := r0
              cases ocs with
              | some cs => rw [hcs] at h; simp at h
              | none =>
                rw [hcs] at h
                simp only [Option.some.injEq, Prod.mk.injEq, true_and] at h
                subst h
                have l1 := LoadNodeData_true_length h1
                have l2 := extractInt_some_length h3
                have hv2 : (r1.deref q).isSome = true := by
                  rw [AddChildAt_deref_new p root node r1 q ha]; rfl
                exact forest_failure hS hF n.toNat is2 is3 hcs r1 q stck f hv2 (by omega)

theorem node_success_failure (Types : List Alt) :
    ∀ d, NodeSuccess Types d ∧ NodeFailure Types d := by
  intro d
  induction d with
  | zero =>
    constructor
    · intro is is1 T h; simp [parseNode] at h
    · intro is is1 h; simp [parseNode] at h
  | succ d ih => exact ⟨node_success_succ ih.1, node_failure_succ ih.1 ih.2⟩

theorem parseChilds_total {Types : List Alt} {d : Nat}
    (hT : ∀ is : IStream, is.buf.length < d → parseNode Types d is ≠ none) :
    ∀ (n : Nat) (is : IStream), is.buf.length < d →
      parseChilds (parseNode Types d) n is ≠ none := by
  intro n
  induction n with
  | zero => intro is _; simp [parseChilds]
  | succ n ih =>
    intro is hlt
    rw [parseChilds]
    cases hc : parseNode Types d is with
    | none => exact absurd hc (hT is hlt)
    | some r0 =>
      obtain ⟨oc, is2⟩ := r0
      cases oc with
      | none => simp
      | some c =>
        simp only
        have hlen := ((node_success_failure Types d).1 is is2 c hc).1
        have := ih is2 (by omega)
        cases hcs : parseChilds (parseNode Types d) n is2 with
        | none => exact absurd hcs this
        | some r1 =>
          obtain ⟨ocs, is3⟩ := r1
          cases ocs <;> simp

theorem parseNode_total (Types : List Alt) :
    ∀ (d : Nat) (is : IStream), is.buf.length < d → parseNode Types d is ≠ none := by
  intro d
  induction d with
  | zero => intro is h; omega
  | succ d ih =>
    intro is hlt
    rw [parseNode]
    cases h1 : TreeNode.LoadNodeData Types TreeNode.init is with
    | mk b rest =>
      obtain ⟨node, is1⟩ := rest
      cases b with
      | false => simp
      | true =>
        simp only
        cases h3 : is1.extractInt with
        | mk oi is2 =>
          cases oi with
          | none => simp
          | some n =>
            simp only
            by_cases h4 : n < 0
            · rw [if_pos h4]; simp
            · rw [if_neg h4]
              have l1 := LoadNodeData_true_length h1
              have l2 := extractInt_some_length h3
              have := parseChilds_total ih n.toNat is2 (by omega)
              cases hcs : parseChilds (parseNode Types d) n.toNat is2 with
              | none => exact absurd hcs this
              | some r1 =>
                obtain ⟨ocs, is3⟩ := r1
                cases ocs <;> simp

end LoadLoop2

section LoadLoop3

open Tree RecursiveDescent

/-- The loop of `LoadImpl`, started after the root's record with one slot per
child of the root and one pass per character of the stream, does what
`parseChilds` does. -/
theorem LoadImpl.loop_root (Types : List Alt) (root : TreeNode) (n : Nat) (is2 : IStream)
    (len : Nat) (hlen : is2.buf.length < len) :
    LoadImpl.loop Types len { root := root, stck := pushCopies [] n [], is := is2 } =
      match parseChilds (parseNode Types len) n is2 with
      | some (some cs, is3) => some (some (.mk root.m_data (root.m_childs ++ cs)), is3)
      | some (none, is3) => some (none, is3)
      | none => none := by
  obtain ⟨hS, hF⟩ := node_success_failure Types len
  have ht := parseChilds_total (parseNode_total Types len) n is2 hlen
  rw [pushCopies_eq]
  cases hcs : parseChilds (parseNode Types len) n is2 with
  | none => exact absurd hcs ht
  | some r1 =>
    obtain ⟨ocs, is3⟩ := r1
    cases ocs with
    | none =>
      simp only
      exact forest_failure hS hF n is2 is3 hcs root [] [] len rfl hlen
    | some cs =>
      simp only
      obtain ⟨_, hl, hloop⟩ := forest_success hS n is2 is3 cs hcs
      have e : len = (len - TreeNode.sizeList cs) + TreeNode.sizeList cs := by omega
      have hg : root.AddChildsAt [] cs = some (.mk root.m_data (root.m_childs ++ cs)) := by
        conv_lhs => rw [← TreeNode.eta root]
        exact AddChildsAt_root cs _ _
      rw [e, hloop root _ [] [] _ hg, LoadImpl.loop_nil]

/-- The iterative `Load` and the recursive-descent `Load` return the same
flag, the same tree and the same stream, on every tree and every stream. -/
theorem Tree.Load_eq_recursiveDescent (Types : List Alt) (self : Tree) (is : IStream) :
    self.Load Types is = RecursiveDescent.Load Types self is := by
  unfold Tree.Load Tree.LoadImpl RecursiveDescent.Load
  by_cases hg : is.good = true
  · simp only [hg, Bool.not_true, Bool.false_eq_true, if_false]
    rw [parseNode]
    cases h1 : TreeNode.LoadNodeData Types TreeNode.init is with
    | mk b rest =>
      obtain ⟨node, is1⟩ := rest
      cases b with
      | false => rfl
      | true =>
        simp only
        cases h3 : is1.extractInt with
        | mk oi is2 =>
          cases oi with
          | none => rfl
          | some n =>
            simp only
            by_cases h4 : n < 0
            · rw [if_pos h4, if_pos h4]
            · rw [if_neg h4, if_neg h4]
              have l1 := LoadNodeData_true_length h1
              have l2 := extractInt_some_length h3
              rw [LoadImpl.loop_root Types node n.toNat is2 is.buf.length (by omega)]
              rw [LoadNodeData_init_childs h1]
              simp only [TreeNode.m_data_mk, TreeNode.m_childs_mk, List.nil_append]
  · simp only [Bool.not_eq_true] at hg
    simp [hg]

/-- The budgets of `Load` are never used up and no pointer on its stack
dangles: `Load` always returns. -/
theorem Tree.Load_isSome (Types : List Alt) (self : Tree) (is : IStream) :
    (self.Load Types is).isSome = true := by
  rw [Tree.Load_eq_recursiveDescent]
  unfold RecursiveDescent.Load
  split
  · rfl
  · have := parseNode_total Types (is.buf.length + 1) is (by omega)
    cases h : parseNode Types (is.buf.length + 1) is with
    | none => exact absurd h this
    | some r =>
      obtain ⟨o, is1⟩ := r
      cases o <;> rfl

end LoadLoop3

/-- Claim C3. The iterative algorithm of `Load`, with its stack of pending-parent
slots, is equivalent to the recursive-descent parser of the grammar
`node := kindIndex value-tokens childCount node^childCount`: on every tree
and every stream both return (neither budget is used up), both succeed or both
fail, and they leave the same tree (on success the tree the parser builds,
each child's subtree read before its next sibling and the children stored in
the order of their records; on failure the previous tree) and the same
stream. -/
theorem C3_load_refines_recursive_descent (Types : List Alt) (self : Tree) (is : IStream) :
    self.Load Types is = RecursiveDescent.Load Types self is ∧
      (self.Load Types is).isSome = true :=
  ⟨Tree.Load_eq_recursiveDescent Types self is, Tree.Load_isSome Types self is⟩

/-! ## Failure leaves the tree alone -/

theorem RecursiveDescent.Load_false {Types : List Alt} {self : Tree} {is : IStream}
    {r : Bool × Tree × IStream} (h : RecursiveDescent.Load Types self is = some r)
    (hb : r.1 = false) : r.2.1 = self := by
  unfold RecursiveDescent.Load at h
  split at h
  · simp only [Option.some.injEq] at h
    rw [← h]
  · split at h
    · simp only [Option.some.injEq] at h
      rw [← h] at hb
      simp at hb
    · simp only [Option.some.injEq] at h
      rw [← h]
    · simp at h

/-- Claim C2. Atomic replace on failure: on every tree and every stream, when
`Load` returns false (whatever made it fail, at the root or at a descendant),
the tree after the call is the tree before the call, root value and whole
subtree. -/
theorem C2_failed_load_keeps_root (Types : List Alt) (self : Tree) (is : IStream)
    (r : Bool × Tree × IStream) (h : self.Load Types is = some r) (hb : r.1 = false) :
    r.2.1 = self := by
  rw [Tree.Load_eq_recursiveDescent] at h
  exact RecursiveDescent.Load_false h hb

/-- Witness for C2: the scenario tree (integer 5 with two children) is kept by
a load that fails at the child count `-1` of the second node record. -/
theorem C2_failed_load_keeps_root_witness :
    scenarioTree.Load demoTypes (IStream.ofChars "1 7 2 3 b -1 0 0".toList) =
      some (false, scenarioTree, ⟨" 0 0".toList, false, false, false⟩) ∧
    (false, scenarioTree, (⟨" 0 0".toList, false, false, false⟩ : IStream)).2.1 = scenarioTree :=
  ⟨by decide!, C2_failed_load_keeps_root demoTypes scenarioTree
    (IStream.ofChars "1 7 2 3 b -1 0 0".toList)
    (false, scenarioTree, ⟨" 0 0".toList, false, false, false⟩) (by decide!) rfl⟩

/-- Claim C4. For every tree, `Dump` returns the concatenation, over the nodes of
the tree in preorder (a node before its children, children from left to
right), of the node's record: kind index, packed value and number of
children, each followed by a space. The traversal with an explicit stack on
which the children are pushed in reverse order thus equals the recursive
preorder definition, and its budget of one pass per node is never used up. -/
theorem C4_dump_is_preorder_records (Types : List Alt) (t : Tree) :
    t.Dump Types = some ((t.m_root.preorder.map (TreeNode.record Types)).flatten) :=
  Tree.Dump_eq Types t

/-! ## Reading back what `operator<<` wrote -/

theorem isspace_space : isspace ' ' = true := by decide

theorem isdigit_space : isdigit ' ' = false := by decide

theorem takeSign_of_isdigit (c : Char) (cs : List Char) (h : isdigit c = true) :
    takeSign (c :: cs) = (false, c :: cs) := by
  unfold takeSign
  split
  · next heq =>
    simp only [List.cons.injEq] at heq
    rw [heq.1] at h
    exact absurd h (by decide)
  · next heq =>
    simp only [List.cons.injEq] at heq
    rw [heq.1] at h
    exact absurd h (by decide)
  · rfl

theorem takeWhile_isdigit_natToChars (n : Nat) (r : List Char) :
    (natToChars n ++ ' ' :: r).takeWhile isdigit = natToChars n ∧
      (natToChars n ++ ' ' :: r).dropWhile isdigit = ' ' :: r :=
  takeWhile_append_stop (natToChars n) (' ' :: r) (natToChars_isdigit n)
    (fun c y h => by cases h; exact isdigit_space)

/-- The extraction of an `int` from a numeral written by `operator<<`, with or
without a minus sign in front, followed by a space. -/
theorem extractInt_numeral (pre : List Char) (neg : Bool) (n : Nat) (r : List Char)
    (hpre : ∀ x ∈ pre, isspace x = true) :
    (IStream.ofChars (pre ++ ((if neg then ['-'] else []) ++ natToChars n) ++ ' ' :: r)).extractInt =
      if applySign neg n < INT_MIN ∨ INT_MAX < applySign neg n then
        (none, (IStream.ofChars (' ' :: r)).setFail)
      else (some (applySign neg n), IStream.ofChars (' ' :: r)) := by
  obtain ⟨c, ds, hcd, hc⟩ := natToChars_head_isdigit n
  have htw := takeWhile_isdigit_natToChars n r
  have hne : (natToChars n).isEmpty = false := by rw [hcd]; rfl
  cases neg with
  | false =>
    have hs := sentry_of_prefix
      (IStream.ofChars (pre ++ (([] : List Char) ++ natToChars n) ++ ' ' :: r)) pre c
      (ds ++ ' ' :: r) rfl (by simp [IStream.ofChars, hcd]) hpre (isspace_of_isdigit hc)
    simp only [Bool.false_eq_true, if_false]
    unfold IStream.extractInt
    rw [hs]
    simp only [takeSign_of_isdigit c _ hc]
    rw [← List.cons_append, ← hcd, htw.1, htw.2, hne]
    simp only [Bool.false_eq_true, if_false, Bool.or_eq_true, decide_eq_true_eq,
      digitsToNat_natToChars]
    split <;> rfl
  | true =>
    have hs := sentry_of_prefix
      (IStream.ofChars (pre ++ (['-'] ++ natToChars n) ++ ' ' :: r)) pre '-'
      (natToChars n ++ ' ' :: r) rfl (by simp [IStream.ofChars]) hpre (by decide)
    simp only [if_true]
    unfold IStream.extractInt
    rw [hs]
    simp only [takeSign]
    rw [htw.1, htw.2, hne]
    simp only [Bool.false_eq_true, if_false, Bool.or_eq_true, decide_eq_true_eq,
      digitsToNat_natToChars]
    split <;> rfl

theorem extractInt_natToChars (pre : List Char) (n : Nat) (r : List Char)
    (hpre : ∀ x ∈ pre, isspace x = true) (hn : (n : Int) ≤ INT_MAX) :
    (IStream.ofChars (pre ++ natToChars n ++ ' ' :: r)).extractInt =
      (some (n : Int), IStream.ofChars (' ' :: r)) := by
  have h := extractInt_numeral pre false n r hpre
  simp only [Bool.false_eq_true, if_false, List.nil_append, applySign] at h
  rw [h, if_neg]
  simp only [INT_MIN, INT_MAX] at hn ⊢
  omega

theorem extractInt_natToChars_overflow (pre : List Char) (n : Nat) (r : List Char)
    (hpre : ∀ x ∈ pre, isspace x = true) (hn : INT_MAX < (n : Int)) :
    (IStream.ofChars (pre ++ natToChars n ++ ' ' :: r)).extractInt =
      (none, (IStream.ofChars (' ' :: r)).setFail) := by
  have h := extractInt_numeral pre false n r hpre
  simp only [Bool.false_eq_true, if_false, List.nil_append, applySign] at h
  rw [h, if_pos (Or.inr hn)]

theorem extractInt_intToChars (pre : List Char) (i : Int) (r : List Char)
    (hpre : ∀ x ∈ pre, isspace x = true) (h1 : INT_MIN ≤ i) (h2 : i ≤ INT_MAX) :
    (IStream.ofChars (pre ++ intToChars i ++ ' ' :: r)).extractInt =
      (some i, IStream.ofChars (' ' :: r)) := by
  unfold intToChars
  by_cases hi : i < 0
  · have h := extractInt_numeral pre true i.natAbs r hpre
    have hv : applySign true i.natAbs = i := by simp only [applySign, if_true]; omega
    rw [hv] at h
    simp only [if_true, List.singleton_append] at h
    rw [if_pos hi, h, if_neg]
    simp only [INT_MIN, INT_MAX] at h1 h2 ⊢
    omega
  · have h := extractInt_numeral pre false i.natAbs r hpre
    have hv : applySign false i.natAbs = i := by
      simp only [applySign, Bool.false_eq_true, if_false]; omega
    rw [hv] at h
    simp only [Bool.false_eq_true, if_false, List.nil_append] at h
    rw [if_neg hi, h, if_neg]
    simp only [INT_MIN, INT_MAX] at h1 h2 ⊢
    omega

theorem extractString_token (pre s r : List Char) (hpre : ∀ x ∈ pre, isspace x = true)
    (hs : s ≠ []) (hns : ∀ c ∈ s, isspace c = false) :
    (IStream.ofChars (pre ++ s ++ ' ' :: r)).extractString =
      (some s, IStream.ofChars (' ' :: r)) := by
  cases s with
  | nil => exact absurd rfl hs
  | cons c cs =>
    have hsn := sentry_of_prefix (IStream.ofChars (pre ++ (c :: cs) ++ ' ' :: r)) pre c
      (cs ++ ' ' :: r) rfl (by simp [IStream.ofChars]) hpre (hns c (List.mem_cons_self _ _))
    have htw := takeWhile_append_stop (p := fun x => !isspace x) (c :: cs) (' ' :: r)
      (fun x hx => by simp [hns x hx]) (fun x y h => by cases h; rfl)
    unfold IStream.extractString
    rw [hsn]
    simp only
    rw [← List.cons_append, htw.1, htw.2]
    rfl

/-! ## Round trip -/

theorem DumpNodeData_eq {Types : List Alt} {v : Variant} {T : Alt} (cs : List TreeNode)
    (h : variant_alternative Types v.index = some T) :
    (TreeNode.mk v cs).DumpNodeData Types [] = PackVisitor T [] v.data := by
  unfold TreeNode.DumpNodeData
  rw [TreeNode.m_data_mk, VariantSwitch.Pack_eq _ _ _ _ _ (variant_alternative_some_le h)]
  unfold VariantSwitchHelper.PackByTypeIndex
  rw [h]

/-- The node parser reads back the kind index and the packed value of a
record. -/
theorem LoadNodeData_record {Types : List Alt} (hK : (Types.length : Int) ≤ INT_MAX)
    (v : Variant) (cs : List TreeNode) (hv : Variant.Exact Types v)
    (pre rest : List Char) (hpre : ∀ x ∈ pre, isspace x = true) :
    ∃ w : List Char, (∀ x ∈ w, isspace x = true) ∧
      TreeNode.LoadNodeData Types TreeNode.init
          (IStream.ofChars (pre ++ natToChars v.index ++
            ' ' :: ((TreeNode.mk v cs).DumpNodeData Types [] ++ ' ' :: rest))) =
        (true, .mk v [], IStream.ofChars (w ++ ' ' :: rest)) := by
  obtain ⟨hT, hd⟩ := hv
  have hle := variant_alternative_some_le hT
  have hidx : ((v.index : Nat) : Int) ≤ INT_MAX := by
    simp only [TreeNode.InternalVariantStorageTypeIndexSize, List.length_cons,
      Nat.add_sub_cancel] at hle
    omega
  have he := extractInt_natToChars pre v.index
    ((TreeNode.mk v cs).DumpNodeData Types [] ++ ' ' :: rest) hpre hidx
  have hT' : variant_alternative Types ((v.index : Int)).toNat = some v.data.alt := by
    rw [Int.toNat_ofNat]; exact hT
  rw [DumpNodeData_eq cs hT] at he ⊢
  obtain ⟨idx, data⟩ := v
  cases data with
  | monostate =>
    refine ⟨[' '], by simp [isspace_space], ?_⟩
    have hu : UnPackVisitor Data.monostate.alt
        (IStream.ofChars (' ' :: (PackVisitor Data.monostate.alt [] Data.monostate ++ ' ' :: rest))) =
        (some Data.monostate, IStream.ofChars ([' '] ++ ' ' :: rest)) := rfl
    have := LoadNodeData_of_parts TreeNode.init he (Int.ofNat_nonneg _) hT' hu
    rw [this]
    simp [TreeNode.init]
  | int i =>
    refine ⟨[], by simp, ?_⟩
    simp only [Variant.Exact] at hd
    have hx := extractInt_intToChars [' '] i rest (by simp [isspace_space]) hd.1 hd.2
    have hu : UnPackVisitor (Data.int i).alt
        (IStream.ofChars (' ' :: (PackVisitor (Data.int i).alt [] (Data.int i) ++ ' ' :: rest))) =
        (some (Data.int i), IStream.ofChars ([] ++ ' ' :: rest)) := by
      simp only [Data.alt, PackVisitor, UnPackVisitor, List.nil_append]
      simp only [List.singleton_append, List.cons_append, List.nil_append] at hx
      rw [hx]
    have := LoadNodeData_of_parts TreeNode.init he (Int.ofNat_nonneg _) hT' hu
    rw [this]
    simp [TreeNode.init]
  | double x => exact absurd hd (by simp [Variant.Exact])
  | string s =>
    refine ⟨[], by simp, ?_⟩
    simp only [Variant.Exact] at hd
    have hx := extractString_token [' '] s rest (by simp [isspace_space]) hd.1 hd.2
    have hu : UnPackVisitor (Data.string s).alt
        (IStream.ofChars
          (' ' :: (PackVisitor (Data.string s).alt [] (Data.string s) ++ ' ' :: rest))) =
        (some (Data.string s), IStream.ofChars ([] ++ ' ' :: rest)) := by
      simp only [Data.alt, PackVisitor, UnPackVisitor, List.nil_append]
      simp only [List.singleton_append, List.cons_append, List.nil_append] at hx
      rw [hx]
    have := LoadNodeData_of_parts TreeNode.init he (Int.ofNat_nonneg _) hT' hu
    rw [this]
    simp [TreeNode.init]

section RoundTrip

open RecursiveDescent

theorem preorderText_mk (Types : List Alt) (v : Variant) (cs : List TreeNode) :
    (TreeNode.mk v cs).preorderText Types =
      (TreeNode.mk v cs).record Types ++
        ((TreeNode.preorderList cs).map (TreeNode.record Types)).flatten := by
  simp [TreeNode.preorderText, TreeNode.preorder]

theorem preorderList_text_cons (Types : List Alt) (c : TreeNode) (cs : List TreeNode) :
    ((TreeNode.preorderList (c :: cs)).map (TreeNode.record Types)).flatten =
      c.preorderText Types ++ ((TreeNode.preorderList cs).map (TreeNode.record Types)).flatten := by
  simp [TreeNode.preorderText, TreeNode.preorderList]

mutual
theorem parseNode_preorderText {Types : List Alt} (hK : (Types.length : Int) ≤ INT_MAX) :
    ∀ (T : TreeNode), T.All (TreeNode.Exact Types) →
    ∀ (d : Nat) (pre rest : List Char), T.size ≤ d → (∀ x ∈ pre, isspace x = true) →
      parseNode Types d (IStream.ofChars (pre ++ (T.preorderText Types ++ rest))) =
        some (some T, IStream.ofChars (' ' :: rest))
  | .mk v cs, hT, d, pre, rest, hd, hpre => by
    rw [TreeNode.All] at hT
    obtain ⟨⟨hv, hc⟩, hcs⟩ := hT
    obtain ⟨d, rfl⟩ : ∃ e, d = e + 1 := ⟨d - 1, by simp only [TreeNode.size] at hd; omega⟩
    have hsz : TreeNode.sizeList cs ≤ d := by simp only [TreeNode.size] at hd; omega
    have ih := parseChilds_preorderText hK cs hcs d rest hsz
    obtain ⟨w, hw, hl⟩ := LoadNodeData_record hK v cs hv pre
      (natToChars cs.length ++ ' ' ::
        (((TreeNode.preorderList cs).map (TreeNode.record Types)).flatten ++ rest)) hpre
    have hcnt := extractInt_natToChars (w ++ [' ']) cs.length
      (((TreeNode.preorderList cs).map (TreeNode.record Types)).flatten ++ rest)
      (by intro x hx; simp only [List.mem_append, List.mem_singleton] at hx
          rcases hx with hx | hx
          · exact hw x hx
          · rw [hx]; exact isspace_space) hc
    have e1 : pre ++ ((TreeNode.mk v cs).preorderText Types ++ rest) =
        pre ++ natToChars v.index ++ ' ' :: ((TreeNode.mk v cs).DumpNodeData Types [] ++ ' ' ::
          (natToChars cs.length ++ ' ' ::
            (((TreeNode.preorderList cs).map (TreeNode.record Types)).flatten ++ rest))) := by
      rw [preorderText_mk]
      simp [TreeNode.record, TreeNode.GetCurrentTypeIndex, TreeNode.GetChilds]
    have e2 : w ++ ' ' :: (natToChars cs.length ++ ' ' ::
        (((TreeNode.preorderList cs).map (TreeNode.record Types)).flatten ++ rest)) =
        w ++ [' '] ++ natToChars cs.length ++ ' ' ::
          (((TreeNode.preorderList cs).map (TreeNode.record Types)).flatten ++ rest) := by
      simp
    rw [parseNode, e1, hl]
    simp only
    rw [e2, hcnt]
    simp only [Int.toNat_ofNat, TreeNode.m_data_mk]
    rw [if_neg (by omega), ih]
theorem parseChilds_preorderText {Types : List Alt} (hK : (Types.length : Int) ≤ INT_MAX) :
    ∀ (cs : List TreeNode), TreeNode.AllList (TreeNode.Exact Types) cs →
    ∀ (d : Nat) (rest : List Char), TreeNode.sizeList cs ≤ d →
      parseChilds (parseNode Types d) cs.length
          (IStream.ofChars
            (' ' :: (((TreeNode.preorderList cs).map (TreeNode.record Types)).flatten ++ rest))) =
        some (some cs, IStream.ofChars (' ' :: rest))
  | [], _, d, rest, _ => by
    simp [parseChilds, TreeNode.preorderList]
  | c :: cs, hT, d, rest, hd => by
    rw [TreeNode.AllList] at hT
    obtain ⟨hc, hcs⟩ := hT
    simp only [TreeNode.sizeList] at hd
    have h1 := parseNode_preorderText hK c hc d [' ']
      (((TreeNode.preorderList cs).map (TreeNode.record Types)).flatten ++ rest)
      (by omega) (by simp [isspace_space])
    have h2 := parseChilds_preorderText hK cs hcs d rest (by omega)
    rw [List.length_cons, parseChilds, preorderList_text_cons]
    simp only [List.singleton_append, List.append_assoc] at h1 ⊢
    rw [h1]
    simp only
    rw [h2]
end

theorem record_length_pos (Types : List Alt) (n : TreeNode) : 0 < (n.record Types).length := by
  simp [TreeNode.record]

mutual
theorem size_le_preorderText (Types : List Alt) : ∀ (T : TreeNode),
    T.size ≤ (T.preorderText Types).length
  | .mk v cs => by
    have ih := sizeList_le_preorderText Types cs
    have := record_length_pos Types (.mk v cs)
    rw [preorderText_mk, List.length_append]
    simp only [TreeNode.size]
    omega
theorem sizeList_le_preorderText (Types : List Alt) : ∀ (cs : List TreeNode),
    TreeNode.sizeList cs ≤ (((TreeNode.preorderList cs).map (TreeNode.record Types)).flatten).length
  | [] => by simp [TreeNode.sizeList]
  | c :: cs => by
    have h1 := size_le_preorderText Types c
    have h2 := sizeList_le_preorderText Types cs
    rw [preorderList_text_cons, List.length_append]
    simp only [TreeNode.sizeList]
    omega
end

/-- The round trip: a tree whose nodes are all exact is dumped to a text from
which `Load` rebuilds it. -/
theorem Tree.Load_Dump {Types : List Alt} (hK : (Types.length : Int) ≤ INT_MAX) (T self : Tree)
    (hT : T.m_root.All (TreeNode.Exact Types)) :
    T.Dump Types = some (T.m_root.preorderText Types) ∧
      self.Load Types (IStream.ofChars (T.m_root.preorderText Types)) =
        some (true, T, IStream.ofChars [' ']) := by
  refine ⟨Tree.Dump_eq Types T, ?_⟩
  rw [Tree.Load_eq_recursiveDescent]
  unfold RecursiveDescent.Load
  have h := parseNode_preorderText hK T.m_root hT
    ((IStream.ofChars (T.m_root.preorderText Types)).buf.length + 1) [] []
    (by have := size_le_preorderText Types T.m_root
        simp only [IStream.ofChars]; omega) (by simp)
  simp only [List.nil_append, List.append_nil] at h
  rw [h]
  rfl

end RoundTrip

theorem Exact_monostate (Types : List Alt) :
    Variant.Exact Types { index := 0, data := .monostate } := by
  simp [Variant.Exact, variant_alternative, Data.alt]

theorem AllList_replicate (P : TreeNode → Prop) (x : TreeNode) (hx : x.All P) :
    ∀ n : Nat, TreeNode.AllList P (List.replicate n x) := by
  intro n
  induction n with
  | zero => simp [TreeNode.AllList]
  | succ n ih =>
    rw [List.replicate_succ, TreeNode.AllList]
    exact ⟨hx, ih⟩

/-- A root without value and with more children than the largest `int` is
dumped to a text on which `Load` returns false. -/
theorem Load_Dump_wide (Types : List Alt) (hK : (Types.length : Int) ≤ INT_MAX)
    (cs : List TreeNode) (hcs : INT_MAX < (cs.length : Int)) (self : Tree) :
    ∃ is1 : IStream,
      self.Load Types
          (IStream.ofChars ((TreeNode.mk { index := 0, data := .monostate } cs).preorderText Types)) =
        some (false, self, is1) := by
  have hv := Exact_monostate Types
  obtain ⟨w, hw, hl⟩ := LoadNodeData_record hK { index := 0, data := .monostate } cs hv []
    (natToChars cs.length ++ ' ' ::
      (((TreeNode.preorderList cs).map (TreeNode.record Types)).flatten)) (by simp)
  have hcnt := extractInt_natToChars_overflow (w ++ [' ']) cs.length
    (((TreeNode.preorderList cs).map (TreeNode.record Types)).flatten)
    (by intro x hx; simp only [List.mem_append, List.mem_singleton] at hx
        rcases hx with hx | hx
        · exact hw x hx
        · rw [hx]; exact isspace_space) hcs
  have e1 : (TreeNode.mk { index := 0, data := .monostate } cs).preorderText Types =
      [] ++ natToChars (Variant.mk 0 .monostate).index ++ ' ' ::
        ((TreeNode.mk { index := 0, data := .monostate } cs).DumpNodeData Types [] ++ ' ' ::
        (natToChars cs.length ++ ' ' ::
          (((TreeNode.preorderList cs).map (TreeNode.record Types)).flatten))) := by
    rw [preorderText_mk]
    simp [TreeNode.record, TreeNode.GetCurrentTypeIndex, TreeNode.GetChilds]
  have e2 : w ++ ' ' :: (natToChars cs.length ++ ' ' ::
      (((TreeNode.preorderList cs).map (TreeNode.record Types)).flatten)) =
      w ++ [' '] ++ natToChars cs.length ++ ' ' ::
        (((TreeNode.preorderList cs).map (TreeNode.record Types)).flatten) := by
    simp
  refine ⟨(IStream.ofChars (' ' ::
    (((TreeNode.preorderList cs).map (TreeNode.record Types)).flatten))).setFail, ?_⟩
  rw [Tree.Load_eq_recursiveDescent]
  unfold RecursiveDescent.Load
  rw [if_neg (by simp [IStream.ofChars, IStream.good]), RecursiveDescent.parseNode, e1, hl]
  simp only
  rw [e2, hcnt]

/-- Claim C1, amended. Round trip: for kinds whose number fits an `int`, and for
every tree whose node values are Empty, integers, or texts that are not empty
and have no whitespace, and whose nodes have at most 2147483647 children each,
`Dump` returns a text on which `Load`, called on any tree, returns true and
leaves exactly the dumped tree: same kind and value, same number of children
and same child order at every node. -/
theorem C1_round_trip (Types : List Alt) (hK : (Types.length : Int) ≤ INT_MAX) (T self : Tree)
    (hT : T.m_root.All (TreeNode.Exact Types)) :
    ∃ text : List Char, T.Dump Types = some text ∧
      self.Load Types (IStream.ofChars text) = some (true, T, IStream.ofChars [' ']) :=
  ⟨T.m_root.preorderText Types, Tree.Load_Dump hK T self hT⟩

/-- Witness for C1: the round trip of the tree `exactTree`, loaded over the
scenario tree. -/
theorem C1_round_trip_witness :
    ((demoTypes.length : Int) ≤ INT_MAX ∧ exactTree.m_root.All (TreeNode.Exact demoTypes)) ∧
      ∃ text : List Char, exactTree.Dump demoTypes = some text ∧
        scenarioTree.Load demoTypes (IStream.ofChars text) =
          some (true, exactTree, IStream.ofChars [' ']) :=
  ⟨⟨by decide, by
      simp [exactTree, TreeNode.All, TreeNode.AllList, TreeNode.Exact, Variant.Exact,
        variant_alternative, demoTypes, Data.alt, INT_MIN, INT_MAX, isspace]⟩,
    C1_round_trip demoTypes (by decide) exactTree scenarioTree (by
      simp [exactTree, TreeNode.All, TreeNode.AllList, TreeNode.Exact, Variant.Exact,
        variant_alternative, demoTypes, Data.alt, INT_MIN, INT_MAX, isspace])⟩

/-- Counterexample to C1 as stated: every node of `wideTree` has the value
Empty, yet `Load` applied to the text `Dump` returns for it returns false (the
root's child count, 2147483648, does not fit the `int` it is read into). -/
theorem C1_round_trip_counterexample :
    wideTree.m_root.All (fun n => Variant.Exact demoTypes n.m_data) ∧
      wideTree.Dump demoTypes = some (wideTree.m_root.preorderText demoTypes) ∧
      ∃ is1 : IStream,
        scenarioTree.Load demoTypes (IStream.ofChars (wideTree.m_root.preorderText demoTypes)) =
          some (false, scenarioTree, is1) := by
  refine ⟨?_, Tree.Dump_eq demoTypes wideTree, ?_⟩
  · show TreeNode.All _ (TreeNode.mk _ (List.replicate 2147483648 _))
    rw [TreeNode.All]
    refine ⟨Exact_monostate demoTypes, AllList_replicate _ _ ?_ _⟩
    rw [TreeNode.All]
    exact ⟨Exact_monostate demoTypes, trivial⟩
  · exact Load_Dump_wide demoTypes (by decide) _
      (by rw [List.length_replicate]; decide) scenarioTree

/-! ## The bounds check on the kind index -/

theorem dropWhile_head_false {p : Char → Bool} : ∀ (l : List Char) (x : Char) (xs : List Char),
    l.dropWhile p = x :: xs → p x = false := by
  intro l
  induction l with
  | nil => intro x xs h; simp at h
  | cons y l ih =>
    intro x xs h
    rw [List.dropWhile_cons] at h
    split at h
    · exact ih x xs h
    · next hy =>
      simp only [List.cons.injEq] at h
      rw [← h.1]
      simpa using hy

/-- The extraction of an `int` from a good stream on which, after whitespace,
an unsigned numeral written by `operator<<` stands, followed by no digit. -/
theorem extractInt_digits (is : IStream) (hg : is.good = true) (pre : List Char) (n : Nat)
    (r0 : List Char) (hb : is.buf = pre ++ natToChars n ++ r0)
    (hpre : ∀ x ∈ pre, isspace x = true) (hr0 : ∀ c r, r0 = c :: r → isdigit c = false) :
    is.extractInt =
      if (n : Int) ≤ INT_MAX then
        (some (n : Int), { is with buf := r0, eofbit := r0.isEmpty })
      else (none, ({ is with buf := r0, eofbit := r0.isEmpty } : IStream).setFail) := by
  obtain ⟨c, ds, hcd, hc⟩ := natToChars_head_isdigit n
  have htw := takeWhile_append_stop (natToChars n) r0 (natToChars_isdigit n) hr0
  have hne : (natToChars n).isEmpty = false := by rw [hcd]; rfl
  have hs := sentry_of_prefix is pre c (ds ++ r0) hg (by rw [hb, hcd]; simp) hpre
    (isspace_of_isdigit hc)
  unfold IStream.extractInt
  rw [hs]
  simp only [takeSign_of_isdigit c _ hc]
  rw [← List.cons_append, ← hcd, htw.1, htw.2, hne]
  simp only [Bool.false_eq_true, if_false, Bool.or_eq_true, decide_eq_true_eq,
    digitsToNat_natToChars, applySign]
  have hmin : ¬ ((n : Int) < INT_MIN) := by simp only [INT_MIN]; omega
  by_cases hmax : (n : Int) ≤ INT_MAX
  · rw [if_neg (by intro h; rcases h with h | h <;> omega), if_pos hmax]
  · rw [if_pos (Or.inr (by omega)), if_neg hmax]

/-- The first token of a text splits the text after its leading whitespace. -/
theorem nextToken_split (b : List Char) :
    ∃ pre r0 : List Char, b = pre ++ nextToken b ++ r0 ∧ (∀ x ∈ pre, isspace x = true) ∧
      ∀ c r, r0 = c :: r → isspace c = true := by
  refine ⟨b.takeWhile isspace, (b.dropWhile isspace).dropWhile (fun x => !isspace x), ?_, ?_, ?_⟩
  · unfold nextToken
    rw [List.append_assoc, List.takeWhile_append_dropWhile, List.takeWhile_append_dropWhile]
  · intro x hx
    exact (List.mem_takeWhile_imp hx)
  · intro c r hr
    have := dropWhile_head_false _ c r hr
    simpa using this

theorem extractInt_of_token (is : IStream) (hg : is.good = true) (n : Nat)
    (h : nextToken is.buf = natToChars n) :
    ∃ is1 : IStream,
      is.extractInt = (if (n : Int) ≤ INT_MAX then some (n : Int) else none, is1) := by
  obtain ⟨pre, r0, hb, hpre, hr0⟩ := nextToken_split is.buf
  rw [h] at hb
  have := extractInt_digits is hg pre n r0 hb hpre
    (fun c r hcr => by
      have := hr0 c r hcr
      cases hd : isdigit c with
      | false => rfl
      | true => rw [isspace_of_isdigit hd] at this; cases this)
  rw [this]
  split
  · exact ⟨_, rfl⟩
  · exact ⟨_, rfl⟩

theorem LoadNodeData_extract_fail {Types : List Alt} (self : TreeNode) {is is1 : IStream}
    (h : is.extractInt = (none, is1)) :
    TreeNode.LoadNodeData Types self is = (false, self, is1) := by
  unfold TreeNode.LoadNodeData
  rw [h]

theorem LoadNodeData_out_of_range {Types : List Alt} (self : TreeNode) {is is1 : IStream}
    {i : Int} (h : is.extractInt = (some i, is1))
    (hi : TreeNode.InternalVariantStorageTypeIndexSize Types < i.toNat) :
    TreeNode.LoadNodeData Types self is = (false, self, is1) := by
  unfold TreeNode.LoadNodeData
  rw [h]
  simp [hi]

/-- A stream whose root kind-index token is one past the number of kinds makes
`Load` return false. -/
theorem Load_index_past_range (Types : List Alt) (self : Tree) (is : IStream)
    (h : nextToken is.buf = natToChars (Types.length + 1)) :
    ∃ is1 : IStream, self.Load Types is = some (false, self, is1) := by
  unfold Tree.Load Tree.LoadImpl
  by_cases hg : is.good = true
  · obtain ⟨is1, he⟩ := extractInt_of_token is hg (Types.length + 1) h
    have hl : TreeNode.LoadNodeData Types TreeNode.init is = (false, TreeNode.init, is1) := by
      by_cases hmax : ((Types.length + 1 : Nat) : Int) ≤ INT_MAX
      · rw [if_pos hmax] at he
        exact LoadNodeData_out_of_range _ he (by
          simp [TreeNode.InternalVariantStorageTypeIndexSize])
      · rw [if_neg hmax] at he
        exact LoadNodeData_extract_fail _ he
    simp only [hg, Bool.not_true, Bool.false_eq_true, if_false, hl]
    exact ⟨_, rfl⟩
  · simp only [Bool.not_eq_true] at hg
    simp only [hg, Bool.not_false, if_true]
    exact ⟨_, rfl⟩

/-- A stream made of the last kind index, a valid payload token for that kind
and the child count 0 makes `Load` return true with a leaf holding the value. -/
theorem Load_index_last (Types : List Alt) (self : Tree) (T : Alt) (tok : List Char)
    (v : Data) (hK : (Types.length : Int) ≤ INT_MAX)
    (hT : variant_alternative Types Types.length = some T) (hp : ValidPayload T tok v) :
    self.Load Types (IStream.ofChars (natToChars Types.length ++ ' ' :: (tok ++ " 0".toList))) =
      some (true, { m_root := .mk { index := Types.length, data := v } [] },
        { buf := [], eofbit := true, failbit := false, badbit := false }) := by
  have he := extractInt_natToChars [] Types.length (tok ++ " 0".toList) (by simp) hK
  have hT' : variant_alternative Types ((Types.length : Int)).toNat = some T := by
    rw [Int.toNat_ofNat]; exact hT
  have hu := hp.2.2 ['0']
  have hl := LoadNodeData_of_parts TreeNode.init he (Int.ofNat_nonneg _) hT' hu
  have hc := extractInt_digits (IStream.ofChars [' ', '0']) rfl [' '] 0 [] rfl
    (by simp [isspace_space]) (by simp)
  rw [if_pos (by decide)] at hc
  unfold Tree.Load Tree.LoadImpl
  simp only [List.nil_append] at hl
  rw [if_neg (by simp [IStream.ofChars, IStream.good]), hl]
  simp only
  rw [hc]
  simp only [Int.toNat_ofNat, Nat.cast_zero, Int.lt_irrefl, if_false, pushCopies, Int.toNat_zero]
  rw [LoadImpl.loop_nil]
  rfl

theorem ValidPayload_string (s : List Char) (hs : s ≠ []) (hns : ∀ c ∈ s, isspace c = false) :
    ValidPayload .string s (.string s) := by
  refine ⟨hs, hns, ?_⟩
  intro r
  have hx := extractString_token [' '] s r (by simp [isspace_space]) hs hns
  simp only [List.singleton_append, List.cons_append, List.nil_append] at hx
  simp only [UnPackVisitor]
  rw [hx]

theorem ValidPayload_int (i : Int) (h1 : INT_MIN ≤ i) (h2 : i ≤ INT_MAX) :
    ValidPayload .int (intToChars i) (.int i) := by
  refine ⟨?_, ?_, ?_⟩
  · unfold intToChars
    split
    · simp
    · exact natToChars_ne_nil _
  · intro c hc
    unfold intToChars at hc
    split at hc
    · simp only [List.mem_cons] at hc
      rcases hc with hc | hc
      · rw [hc]; decide
      · exact isspace_of_isdigit (natToChars_isdigit _ c hc)
    · exact isspace_of_isdigit (natToChars_isdigit _ c hc)
  · intro r
    have hx := extractInt_intToChars [' '] i r (by simp [isspace_space]) h1 h2
    simp only [List.singleton_append, List.cons_append, List.nil_append] at hx
    simp only [UnPackVisitor]
    rw [hx]

/-- Claim C5. Kind-index bounds check, with `K` the number of registered kinds:
`Load` of every stream whose root kind-index token is `K+1` returns false and
leaves the tree as it was; and, when `K` fits an `int`, `Load` of the stream
made of the token `K`, a valid payload token for the kind of index `K` and the
child count 0 returns true and leaves a leaf holding the unpacked value with
kind index `K`. -/
theorem C5_kind_index_bounds (Types : List Alt) (self : Tree) :
    (∀ is : IStream, nextToken is.buf = natToChars (Types.length + 1) →
      ∃ is1 : IStream, self.Load Types is = some (false, self, is1)) ∧
    (∀ (T : Alt) (tok : List Char) (v : Data), (Types.length : Int) ≤ INT_MAX →
      variant_alternative Types Types.length = some T → ValidPayload T tok v →
      ∃ is1 : IStream,
        self.Load Types
            (IStream.ofChars (natToChars Types.length ++ ' ' :: (tok ++ " 0".toList))) =
          some (true, { m_root := .mk { index := Types.length, data := v } [] }, is1)) :=
  ⟨fun is h => Load_index_past_range Types self is h,
    fun T tok v hK hT hp => ⟨_, Load_index_last Types self T tok v hK hT hp⟩⟩

/-- Witness for C5, for the demo's three kinds: the stream `4 hello 0` is
refused, the stream `3 hello 0` is loaded. -/
theorem C5_kind_index_bounds_witness :
    (nextToken (IStream.ofChars "4 hello 0".toList).buf = natToChars (demoTypes.length + 1) ∧
      ∃ is1 : IStream,
        scenarioTree.Load demoTypes (IStream.ofChars "4 hello 0".toList) =
          some (false, scenarioTree, is1)) ∧
    (((demoTypes.length : Int) ≤ INT_MAX ∧
        variant_alternative demoTypes demoTypes.length = some .string ∧
        ValidPayload .string "hello".toList (.string "hello".toList)) ∧
      ∃ is1 : IStream,
        scenarioTree.Load demoTypes
            (IStream.ofChars (natToChars demoTypes.length ++ ' ' :: ("hello".toList ++ " 0".toList))) =
          some (true,
            { m_root := .mk { index := demoTypes.length, data := .string "hello".toList } [] },
            is1)) :=
  ⟨⟨by decide!, (C5_kind_index_bounds demoTypes scenarioTree).1
      (IStream.ofChars "4 hello 0".toList) (by decide!)⟩,
    ⟨⟨by decide, by decide, ValidPayload_string "hello".toList (by decide) (by decide)⟩,
      (C5_kind_index_bounds demoTypes scenarioTree).2 .string "hello".toList
        (.string "hello".toList) (by decide) (by decide)
        (ValidPayload_string "hello".toList (by decide) (by decide))⟩⟩

/-! ## Child counts that make `Load` fail -/

section BadCounts

open Tree

theorem extractInt_not_good (is : IStream) (hg : is.good = false) :
    is.extractInt = (none, is.setFail) := by
  unfold IStream.extractInt IStream.sentry
  rw [hg]
  rfl

theorem takeSign_append (tok r0 : List Char) (h : tok ≠ []) :
    takeSign (tok ++ r0) = ((takeSign tok).1, (takeSign tok).2 ++ r0) := by
  cases tok with
  | nil => exact absurd rfl h
  | cons c t =>
    rw [List.cons_append]
    unfold takeSign
    split
    · next heq =>
      simp only [List.cons.injEq] at heq
      obtain ⟨h1, h2⟩ := heq
      subst h1 h2
      rfl
    · next heq =>
      simp only [List.cons.injEq] at heq
      obtain ⟨h1, h2⟩ := heq
      subst h1 h2
      rfl
    · next hm hp =>
      split
      · next heq =>
        simp only [List.cons.injEq] at heq
        exact absurd (by rw [heq.1]) (hm (t ++ r0))
      · next heq =>
        simp only [List.cons.injEq] at heq
        exact absurd (by rw [heq.1]) (hp (t ++ r0))
      · rfl

theorem takeWhile_nil_of_head {p : Char → Bool} (l : List Char)
    (h : ∀ c r, l = c :: r → p c = false) : l.takeWhile p = [] := by
  cases l with
  | nil => rfl
  | cons c r => simp [List.takeWhile, h c r rfl]

/-- The extraction of an `int` fails when the next token does not begin with
a decimal integer, and when there is no next token. -/
theorem extractInt_no_integer (is : IStream) (h : startsWithInteger (nextToken is.buf) = false) :
    is.extractInt.1 = none := by
  by_cases hg : is.good = true
  · obtain ⟨pre, r0, hb, hpre, hr0⟩ := nextToken_split is.buf
    cases hd : is.buf.dropWhile isspace with
    | nil =>
      unfold IStream.extractInt IStream.sentry
      rw [hg, hd]
      rfl
    | cons c r =>
      have hs : is.sentry = (true, { is with buf := c :: r }) := by
        unfold IStream.sentry
        rw [hg, hd]
        rfl
      have hc : isspace c = false := dropWhile_head_false _ c r hd
      have htok : nextToken is.buf ≠ [] := by
        unfold nextToken
        rw [hd]
        simp [List.takeWhile, hc]
      have hsplit : c :: r = nextToken is.buf ++
          (is.buf.dropWhile isspace).dropWhile (fun x => !isspace x) := by
        unfold nextToken
        rw [List.takeWhile_append_dropWhile, hd]
      have hr1 : ∀ x xs, (is.buf.dropWhile isspace).dropWhile (fun x => !isspace x) = x :: xs →
          isdigit x = false := by
        intro x xs hx
        have := dropWhile_head_false _ x xs hx
        cases hdx : isdigit x with
        | false => rfl
        | true => rw [isspace_of_isdigit hdx] at this; simp at this
      have hnil : ((takeSign (c :: r)).2.takeWhile isdigit) = [] := by
        rw [hsplit, takeSign_append _ _ htok]
        apply takeWhile_nil_of_head
        intro x xs hx
        unfold startsWithInteger at h
        cases ht : (takeSign (nextToken is.buf)).2 with
        | nil =>
          rw [ht, List.nil_append] at hx
          exact hr1 x xs hx
        | cons y ys =>
          rw [ht] at h hx
          simp only [List.cons_append, List.cons.injEq] at hx
          rw [← hx.1]
          exact h
      unfold IStream.extractInt
      rw [hs]
      simp only [hnil, List.isEmpty_nil, if_true]
  · simp only [Bool.not_eq_true] at hg
    rw [extractInt_not_good is hg]

/-- The extraction of an `int` from a good stream whose next token is `-1`
gives -1. -/
theorem extractInt_minus_one (is : IStream) (hg : is.good = true)
    (h : nextToken is.buf = ['-', '1']) : is.extractInt.1 = some (-1) := by
  obtain ⟨pre, r0, hb, hpre, hr0⟩ := nextToken_split is.buf
  rw [h] at hb
  have hs := sentry_of_prefix is pre '-' ('1' :: r0) hg (by rw [hb]; simp) hpre (by decide)
  have htw := takeWhile_append_stop (p := isdigit) ['1'] r0 (by decide)
    (fun c r hcr => by
      have := hr0 c r hcr
      cases hd : isdigit c with
      | false => rfl
      | true => rw [isspace_of_isdigit hd] at this; cases this)
  simp only [List.singleton_append] at htw
  unfold IStream.extractInt
  rw [hs]
  simp only [takeSign, htw.1, htw.2]
  rfl

theorem BadCount_of_no_integer (is : IStream)
    (h : startsWithInteger (nextToken is.buf) = false) : BadCount is :=
  Or.inl (extractInt_no_integer is h)

theorem BadCount_of_minus_one (is : IStream) (h : nextToken is.buf = ['-', '1']) :
    BadCount is := by
  by_cases hg : is.good = true
  · exact Or.inr ⟨-1, extractInt_minus_one is hg h, by decide⟩
  · simp only [Bool.not_eq_true] at hg
    left
    rw [extractInt_not_good is hg]

theorem LoadImpl.body_next_inv {Types : List Alt} {root : TreeNode} {p : List Nat}
    {stck : List (List Nat)} {is : IStream} {s : LoadState}
    (h : LoadImpl.body Types root p stck is = .next s) : s.is.buf.length < is.buf.length := by
  unfold LoadImpl.body at h
  split at h
  · simp at h
  · next node is1 h1 =>
    split at h
    · simp at h
    · split at h
      · simp at h
      · next n is2 h3 =>
        split at h
        · simp at h
        · simp only [LoadStep.next.injEq] at h
          rw [← h]
          have := LoadNodeData_true_length h1
          have := extractInt_some_length h3
          simp only
          omega

theorem LoadImpl.body_of_bad_count {Types : List Alt} {root node r1 : TreeNode}
    {p q : List Nat} (stck : List (List Nat)) {is is1 : IStream}
    (h1 : TreeNode.LoadNodeData Types TreeNode.init is = (true, node, is1))
    (h2 : root.AddChildAt p node = some (r1, q)) (hb : BadCount is1) :
    ∃ is2, LoadImpl.body Types root p stck is = .fail is2 := by
  cases h3 : is1.extractInt with
  | mk oi is2 =>
    cases oi with
    | none => exact ⟨is2, LoadImpl.body_fail_count stck h1 h2 h3⟩
    | some n =>
      have hn : n < 0 := by
        rcases hb with hb | ⟨m, hm, hlt⟩
        · rw [h3] at hb; simp at hb
        · rw [h3] at hm
          simp only [Option.some.injEq] at hm
          rw [hm]; exact hlt
      exact ⟨is2, LoadImpl.body_fail_negative stck h1 h2 h3 hn⟩

/-- The variables of the loop after `k` passes: characters have been consumed
at every pass, and the loop started with one pass per character goes on from
them with `k` passes fewer. -/
theorem LoadImpl.stateAt_spec (Types : List Alt) (is : IStream) :
    ∀ (k : Nat) (s : LoadState), LoadImpl.stateAt Types is k = some s →
      ∃ s0, LoadImpl.stateAt Types is 0 = some s0 ∧ s.is.buf.length + k < is.buf.length ∧
        LoadImpl.loop Types is.buf.length s0 = LoadImpl.loop Types (is.buf.length - k) s := by
  intro k
  induction k with
  | zero =>
    intro s h
    refine ⟨s, h, ?_, rfl⟩
    unfold LoadImpl.stateAt at h
    split at h
    · simp at h
    · split at h
      · simp at h
      · next root is1 h1 =>
        split at h
        · simp at h
        · next n is2 h3 =>
          split at h
          · simp at h
          · simp only [Option.some.injEq] at h
            rw [← h]
            have := LoadNodeData_true_length h1
            have := extractInt_some_length h3
            simp only
            omega
  | succ k ih =>
    intro s h
    rw [LoadImpl.stateAt] at h
    split at h
    · next root p stck isk hk =>
      obtain ⟨s0, h0, hlen, hloop⟩ := ih _ hk
      cases hb : LoadImpl.body Types root p stck isk with
      | next s' =>
        rw [hb] at h
        simp only [Option.some.injEq] at h
        subst h
        have hc := LoadImpl.body_next_inv hb
        simp only at hlen
        refine ⟨s0, h0, by omega, ?_⟩
        rw [hloop]
        have e : is.buf.length - k = (is.buf.length - (k + 1)) + 1 := by omega
        rw [e, LoadImpl.loop_cons, hb]
      | fail is1 => rw [hb] at h; simp at h
      | dangling => rw [hb] at h; simp at h
    · simp at h

theorem Load_of_stateAt_zero {Types : List Alt} (self : Tree) {is : IStream} {s0 : LoadState}
    (h : LoadImpl.stateAt Types is 0 = some s0) :
    self.Load Types is =
      match LoadImpl.loop Types is.buf.length s0 with
      | some (some root1, is3) => some (true, { m_root := root1 }, is3)
      | some (none, is3) => some (false, self, is3)
      | none => none := by
  unfold LoadImpl.stateAt at h
  unfold Tree.Load Tree.LoadImpl
  by_cases hg : is.good = true
  · simp only [hg, Bool.not_true, Bool.false_eq_true, if_false] at h ⊢
    cases h1 : TreeNode.LoadNodeData Types TreeNode.init is with
    | mk b rest =>
      obtain ⟨root, is1⟩ := rest
      rw [h1] at h
      cases b with
      | false => simp at h
      | true =>
        simp only at h ⊢
        cases h3 : is1.extractInt with
        | mk oi is2 =>
          rw [h3] at h
          cases oi with
          | none => simp at h
          | some n =>
            simp only at h ⊢
            by_cases hn : n < 0
            · rw [if_pos hn] at h; simp at h
            · rw [if_neg hn] at h ⊢
              simp only [Option.some.injEq] at h
              rw [h]
  · simp only [Bool.not_eq_true] at hg
    simp [hg] at h

/-- A bad child count, at the root or at any descendant, makes `Load` return
false and leave the tree as it was. -/
theorem Load_false_of_bad_count (Types : List Alt) (self : Tree) (is is1 : IStream) (k : Nat)
    (hc : LoadImpl.countStream Types is k = some is1) (hb : BadCount is1) :
    ∃ is2 : IStream, self.Load Types is = some (false, self, is2) := by
  cases k with
  | zero =>
    rw [LoadImpl.countStream] at hc
    by_cases hg : is.good = true
    · simp only [hg, Bool.not_true, Bool.false_eq_true, if_false] at hc
      cases h1 : TreeNode.LoadNodeData Types TreeNode.init is with
      | mk b rest =>
        obtain ⟨root, is0⟩ := rest
        rw [h1] at hc
        cases b with
        | false => simp at hc
        | true =>
          simp only [Option.some.injEq] at hc
          subst hc
          unfold Tree.Load Tree.LoadImpl
          simp only [hg, Bool.not_true, Bool.false_eq_true, if_false, h1]
          cases h3 : is0.extractInt with
          | mk oi is2 =>
            cases oi with
            | none => exact ⟨is2, rfl⟩
            | some n =>
              have hn : n < 0 := by
                rcases hb with hb | ⟨m, hm, hlt⟩
                · rw [h3] at hb; simp at hb
                · rw [h3] at hm
                  simp only [Option.some.injEq] at hm
                  rw [hm]; exact hlt
              simp only [hn, if_true]
              exact ⟨is2, rfl⟩
    · simp only [Bool.not_eq_true] at hg
      simp [hg] at hc
  | succ k =>
    rw [LoadImpl.countStream] at hc
    split at hc
    · next root p stck isk hk =>
      split at hc
      · next node is0 h1 =>
        split at hc
        · next rq h2 =>
          simp only [Option.some.injEq] at hc
          subst hc
          obtain ⟨s0, h0, hlen, hloop⟩ := LoadImpl.stateAt_spec Types is k _ hk
          obtain ⟨r1, q⟩ := rq
          obtain ⟨is2, hbody⟩ := LoadImpl.body_of_bad_count stck h1 h2 hb
          simp only at hlen
          have e : is.buf.length - k = (is.buf.length - k - 1) + 1 := by omega
          rw [Load_of_stateAt_zero self h0, hloop, e, LoadImpl.loop_cons, hbody]
          exact ⟨is2, rfl⟩
        · simp at hc
      · simp at hc
    · simp at hc

end BadCounts

/-- Claim C6. Negative count rejection: on every stream, when the token at the
child-count position of a node record, the root's (`k = 0`) or a descendant's
(the record read in pass `k` of the loop), is `-1`, `Load` returns false and
leaves the tree as it was. -/
theorem C6_negative_count_rejected (Types : List Alt) (self : Tree) (is is1 : IStream) (k : Nat)
    (hc : Tree.LoadImpl.countStream Types is k = some is1)
    (h : nextToken is1.buf = ['-', '1']) :
    ∃ is2 : IStream, self.Load Types is = some (false, self, is2) :=
  Load_false_of_bad_count Types self is is1 k hc (BadCount_of_minus_one is1 h)

/-- Witness for C6: in the stream `1 7 2 3 b -1 0 0` the second record, that of
the root's first child, has the child count `-1`. -/
theorem C6_negative_count_rejected_witness :
    (Tree.LoadImpl.countStream demoTypes (IStream.ofChars "1 7 2 3 b -1 0 0".toList) 1 =
        some (IStream.ofChars " -1 0 0".toList) ∧
      nextToken (IStream.ofChars " -1 0 0".toList).buf = ['-', '1']) ∧
    ∃ is2 : IStream,
      scenarioTree.Load demoTypes (IStream.ofChars "1 7 2 3 b -1 0 0".toList) =
        some (false, scenarioTree, is2) :=
  ⟨⟨by decide!, by decide!⟩,
    C6_negative_count_rejected demoTypes scenarioTree
      (IStream.ofChars "1 7 2 3 b -1 0 0".toList) (IStream.ofChars " -1 0 0".toList) 1
      (by decide!) (by decide!)⟩

/-- Claim C7, amended. Malformed-count rejection: on every stream, when `Load`
comes to extract the child count of a node record, the root's (`k = 0`) or a
descendant's, and the stream as it stands there (right after the characters
the node's value has taken, which can be inside a whitespace-delimited token)
has, leading whitespace skipped, no character left or does not begin with a
decimal integer (an optional sign followed by a digit), `Load` returns false
and leaves the tree as it was. -/
theorem C7_malformed_count_rejected (Types : List Alt) (self : Tree) (is is1 : IStream)
    (k : Nat) (hc : Tree.LoadImpl.countStream Types is k = some is1)
    (h : nextToken is1.buf = [] ∨ startsWithInteger (nextToken is1.buf) = false) :
    ∃ is2 : IStream, self.Load Types is = some (false, self, is2) :=
  Load_false_of_bad_count Types self is is1 k hc
    (BadCount_of_no_integer is1 (by
      rcases h with h | h
      · rw [h]; rfl
      · exact h))

/-- Witness for C7: in the stream `1 7 2 3 b` the child count of the second
record is missing. -/
theorem C7_malformed_count_rejected_witness :
    (Tree.LoadImpl.countStream demoTypes (IStream.ofChars "1 7 2 3 b".toList) 1 =
        some { buf := [], eofbit := true, failbit := false, badbit := false } ∧
      (nextToken ({ buf := [], eofbit := true, failbit := false, badbit := false } : IStream).buf
          = [] ∨
        startsWithInteger
          (nextToken ({ buf := [], eofbit := true, failbit := false, badbit := false } :
            IStream).buf) = false)) ∧
    ∃ is2 : IStream,
      scenarioTree.Load demoTypes (IStream.ofChars "1 7 2 3 b".toList) =
        some (false, scenarioTree, is2) :=
  ⟨⟨by decide!, Or.inl (by decide!)⟩,
    C7_malformed_count_rejected demoTypes scenarioTree (IStream.ofChars "1 7 2 3 b".toList)
      { buf := [], eofbit := true, failbit := false, badbit := false } 1 (by decide!)
      (Or.inl (by decide!))⟩

/-- Counterexample to C7 as stated. In the stream `0 0x` the token at the
root's child-count position is `0x`, which is not in its entirety a decimal
integer, and `Load` returns true (the count is read as 0 and `x` is left in
the stream). In the stream `1 5+0 x`, whose whitespace-delimited tokens are
`1`, `5+0` and `x`, the third token is no integer at all, and `Load` returns
true: the value 5 ends inside the second token, the count is extracted from
there and read as `+0`, and ` x` is left in the stream. -/
theorem C7_malformed_count_counterexample :
    (Tree.LoadImpl.countStream demoTypes (IStream.ofChars "0 0x".toList) 0 =
        some (IStream.ofChars " 0x".toList) ∧
      nextToken (IStream.ofChars " 0x".toList).buf = "0x".toList ∧
      isDecimalInteger "0x".toList = false ∧
      scenarioTree.Load demoTypes (IStream.ofChars "0 0x".toList) =
        some (true, { m_root := TreeNode.init }, IStream.ofChars "x".toList)) ∧
    (tokens "1 5+0 x".toList = ["1".toList, "5+0".toList, "x".toList] ∧
      isDecimalInteger "x".toList = false ∧ startsWithInteger "x".toList = false ∧
      Tree.LoadImpl.countStream demoTypes (IStream.ofChars "1 5+0 x".toList) 0 =
        some (IStream.ofChars "+0 x".toList) ∧
      scenarioTree.Load demoTypes (IStream.ofChars "1 5+0 x".toList) =
        some (true, { m_root := .mk { index := 1, data := .int 5 } [] },
          IStream.ofChars " x".toList)) := by
  decide!

/-- Counterexample to C8 as stated: with the demo's kinds, `Load` of the token
stream `0 5 2 1 3.5 0 2 hello 0` returns false and leaves the tree as it was.
The index 0 is the kind without value, so the root is read as an empty node
with 5 children; the first child is read as the float 1 with child count 3
(the digits of `3.5` up to the point), and the next kind index, read from
`.5`, is no integer. -/
theorem C8_load_scenario_counterexample :
    (Tree.mk TreeNode.init).Load demoTypes (IStream.ofChars "0 5 2 1 3.5 0 2 hello 0".toList) =
      some (false, Tree.mk TreeNode.init,
        { buf := ".5 0 2 hello 0".toList, eofbit := false, failbit := true, badbit := false }) := by
  decide!

/-- Claim C8, amended. Concrete load scenario: with the kinds integer, float and
text registered in that order, which gives them the kind indices 1, 2 and 3
(index 0 is the kind without value), `Load` of the token stream
`1 5 2 2 3.5 0 3 hello 0` returns true and yields a root holding the integer 5
with exactly two children, in order a leaf holding the float 3.5 and a leaf
holding the text `hello`. -/
theorem C8_load_scenario :
    (Tree.mk TreeNode.init).Load demoTypes (IStream.ofChars "1 5 2 2 3.5 0 3 hello 0".toList) =
        some (true, scenarioTree,
          { buf := [], eofbit := true, failbit := false, badbit := false }) ∧
      scenarioTree.m_root.m_data = { index := 1, data := .int 5 } ∧
      scenarioTree.m_root.m_childs =
        [.mk { index := 2, data := .double dbl_3_5 } [],
         .mk { index := 3, data := .string "hello".toList } []] ∧
      scenarioTree.m_root.m_childs.map TreeNode.IsLeaf = [true, true] ∧
      dbl_3_5.toRat = 7 / 2 := by
  refine ⟨by decide!, rfl, rfl, rfl, ?_⟩
  norm_num [dbl_3_5, Dbl.toRat]

/-- Counterexample to C9 as stated: with the demo's kinds, `Dump` of the
scenario tree returns the text `1 5 2 2 3.5 0 3 hello 0 `, whose tokens are not
those of `0 5 2 1 3.5 0 2 hello 0`: the kind-index token of the integer is 1,
not 0. -/
theorem C9_dump_scenario_counterexample :
    scenarioTree.Dump demoTypes = some "1 5 2 2 3.5 0 3 hello 0 ".toList ∧
      tokens "1 5 2 2 3.5 0 3 hello 0 ".toList ≠ tokens "0 5 2 1 3.5 0 2 hello 0".toList := by
  decide!

/-- Claim C9, amended. Concrete dump scenario: with the kinds integer, float and
text registered in that order, `Dump` of the tree whose root holds the integer
5 and has two leaf children, float 3.5 then text `hello`, returns exactly the
token sequence `1 5 2 2 3.5 0 3 hello 0`: the kind-index token of a value is
the position of its kind among the alternatives of the node's variant, 0 for
the kind without value and 1 for the first registered kind. -/
theorem C9_dump_scenario :
    (∃ text : List Char, scenarioTree.Dump demoTypes = some text ∧
      tokens text = tokens "1 5 2 2 3.5 0 3 hello 0".toList) ∧
    variant_alternative demoTypes 0 = some .monostate ∧
    variant_alternative demoTypes 1 = some .int ∧
    variant_alternative demoTypes 2 = some .double ∧
    variant_alternative demoTypes 3 = some .string ∧
    scenarioTree.m_root.preorder.map TreeNode.GetCurrentTypeIndex = [1, 2, 3] :=
  ⟨⟨"1 5 2 2 3.5 0 3 hello 0 ".toList, by decide!, by decide!⟩, by decide!, by decide!,
    by decide!, by decide!, by decide!⟩

/-! ## Print -/

section Print

open Tree

theorem PrintVisitor_append (T : Alt) (os : List Char) (v : Data) :
    PrintVisitor T os v = os ++ PrintVisitor T [] v := by
  cases T <;> cases v <;> simp [PrintVisitor]

theorem PrintByTypeIndex_append (Types : List Alt) (N : Nat) (os : List Char) (v : Variant) :
    VariantSwitchHelper.PrintByTypeIndex Types N os v =
      os ++ VariantSwitchHelper.PrintByTypeIndex Types N [] v := by
  unfold VariantSwitchHelper.PrintByTypeIndex
  split
  · exact PrintVisitor_append _ _ _
  · simp

theorem VariantSwitch.Print_append (Types : List Alt) (N index : Nat) (os : List Char)
    (v : Variant) :
    VariantSwitch.Print Types N index os v = os ++ VariantSwitch.Print Types N index [] v := by
  induction N with
  | zero => exact PrintByTypeIndex_append _ _ _ _
  | succ N ih =>
    simp only [VariantSwitch.Print]
    split
    · exact PrintByTypeIndex_append _ _ _ _
    · exact ih

theorem PrintNodeData_append (Types : List Alt) (n : TreeNode) (os : List Char) :
    n.PrintNodeData Types os = os ++ n.PrintNodeData Types [] :=
  VariantSwitch.Print_append _ _ _ _ _

theorem PrintImpl_eq (Types : List Alt) (oss pfx : List Char) (d : Variant)
    (cs : List TreeNode) (b : Bool) :
    PrintImpl Types oss pfx (.mk d cs) b =
      PrintImpl.childs Types (oss ++ ownLine Types pfx (.mk d cs) b)
        (pfx ++ (if b then "│  ".toList else "   ".toList)) cs := by
  rw [PrintImpl]
  simp only [ownLine, TreeNode.IsLeaf, TreeNode.HasChilds, TreeNode.m_childs_mk,
    Bool.not_not]
  rw [PrintNodeData_append]
  cases cs with
  | nil => simp [PrintImpl.childs]
  | cons c cs => simp

mutual
theorem PrintImpl_append (Types : List Alt) : ∀ (t : TreeNode) (oss pfx : List Char) (b : Bool),
    PrintImpl Types oss pfx t b = oss ++ PrintImpl Types [] pfx t b
  | .mk d cs, oss, pfx, b => by
    rw [PrintImpl_eq, PrintImpl_eq, PrintImpl.childs_append Types cs,
      PrintImpl.childs_append Types cs ([] ++ _)]
    simp
theorem PrintImpl.childs_append (Types : List Alt) : ∀ (cs : List TreeNode)
    (oss newPfx : List Char),
    PrintImpl.childs Types oss newPfx cs = oss ++ PrintImpl.childs Types [] newPfx cs
  | [], oss, newPfx => by simp [PrintImpl.childs]
  | [c], oss, newPfx => by
    rw [PrintImpl.childs, PrintImpl.childs]
    exact PrintImpl_append Types c oss newPfx true
  | c :: c2 :: cs, oss, newPfx => by
    rw [PrintImpl.childs, PrintImpl.childs]
    rw [PrintImpl_append Types c, PrintImpl.childs_append Types (c2 :: cs) oss,
      PrintImpl_append Types c (PrintImpl.childs Types [] newPfx (c2 :: cs))]
    simp
end

theorem PrintImpl.childs_eq_blocks (Types : List Alt) (newPfx : List Char) :
    ∀ cs : List TreeNode, PrintImpl.childs Types [] newPfx cs = childBlocks Types newPfx cs := by
  intro cs
  induction cs with
  | nil => simp [PrintImpl.childs, childBlocks]
  | cons c cs ih =>
    cases cs with
    | nil => simp [PrintImpl.childs, childBlocks]
    | cons c2 cs =>
      rw [PrintImpl.childs]
      rw [PrintImpl_append, ih]
      unfold childBlocks
      rw [List.reverse_cons (a := c)]
      cases h : (c2 :: cs).reverse with
      | nil => simp at h
      | cons last others => simp

/-- What `PrintImpl` writes for a node: the node's own line and then the blocks
of its children in reverse insertion order. -/
theorem PrintImpl_blocks (Types : List Alt) (oss pfx : List Char) (d : Variant)
    (cs : List TreeNode) (b : Bool) :
    PrintImpl Types oss pfx (.mk d cs) b =
      oss ++ ownLine Types pfx (.mk d cs) b ++
        childBlocks Types (pfx ++ (if b then "│  ".toList else "   ".toList)) cs := by
  rw [PrintImpl_eq, PrintImpl.childs_append, PrintImpl.childs_eq_blocks]

end Print

/-- Claim C10. Print order: for every node, `PrintImpl` writes the node's own line
first and then the sub-diagrams of its children in reverse insertion order,
the block of the last-appended child first and the block of the
first-appended child last; `Print` applies this to the root. For the scenario
tree (root 5, children float 3.5 then text `hello`) the root line, rendered as
`5`, comes first, then the line for `hello`, then the line for 3.5. `Print`
is a function of the tree that returns the text; it has no access to change
the tree (`Print() const`). -/
theorem C10_print_order :
    (∀ (Types : List Alt) (oss pfx : List Char) (d : Variant) (cs : List TreeNode) (b : Bool),
      Tree.PrintImpl Types oss pfx (.mk d cs) b =
        oss ++ Tree.ownLine Types pfx (.mk d cs) b ++
          Tree.childBlocks Types (pfx ++ (if b then "│  ".toList else "   ".toList)) cs) ∧
    (∀ (Types : List Alt) (t : Tree),
      t.Print Types =
        Tree.ownLine Types [] t.m_root false ++
          Tree.childBlocks Types "   ".toList t.m_root.m_childs) ∧
    scenarioTree.Print demoTypes =
      "└───5".toList ++ ['\n'] ++ "   ├───\"hello\"".toList ++ ['\n'] ++
        "   └───3.5".toList ++ ['\n'] := by
  refine ⟨PrintImpl_blocks, ?_, by decide!⟩
  intro Types t
  obtain ⟨⟨d, cs⟩⟩ := t
  show Tree.PrintImpl Types [] [] (.mk d cs) false = _
  rw [PrintImpl_blocks]
  simp


/-! ## Print connectors -/

section Connectors

open Tree

theorem childBlocks_eq_calls (Types : List Alt) (newPfx : List Char) (cs : List TreeNode) :
    childBlocks Types newPfx cs =
      ((PrintImpl.childCalls cs).map (fun p => PrintImpl Types [] newPfx p.1 p.2)).flatten := by
  unfold childBlocks PrintImpl.childCalls
  cases cs.reverse with
  | nil => rfl
  | cons last others => simp [List.map_map, Function.comp_def]

theorem PrintImpl_line (Types : List Alt) (pfx : List Char) (c : TreeNode) (b : Bool) :
    PrintImpl Types [] pfx c b =
      pfx ++ connector b ++ c.PrintNodeData Types [] ++ ['\n'] ++
        childBlocks Types (pfx ++ (if b then "│  ".toList else "   ".toList)) c.m_childs := by
  obtain ⟨d, cs⟩ := c
  rw [PrintImpl_blocks]
  simp [ownLine, connector]

theorem childCalls_getElem (cs : List TreeNode) (i : Nat) (c : TreeNode) (b : Bool)
    (h : (PrintImpl.childCalls cs)[i]? = some (c, b)) :
    (b = true ↔ i = 0) ∧ cs.reverse[i]? = some c := by
  unfold PrintImpl.childCalls at h
  cases hr : cs.reverse with
  | nil => rw [hr] at h; simp at h
  | cons last others =>
    rw [hr] at h
    cases i with
    | zero =>
      simp only [List.getElem?_cons_zero, Option.some.injEq, Prod.mk.injEq] at h
      simp [h.1, h.2]
    | succ i =>
      simp only [List.getElem?_cons_succ, List.getElem?_map, Option.map_eq_some'] at h
      obtain ⟨x, hx, hxe⟩ := h
      simp only [Prod.mk.injEq] at hxe
      simp [← hxe.1, ← hxe.2, hx]

end Connectors

/-- The connectors `PrintImpl` writes: for every node, the lines of its children
are drawn by the calls listed in `childCalls`, one block per child in reverse
insertion order, each block beginning with the child's line: prefix, connector,
rendered value, and going on under the prefix extended by a bar `│  ` below a
`├───` child and by blanks below a `└───` child. The connector of a child line
is `├───` exactly when the child is the first of its siblings to be drawn (the
last-appended child) and `└───` for every other child. -/
theorem PrintImpl_connector_rule (Types : List Alt) (pfx : List Char) (cs : List TreeNode) :
    (∀ oss : List Char, Tree.PrintImpl.childs Types oss pfx cs =
      oss ++ ((Tree.PrintImpl.childCalls cs).map
        (fun p => Tree.PrintImpl Types [] pfx p.1 p.2)).flatten) ∧
    (∀ (c : TreeNode) (b : Bool), Tree.PrintImpl Types [] pfx c b =
      pfx ++ Tree.connector b ++ c.PrintNodeData Types [] ++ ['\n'] ++
        Tree.childBlocks Types (pfx ++ (if b then "│  ".toList else "   ".toList)) c.m_childs) ∧
    (∀ (i : Nat) (c : TreeNode) (b : Bool), (Tree.PrintImpl.childCalls cs)[i]? = some (c, b) →
      (Tree.connector b = "├───".toList ↔ i = 0) ∧ (Tree.connector b = "└───".toList ↔ i ≠ 0) ∧
        cs.reverse[i]? = some c) := by
  refine ⟨?_, fun c b => PrintImpl_line Types pfx c b, ?_⟩
  · intro oss
    rw [PrintImpl.childs_append, PrintImpl.childs_eq_blocks, childBlocks_eq_calls]
  · intro i c b h
    obtain ⟨h1, h2⟩ := childCalls_getElem cs i c b h
    refine ⟨?_, ?_, h2⟩
    · rw [← h1]
      cases b <;> simp [Tree.connector]
    · rw [Ne, ← h1]
      cases b <;> simp [Tree.connector]

/-- Claim C11, evaluated at failing inputs. The only child of the root of
`oneChildTree` is drawn with `├───` although it is the last of its siblings to
be drawn and no sibling is drawn below it; below the only child of the root of
`chainTree` the bar `│` that `PrintImpl` draws under a `├───` child goes on
with no sibling to lead to; and the second child drawn for the root of
`threeChildTree` is drawn with `└───` although a sibling is drawn below it. A
node with two children is drawn as the claim says. -/
theorem C11_print_connectors :
    (oneChildTree.Print demoTypes =
        "└───5".toList ++ ['\n'] ++ "   ├───<->".toList ++ ['\n'] ∧
      Tree.PrintImpl.childCalls oneChildTree.m_root.m_childs =
        [(.mk { index := 0, data := .monostate } [], true)] ∧
      Tree.connector true = "├───".toList ∧
      ¬ (0 + 1 < oneChildTree.m_root.m_childs.length)) ∧
    (chainTree.Print demoTypes =
        "└───5".toList ++ ['\n'] ++ "   ├───<->".toList ++ ['\n'] ++
          "   │  ├───7".toList ++ ['\n']) ∧
    (threeChildTree.Print demoTypes =
        "└───5".toList ++ ['\n'] ++ "   ├───3".toList ++ ['\n'] ++ "   └───2".toList ++ ['\n'] ++
          "   └───1".toList ++ ['\n'] ∧
      (Tree.PrintImpl.childCalls threeChildTree.m_root.m_childs)[1]? =
        some (.mk { index := 1, data := .int 2 } [], false) ∧
      Tree.connector false = "└───".toList ∧
      1 + 1 < threeChildTree.m_root.m_childs.length) ∧
    (scenarioTree.Print demoTypes =
        "└───5".toList ++ ['\n'] ++ "   ├───\"hello\"".toList ++ ['\n'] ++
          "   └───3.5".toList ++ ['\n']) := by
  decide!


/-! ## The node parser: failure and dispatch -/

theorem LoadNodeData_negative {Types : List Alt} (self : TreeNode) {is is1 : IStream}
    {i : Int} (h : is.extractInt = (some i, is1)) (hi : i < 0) :
    TreeNode.LoadNodeData Types self is = (false, self, is1) := by
  unfold TreeNode.LoadNodeData
  rw [h]
  simp [hi]

theorem LoadNodeData_unpack_fail {Types : List Alt} (self : TreeNode) {is is1 is2 : IStream}
    {i : Int} {T : Alt} (h : is.extractInt = (some i, is1)) (hi : 0 ≤ i)
    (hT : variant_alternative Types i.toNat = some T)
    (hu : UnPackVisitor T is1 = (none, is2)) :
    TreeNode.LoadNodeData Types self is = (false, self, is2) := by
  have hk := variant_alternative_some_le hT
  unfold TreeNode.LoadNodeData
  rw [h]
  simp only
  rw [if_neg (by omega), if_neg (by omega), VariantSwitch.UnPack_eq, if_pos hk]
  unfold VariantSwitchHelper.UnPackByTypeIndex
  rw [hT]
  simp only
  rw [hu]

theorem LoadNodeData_unreadable {Types : List Alt} (self : TreeNode) (is : IStream)
    (h : startsWithInteger (nextToken is.buf) = false) :
    TreeNode.LoadNodeData Types self is = (false, self, is.extractInt.2) := by
  have h1 := extractInt_no_integer is h
  cases he : is.extractInt with
  | mk oi is1 =>
    rw [he] at h1
    simp only at h1
    subst h1
    exact LoadNodeData_extract_fail self he

/-- Claim C13. Node parse is atomic: `LoadNodeData` returns false when the
kind-index token is unreadable (the extraction of the index fails, as it does
on a token that does not begin with an integer), when the index is negative,
when it is greater than the number `K` of kinds, and when the unpack of the
chosen kind fails; and whenever it returns false the node after the call is
the node before the call, value and children. -/
theorem C13_node_parse_atomic (Types : List Alt) (self : TreeNode) (is : IStream) :
    (∀ is1, is.extractInt = (none, is1) →
      TreeNode.LoadNodeData Types self is = (false, self, is1)) ∧
    (startsWithInteger (nextToken is.buf) = false →
      TreeNode.LoadNodeData Types self is = (false, self, is.extractInt.2)) ∧
    (∀ i is1, is.extractInt = (some i, is1) → i < 0 →
      TreeNode.LoadNodeData Types self is = (false, self, is1)) ∧
    (∀ i is1, is.extractInt = (some i, is1) →
      TreeNode.InternalVariantStorageTypeIndexSize Types < i.toNat →
      TreeNode.LoadNodeData Types self is = (false, self, is1)) ∧
    (∀ i is1 T is2, is.extractInt = (some i, is1) → 0 ≤ i →
      variant_alternative Types i.toNat = some T → UnPackVisitor T is1 = (none, is2) →
      TreeNode.LoadNodeData Types self is = (false, self, is2)) ∧
    (∀ node is1, TreeNode.LoadNodeData Types self is = (false, node, is1) → node = self) :=
  ⟨fun _ h => LoadNodeData_extract_fail self h,
    fun h => LoadNodeData_unreadable self is h,
    fun _ _ h hi => LoadNodeData_negative self h hi,
    fun _ _ h hi => LoadNodeData_out_of_range self h hi,
    fun _ _ _ _ h hi hT hu => LoadNodeData_unpack_fail self h hi hT hu,
    fun _ _ h => LoadNodeData_false h⟩

/-- Witness for C13, on the root of the scenario tree and the demo's kinds: the
index token `x`, the index -2, the index 4 and the integer payload `y` each
make `LoadNodeData` return false and keep the node. -/
theorem C13_node_parse_atomic_witness :
    (startsWithInteger (nextToken (IStream.ofChars "x 5 0".toList).buf) = false ∧
      TreeNode.LoadNodeData demoTypes scenarioTree.m_root (IStream.ofChars "x 5 0".toList) =
        (false, scenarioTree.m_root, (IStream.ofChars "x 5 0".toList).extractInt.2)) ∧
    (((IStream.ofChars "-2 5 0".toList).extractInt = (some (-2), IStream.ofChars " 5 0".toList) ∧
        (-2 : Int) < 0) ∧
      TreeNode.LoadNodeData demoTypes scenarioTree.m_root (IStream.ofChars "-2 5 0".toList) =
        (false, scenarioTree.m_root, IStream.ofChars " 5 0".toList)) ∧
    (((IStream.ofChars "4 5 0".toList).extractInt = (some 4, IStream.ofChars " 5 0".toList) ∧
        TreeNode.InternalVariantStorageTypeIndexSize demoTypes < (4 : Int).toNat) ∧
      TreeNode.LoadNodeData demoTypes scenarioTree.m_root (IStream.ofChars "4 5 0".toList) =
        (false, scenarioTree.m_root, IStream.ofChars " 5 0".toList)) ∧
    (((IStream.ofChars "1 y 0".toList).extractInt = (some 1, IStream.ofChars " y 0".toList) ∧
        (0 : Int) ≤ 1 ∧ variant_alternative demoTypes (1 : Int).toNat = some .int ∧
        UnPackVisitor .int (IStream.ofChars " y 0".toList) =
          (none, (IStream.ofChars "y 0".toList).setFail)) ∧
      TreeNode.LoadNodeData demoTypes scenarioTree.m_root (IStream.ofChars "1 y 0".toList) =
        (false, scenarioTree.m_root, (IStream.ofChars "y 0".toList).setFail)) :=
  ⟨⟨by decide!, (C13_node_parse_atomic demoTypes scenarioTree.m_root
      (IStream.ofChars "x 5 0".toList)).2.1 (by decide!)⟩,
    ⟨⟨by decide!, by decide⟩, (C13_node_parse_atomic demoTypes scenarioTree.m_root
      (IStream.ofChars "-2 5 0".toList)).2.2.1 (-2) (IStream.ofChars " 5 0".toList)
        (by decide!) (by decide)⟩,
    ⟨⟨by decide!, by decide!⟩, (C13_node_parse_atomic demoTypes scenarioTree.m_root
      (IStream.ofChars "4 5 0".toList)).2.2.2.1 4 (IStream.ofChars " 5 0".toList)
        (by decide!) (by decide!)⟩,
    ⟨⟨by decide!, by decide, by decide!, by decide!⟩,
      (C13_node_parse_atomic demoTypes scenarioTree.m_root
        (IStream.ofChars "1 y 0".toList)).2.2.2.2.1 1 (IStream.ofChars " y 0".toList) .int
          ((IStream.ofChars "y 0".toList).setFail) (by decide!) (by decide) (by decide!)
          (by decide!)⟩⟩


theorem PrintNodeData_eq {Types : List Alt} {T : Alt} (n : TreeNode) (os : List Char)
    (h : variant_alternative Types n.m_data.index = some T) :
    n.PrintNodeData Types os = PrintVisitor T os n.m_data.data := by
  unfold TreeNode.PrintNodeData
  rw [VariantSwitch.Print_eq _ _ _ _ _ (variant_alternative_some_le h)]
  unfold VariantSwitchHelper.PrintByTypeIndex
  rw [h]

theorem DumpNodeData_eq_visitor {Types : List Alt} {T : Alt} (n : TreeNode) (os : List Char)
    (h : variant_alternative Types n.m_data.index = some T) :
    n.DumpNodeData Types os = PackVisitor T os n.m_data.data := by
  unfold TreeNode.DumpNodeData
  rw [VariantSwitch.Pack_eq _ _ _ _ _ (variant_alternative_some_le h)]
  unfold VariantSwitchHelper.PackByTypeIndex
  rw [h]

theorem extractInt_of_token_eq (is : IStream) (hg : is.good = true) (i : Nat)
    (h : nextToken is.buf = natToChars i) (hi : (i : Int) ≤ INT_MAX) :
    is.extractInt = (some (i : Int), is.extractInt.2) := by
  obtain ⟨is1, he⟩ := extractInt_of_token is hg i h
  rw [if_pos hi] at he
  rw [he]

/-- The node parser on a stream that starts with the index of a kind whose
unpack succeeds. -/
theorem LoadNodeData_dispatch (Types : List Alt) (self : TreeNode) (is is1 : IStream) (i : Nat)
    (T : Alt) (v : Data) (hg : is.good = true) (h : nextToken is.buf = natToChars i)
    (hi : (i : Int) ≤ INT_MAX) (hT : variant_alternative Types i = some T)
    (hu : UnPackVisitor T is.extractInt.2 = (some v, is1)) :
    TreeNode.LoadNodeData Types self is =
      (true, .mk { index := i, data := v } self.m_childs, is1) := by
  have he := extractInt_of_token_eq is hg i h hi
  have := LoadNodeData_of_parts self he (Int.ofNat_nonneg _)
    (by rw [Int.toNat_ofNat]; exact hT) hu
  rw [this, Int.toNat_ofNat]

/-- Claim C14. Dispatch selects the matching kind. (1) For every index `i` of a
kind `T` among `std::monostate, Types...` (so `0 ≤ i ≤ K`; the index fits an
`int`) and every stream that starts with the token `i` and on which, after the
index, the unpack of `T` succeeds with value `v`, `LoadNodeData` returns true
and the node then reports `GetCurrentTypeIndex() == i`, holds `v` and keeps its
children. (2) Index 0 gives an Empty node and consumes no value token: the
stream is left as it stands after the index. (3) For every node whose index is
that of a kind `T`, `PrintNodeData` and `DumpNodeData` write exactly what the
print and the pack visitor of `T` write for the node's payload. (4) Empty
renders as `<->` and packs to nothing; a text renders between double quotes
and packs raw. -/
theorem C14_dispatch_selects_kind (Types : List Alt) :
    (∀ (self : TreeNode) (is is1 : IStream) (i : Nat) (T : Alt) (v : Data),
      is.good = true → nextToken is.buf = natToChars i → (i : Int) ≤ INT_MAX →
      variant_alternative Types i = some T → UnPackVisitor T is.extractInt.2 = (some v, is1) →
      ∃ node : TreeNode, TreeNode.LoadNodeData Types self is = (true, node, is1) ∧
        node.GetCurrentTypeIndex = i ∧ node.m_data.data = v ∧ node.m_childs = self.m_childs) ∧
    (∀ (self : TreeNode) (is : IStream), is.good = true → nextToken is.buf = natToChars 0 →
      TreeNode.LoadNodeData Types self is =
        (true, .mk { index := 0, data := .monostate } self.m_childs, is.extractInt.2)) ∧
    (∀ (n : TreeNode) (T : Alt) (os : List Char),
      variant_alternative Types n.m_data.index = some T →
      n.PrintNodeData Types os = PrintVisitor T os n.m_data.data ∧
        n.DumpNodeData Types os = PackVisitor T os n.m_data.data) ∧
    (∀ os : List Char, PrintVisitor .monostate os .monostate = os ++ "<->".toList ∧
      PackVisitor .monostate os .monostate = os) ∧
    (∀ (os s : List Char), PrintVisitor .string os (.string s) = os ++ ['"'] ++ s ++ ['"'] ∧
      PackVisitor .string os (.string s) = os ++ s) := by
  refine ⟨?_, ?_, ?_, fun os => ⟨rfl, rfl⟩, fun os s => ⟨rfl, rfl⟩⟩
  · intro self is is1 i T v hg h hi hT hu
    exact ⟨_, LoadNodeData_dispatch Types self is is1 i T v hg h hi hT hu, rfl, rfl, rfl⟩
  · intro self is hg h
    exact LoadNodeData_dispatch Types self is is.extractInt.2 0 .monostate .monostate hg h
      (by decide) (by simp [variant_alternative]) rfl
  · intro n T os h
    exact ⟨PrintNodeData_eq n os h, DumpNodeData_eq_visitor n os h⟩

/-- Witness for C14, for the demo's kinds: the stream `3 hello 0` gives a node
of index 3 holding the text `hello`; the stream `0 7` gives an Empty node and
leaves ` 7`; the text node `hello` prints and packs through the text visitors. -/
theorem C14_dispatch_selects_kind_witness :
    (((IStream.ofChars "3 hello 0".toList).good = true ∧
        nextToken (IStream.ofChars "3 hello 0".toList).buf = natToChars 3 ∧
        ((3 : Nat) : Int) ≤ INT_MAX ∧ variant_alternative demoTypes 3 = some .string ∧
        UnPackVisitor .string (IStream.ofChars "3 hello 0".toList).extractInt.2 =
          (some (.string "hello".toList), IStream.ofChars " 0".toList)) ∧
      ∃ node : TreeNode,
        TreeNode.LoadNodeData demoTypes scenarioTree.m_root (IStream.ofChars "3 hello 0".toList) =
          (true, node, IStream.ofChars " 0".toList) ∧
        node.GetCurrentTypeIndex = 3 ∧ node.m_data.data = .string "hello".toList ∧
        node.m_childs = scenarioTree.m_root.m_childs) ∧
    (((IStream.ofChars "0 7".toList).good = true ∧
        nextToken (IStream.ofChars "0 7".toList).buf = natToChars 0) ∧
      TreeNode.LoadNodeData demoTypes scenarioTree.m_root (IStream.ofChars "0 7".toList) =
        (true, .mk { index := 0, data := .monostate } scenarioTree.m_root.m_childs,
          (IStream.ofChars "0 7".toList).extractInt.2)) ∧
    (variant_alternative demoTypes
        (TreeNode.mk { index := 3, data := .string "hello".toList } []).m_data.index =
        some .string ∧
      (TreeNode.mk { index := 3, data := .string "hello".toList } []).PrintNodeData demoTypes [] =
          PrintVisitor .string []
            (TreeNode.mk { index := 3, data := .string "hello".toList } []).m_data.data ∧
        (TreeNode.mk { index := 3, data := .string "hello".toList } []).DumpNodeData demoTypes [] =
          PackVisitor .string []
            (TreeNode.mk { index := 3, data := .string "hello".toList } []).m_data.data) :=
  ⟨⟨⟨by decide, by decide!, by decide, by decide!, by decide!⟩,
      (C14_dispatch_selects_kind demoTypes).1 scenarioTree.m_root
        (IStream.ofChars "3 hello 0".toList) (IStream.ofChars " 0".toList) 3 .string
        (.string "hello".toList) (by decide) (by decide!) (by decide) (by decide!) (by decide!)⟩,
    ⟨⟨by decide, by decide!⟩,
      (C14_dispatch_selects_kind demoTypes).2.1 scenarioTree.m_root
        (IStream.ofChars "0 7".toList) (by decide) (by decide!)⟩,
    ⟨by decide!,
      (C14_dispatch_selects_kind demoTypes).2.2.1
        (TreeNode.mk { index := 3, data := .string "hello".toList } []) .string []
        (by decide!)⟩⟩


/-! ## Equality of nodes -/

theorem Data_eq_iff_of_not_double (a b : Data) (ha : ∀ x, a ≠ .double x) :
    Data.eq a b = true ↔ a = b := by
  cases a with
  | monostate => cases b <;> simp [Data.eq]
  | int v => cases b <;> simp [Data.eq]
  | double x => exact absurd rfl (ha x)
  | string s => cases b <;> simp [Data.eq]

theorem Variant_eq_iff_of_not_double (v w : Variant) (hv : ∀ x, v.data ≠ .double x) :
    Variant.eq v w = true ↔ v = w := by
  obtain ⟨i, a⟩ := v
  obtain ⟨j, b⟩ := w
  simp only [Variant.eq, Bool.and_eq_true, beq_iff_eq, Variant.mk.injEq]
  rw [Data_eq_iff_of_not_double a b hv]

/-- Claim C15. Node equality compares only the value: for every two nodes
`a == b` is the comparison of their values, whatever their children; when
the value of `a` is no floating-point number, `a == b` holds exactly when the
two values are the same kind with the same payload (floating-point payloads
are compared as `double`s are: the zeros are equal, a NaN is equal to
nothing); in particular two nodes with the same such value and different
child sequences compare equal. -/
theorem C15_equality_ignores_children :
    (∀ a b : TreeNode, a.operatorEq b = Variant.eq a.m_data b.m_data) ∧
    (∀ (d e : Variant) (cs ds cs' ds' : List TreeNode),
      (TreeNode.mk d cs).operatorEq (.mk e ds) = (TreeNode.mk d cs').operatorEq (.mk e ds')) ∧
    (∀ a b : TreeNode, (∀ x, a.m_data.data ≠ .double x) →
      (a.operatorEq b = true ↔ a.m_data = b.m_data)) ∧
    (∀ (d : Variant) (cs cs' : List TreeNode), (∀ x, d.data ≠ .double x) →
      (TreeNode.mk d cs).operatorEq (.mk d cs') = true) ∧
    (∀ (i j : Nat) (x y : Dbl) (cs ds : List TreeNode),
      (TreeNode.mk { index := i, data := .double x } cs).operatorEq
          (.mk { index := j, data := .double y } ds) = (i == j && Dbl.eq x y)) := by
  refine ⟨fun a b => rfl, fun d e cs ds cs' ds' => rfl, ?_, ?_, fun i j x y cs ds => rfl⟩
  · intro a b ha
    exact Variant_eq_iff_of_not_double a.m_data b.m_data ha
  · intro d cs cs' hd
    exact (Variant_eq_iff_of_not_double d d hd).mpr rfl

/-- Witness for C15: the root of the scenario tree, which holds the integer 5
and has two children, compares equal to a leaf holding the integer 5. -/
theorem C15_equality_ignores_children_witness :
    (∀ x, scenarioTree.m_root.m_data.data ≠ .double x) ∧
      (scenarioTree.m_root.operatorEq (.mk { index := 1, data := .int 5 } []) = true ↔
        scenarioTree.m_root.m_data = (TreeNode.mk { index := 1, data := .int 5 } []).m_data) ∧
      scenarioTree.m_root.m_childs ≠ (TreeNode.mk { index := 1, data := .int 5 } []).m_childs ∧
      scenarioTree.m_root.operatorEq (.mk { index := 1, data := .int 5 } []) = true :=
  ⟨fun x => by simp [scenarioTree],
    C15_equality_ignores_children.2.2.1 scenarioTree.m_root
      (.mk { index := 1, data := .int 5 } []) (fun x => by simp [scenarioTree]),
    by decide!, by decide!⟩


/-- Claim C16, evaluated at a failing input: on an input file that holds `9`
(a kind index out of range), with valid paths, `Load` returns false, and the
driver nevertheless writes the dump and the print of the empty tree to the
output file and returns `EXIT_SUCCESS`: it does not look at what `Load`
returns. -/
theorem C16_driver_ignores_load_failure :
    (Tree.mk TreeNode.init).Load demoTypes (IStream.ofChars "9".toList) =
        some (false, Tree.mk TreeNode.init,
          { buf := [], eofbit := true, failbit := false, badbit := false }) ∧
      demo.main { optionsError := false, help := false, inputExists := true,
                  inputIsDirectory := false, outputIsDirectory := false,
                  input := IStream.ofChars "9".toList, outputOpens := true } =
        some { status := demo.EXIT_SUCCESS,
               printed := some ("└───<->".toList ++ ['\n']),
               output := some ("0  0 ".toList ++ ['\n', '\n'] ++ "└───<->".toList ++ ['\n']) } := by
  decide!


/-- Claim C20. Empty text breaks the round trip: the single leaf holding the
empty text, a tree of the demo's kinds, is dumped to `3  0 `, pack writing
nothing for the empty text; on that text the unpack of the text kind takes the
following token, `0`, as the payload, the child count is then missing, and
`Load` returns false. When the node holding the empty text has one child,
`Load` returns true and yields a different tree, the leaf holding the text
`1`. -/
theorem C20_empty_text_breaks_round_trip :
    (variant_alternative demoTypes emptyTextTree.m_root.m_data.index =
        some emptyTextTree.m_root.m_data.data.alt ∧
      emptyTextTree.m_root.DumpNodeData demoTypes [] = [] ∧
      emptyTextTree.Dump demoTypes = some "3  0 ".toList ∧
      TreeNode.LoadNodeData demoTypes TreeNode.init (IStream.ofChars "3  0 ".toList) =
        (true, .mk { index := 3, data := .string "0".toList } [], IStream.ofChars " ".toList) ∧
      scenarioTree.Load demoTypes (IStream.ofChars "3  0 ".toList) =
        some (false, scenarioTree,
          { buf := [], eofbit := true, failbit := true, badbit := false })) ∧
    (emptyTextParent.Dump demoTypes = some "3  1 0  0 ".toList ∧
      scenarioTree.Load demoTypes (IStream.ofChars "3  1 0  0 ".toList) =
        some (true, { m_root := .mk { index := 3, data := .string "1".toList } [] },
          IStream.ofChars "  0 ".toList) ∧
      Tree.mk (.mk { index := 3, data := .string "1".toList } []) ≠ emptyTextParent) := by
  decide!


/-! ## Characters after the last record -/

section Extend

theorem takeWhile_append_head {p : Char → Bool} (a t : List Char)
    (ht : ∀ c r, t = c :: r → p c = false) :
    (a ++ t).takeWhile p = a.takeWhile p ∧ (a ++ t).dropWhile p = a.dropWhile p ++ t := by
  induction a with
  | nil =>
    cases t with
    | nil => simp
    | cons c r => simp [List.takeWhile, List.dropWhile, ht c r rfl]
  | cons x a ih =>
    simp only [List.cons_append, List.takeWhile_cons, List.dropWhile_cons]
    cases hx : p x with
    | true => simp [ih.1, ih.2]
    | false => simp

theorem dropWhile_append_of_cons {p : Char → Bool} (l t : List Char) (c : Char)
    (cs : List Char) (h : l.dropWhile p = c :: cs) : (l ++ t).dropWhile p = c :: (cs ++ t) := by
  induction l with
  | nil => simp at h
  | cons x l ih =>
    rw [List.dropWhile_cons] at h
    rw [List.cons_append, List.dropWhile_cons]
    cases hx : p x with
    | true =>
      rw [hx] at h
      simp only [if_true] at h ⊢
      exact ih h
    | false =>
      rw [hx] at h
      simp only [Bool.false_eq_true, if_false, List.cons.injEq] at h ⊢
      rw [h.1, h.2]
      simp

theorem isdigit_of_space (w : Char) (hw : isspace w = true) : isdigit w = false := by
  cases hd : isdigit w with
  | false => rfl
  | true => rw [isspace_of_isdigit hd] at hw; cases hw

theorem takeSign_append_space (w : Char) (t : List Char) (hw : isspace w = true)
    (tok : List Char) :
    takeSign (tok ++ w :: t) = ((takeSign tok).1, (takeSign tok).2 ++ w :: t) := by
  cases tok with
  | nil =>
    simp only [List.nil_append]
    unfold takeSign
    split
    · next heq =>
      simp only [List.cons.injEq] at heq
      rw [heq.1] at hw
      exact absurd hw (by decide)
    · next heq =>
      simp only [List.cons.injEq] at heq
      rw [heq.1] at hw
      exact absurd hw (by decide)
    · rfl
  | cons c r => exact takeSign_append (c :: r) (w :: t) (by simp)

theorem sentry_extend (w : Char) (t : List Char) {is is1 : IStream}
    (h : is.sentry = (true, is1)) :
    (is.extend (w :: t)).sentry = (true, is1.extend (w :: t)) := by
  obtain ⟨hg, hb, hne, he, hf, hbad⟩ := sentry_true h
  have hg' : (is.extend (w :: t)).good = true := by
    simp only [IStream.good, IStream.extend, Bool.and_eq_true, Bool.not_eq_true'] at hg ⊢
    exact ⟨⟨trivial, hg.1.2⟩, hg.2⟩
  cases hd : is.buf.dropWhile isspace with
  | nil => rw [hd] at hb; exact absurd hb hne
  | cons c cs =>
    have := dropWhile_append_of_cons is.buf (w :: t) c cs hd
    unfold IStream.sentry
    rw [hg']
    simp only [IStream.extend, if_true] at this ⊢
    rw [this]
    simp only [Prod.mk.injEq, true_and]
    rw [hb, hd, hf, hbad]
    rfl

theorem extractInt_extend (w : Char) (t : List Char) (hw : isspace w = true)
    {is is1 : IStream} {v : Int} (h : is.extractInt = (some v, is1)) :
    (is.extend (w :: t)).extractInt = (some v, is1.extend (w :: t)) := by
  unfold IStream.extractInt at h ⊢
  cases hs : is.sentry with
  | mk ok is0 =>
    rw [hs] at h
    cases ok with
    | false => simp at h
    | true =>
      rw [sentry_extend w t hs]
      simp only at h ⊢
      have hts := takeSign_append_space w t hw is0.buf
      have htw := takeWhile_append_head (p := isdigit) (takeSign is0.buf).2 (w :: t)
        (fun c r hcr => by cases hcr; exact isdigit_of_space w hw)
      simp only [IStream.extend, hts, htw.1, htw.2]
      split at h
      · simp at h
      · next hne =>
        rw [if_neg hne]
        split at h
        · simp at h
        · next hr =>
          rw [if_neg hr]
          simp only [Prod.mk.injEq, Option.some.injEq] at h
          rw [← h.1, ← h.2]
          simp

theorem extractString_extend (w : Char) (t : List Char) (hw : isspace w = true)
    {is is1 : IStream} {v : List Char} (h : is.extractString = (some v, is1)) :
    (is.extend (w :: t)).extractString = (some v, is1.extend (w :: t)) := by
  unfold IStream.extractString at h ⊢
  cases hs : is.sentry with
  | mk ok is0 =>
    rw [hs] at h
    cases ok with
    | false => simp at h
    | true =>
      rw [sentry_extend w t hs]
      simp only at h ⊢
      have htw := takeWhile_append_head (p := fun c => !isspace c) is0.buf (w :: t)
        (fun c r hcr => by cases hcr; simp [hw])
      simp only [IStream.extend, htw.1, htw.2]
      split at h
      · simp at h
      · next hne =>
        rw [if_neg hne]
        simp only [Prod.mk.injEq, Option.some.injEq] at h
        rw [← h.1, ← h.2]
        simp

end Extend


section Extend2

theorem takeFraction_append_space (w : Char) (t : List Char) (hw : isspace w = true)
    (x : List Char) :
    takeFraction (x ++ w :: t) = ((takeFraction x).1, (takeFraction x).2 ++ w :: t) := by
  have hd := isdigit_of_space w hw
  cases x with
  | nil =>
    simp only [List.nil_append]
    unfold takeFraction
    split
    · next heq =>
      simp only [List.cons.injEq] at heq
      rw [heq.1] at hw
      exact absurd hw (by decide)
    · rfl
  | cons c r =>
    rw [List.cons_append]
    unfold takeFraction
    split
    · next r' heq =>
      simp only [List.cons.injEq] at heq
      obtain ⟨h1, h2⟩ := heq
      subst h1 h2
      have htw := takeWhile_append_head (p := isdigit) r (w :: t)
        (fun c r hcr => by cases hcr; exact hd)
      simp only [htw.1, htw.2]
    · next hne =>
      split
      · next r' heq =>
        simp only [List.cons.injEq] at heq
        exact absurd (by rw [heq.1]) (hne (r ++ w :: t))
      · rfl

theorem takeExponent_append_space (w : Char) (t : List Char) (hw : isspace w = true)
    (m : Bool) (x : List Char) :
    takeExponent m (x ++ w :: t) =
      ((takeExponent m x).1, (takeExponent m x).2.1, (takeExponent m x).2.2.1,
        (takeExponent m x).2.2.2 ++ w :: t) := by
  have hd := isdigit_of_space w hw
  cases x with
  | nil =>
    simp only [List.nil_append, takeExponent]
    have h1 : (w = 'e') = False := by
      apply eq_false; intro h; rw [h] at hw; exact absurd hw (by decide)
    have h2 : (w = 'E') = False := by
      apply eq_false; intro h; rw [h] at hw; exact absurd hw (by decide)
    simp [h1, h2]
  | cons c r =>
    simp only [List.cons_append, takeExponent]
    split
    · have hts := takeSign_append_space w t hw r
      have htw := takeWhile_append_head (p := isdigit) (takeSign r).2 (w :: t)
        (fun c r hcr => by cases hcr; exact hd)
      simp only [hts, htw.1, htw.2]
    · rfl

theorem scanFloat_append_space (w : Char) (t : List Char) (hw : isspace w = true)
    (b : List Char) :
    scanFloat (b ++ w :: t) = { scanFloat b with rest := (scanFloat b).rest ++ w :: t } := by
  have hd := isdigit_of_space w hw
  have hts := takeSign_append_space w t hw b
  have htw := takeWhile_append_head (p := isdigit) (takeSign b).2 (w :: t)
    (fun c r hcr => by cases hcr; exact hd)
  unfold scanFloat
  simp only [hts, htw.1, htw.2, takeFraction_append_space w t hw,
    takeExponent_append_space w t hw]

theorem extractDouble_extend (w : Char) (t : List Char) (hw : isspace w = true)
    {is is1 : IStream} {v : Dbl} (h : is.extractDouble = (some v, is1)) :
    (is.extend (w :: t)).extractDouble = (some v, is1.extend (w :: t)) := by
  unfold IStream.extractDouble at h ⊢
  cases hs : is.sentry with
  | mk ok is0 =>
    rw [hs] at h
    cases ok with
    | false => simp at h
    | true =>
      rw [sentry_extend w t hs]
      simp only at h ⊢
      have hsc := scanFloat_append_space w t hw is0.buf
      have hconv : (scanFloat (is0.buf ++ w :: t)).convert = (scanFloat is0.buf).convert := by
        rw [hsc]; rfl
      simp only [IStream.extend] at hconv ⊢
      rw [hconv]
      cases hc : (scanFloat is0.buf).convert with
      | none => rw [hc] at h; simp at h
      | some d =>
        rw [hc] at h
        simp only [Prod.mk.injEq, Option.some.injEq] at h ⊢
        rw [← h.1, ← h.2, hsc]
        simp

theorem UnPackVisitor_extend (w : Char) (t : List Char) (hw : isspace w = true) {T : Alt}
    {is is1 : IStream} {v : Data} (h : UnPackVisitor T is = (some v, is1)) :
    UnPackVisitor T (is.extend (w :: t)) = (some v, is1.extend (w :: t)) := by
  unfold UnPackVisitor at h ⊢
  cases T with
  | monostate =>
    simp only [Prod.mk.injEq, Option.some.injEq] at h ⊢
    rw [← h.1, ← h.2]
    exact ⟨rfl, rfl⟩
  | int =>
    simp only at h ⊢
    cases he : is.extractInt with
    | mk o is2 =>
      rw [he] at h
      cases o with
      | none => simp at h
      | some x =>
        simp only [Prod.mk.injEq, Option.some.injEq] at h
        rw [extractInt_extend w t hw he, ← h.1, ← h.2]
  | double =>
    simp only at h ⊢
    cases he : is.extractDouble with
    | mk o is2 =>
      rw [he] at h
      cases o with
      | none => simp at h
      | some x =>
        simp only [Prod.mk.injEq, Option.some.injEq] at h
        rw [extractDouble_extend w t hw he, ← h.1, ← h.2]
  | string =>
    simp only at h ⊢
    cases he : is.extractString with
    | mk o is2 =>
      rw [he] at h
      cases o with
      | none => simp at h
      | some x =>
        simp only [Prod.mk.injEq, Option.some.injEq] at h
        rw [extractString_extend w t hw he, ← h.1, ← h.2]

theorem LoadNodeData_extend (w : Char) (t : List Char) (hw : isspace w = true)
    {Types : List Alt} {self node : TreeNode} {is is1 : IStream}
    (h : TreeNode.LoadNodeData Types self is = (true, node, is1)) :
    TreeNode.LoadNodeData Types self (is.extend (w :: t)) = (true, node, is1.extend (w :: t)) := by
  obtain ⟨i, is0, T, d, he, hi, hT, hu, hn⟩ := LoadNodeData_true h
  rw [hn]
  exact LoadNodeData_of_parts self (extractInt_extend w t hw he) hi hT
    (UnPackVisitor_extend w t hw hu)

end Extend2


section Extend3

open RecursiveDescent

theorem parseChilds_congr_some {p q : IStream → Option (Option TreeNode × IStream)}
    {f : IStream → IStream}
    (hpq : ∀ is c is1, p is = some (some c, is1) → q (f is) = some (some c, f is1)) :
    ∀ (n : Nat) (is is1 : IStream) (cs : List TreeNode),
      parseChilds p n is = some (some cs, is1) →
        parseChilds q n (f is) = some (some cs, f is1) := by
  intro n
  induction n with
  | zero =>
    intro is is1 cs h
    simp only [parseChilds, Option.some.injEq, Prod.mk.injEq] at h ⊢
    rw [← h.1, ← h.2]
    exact ⟨rfl, rfl⟩
  | succ n ih =>
    intro is is1 cs h
    rw [parseChilds] at h ⊢
    cases hc : p is with
    | none => rw [hc] at h; simp at h
    | some r0 =>
      obtain ⟨oc, is2⟩ := r0
      cases oc with
      | none => rw [hc] at h; simp at h
      | some c =>
        rw [hc] at h
        simp only at h
        rw [hpq is c is2 hc]
        simp only
        cases hcs : parseChilds p n is2 with
        | none => rw [hcs] at h; simp at h
        | some r1 =>
          obtain ⟨ocs, is3⟩ := r1
          cases ocs with
          | none => rw [hcs] at h; simp at h
          | some cs' =>
            rw [hcs] at h
            simp only [Option.some.injEq, Prod.mk.injEq] at h
            rw [ih is2 is3 cs' hcs, ← h.1, ← h.2]

/-- A successful parse is not disturbed by characters put after the stream, when
they begin with whitespace, nor by a larger budget. -/
theorem parseNode_extend (w : Char) (t : List Char) (hw : isspace w = true)
    (Types : List Alt) : ∀ (d : Nat) (is is1 : IStream) (T : TreeNode),
    parseNode Types d is = some (some T, is1) →
      parseNode Types (d + 1) (is.extend (w :: t)) = some (some T, is1.extend (w :: t)) ∧
      parseNode Types d (is.extend (w :: t)) = some (some T, is1.extend (w :: t)) := by
  intro d
  induction d with
  | zero => intro is is1 T h; simp [parseNode] at h
  | succ d ih =>
    intro is is4 T h
    rw [parseNode] at h
    cases h1 : TreeNode.LoadNodeData Types TreeNode.init is with
    | mk b rest =>
      obtain ⟨node, is1⟩ := rest
      cases b with
      | false => rw [h1] at h; simp at h
      | true =>
        rw [h1] at h
        simp only at h
        cases h3 : is1.extractInt with
        | mk oi is2 =>
          cases oi with
          | none => rw [h3] at h; simp at h
          | some n =>
            rw [h3] at h
            simp only at h
            by_cases h4 : n < 0
            · rw [if_pos h4] at h; simp at h
            · rw [if_neg h4] at h
              cases hcs : parseChilds (parseNode Types d) n.toNat is2 with
              | none => rw [hcs] at h; simp at h
              | some r1 =>
                obtain ⟨ocs, is3⟩ := r1
                cases ocs with
                | none => rw [hcs] at h; simp at h
                | some cs =>
                  rw [hcs] at h
                  simp only [Option.some.injEq, Prod.mk.injEq] at h
                  have e1 := LoadNodeData_extend w t hw h1
                  have e3 := extractInt_extend w t hw h3
                  have c1 := parseChilds_congr_some (p := parseNode Types d)
                    (q := parseNode Types (d + 1)) (f := IStream.extend (w :: t))
                    (fun is c is1 hp => (ih is is1 c hp).1) n.toNat is2 is3 cs hcs
                  have c2 := parseChilds_congr_some (p := parseNode Types d)
                    (q := parseNode Types d) (f := IStream.extend (w :: t))
                    (fun is c is1 hp => (ih is is1 c hp).2) n.toNat is2 is3 cs hcs
                  constructor
                  · rw [parseNode, e1]
                    simp only
                    rw [e3]
                    simp only
                    rw [if_neg h4, c1, ← h.1, ← h.2]
                  · rw [parseNode, e1]
                    simp only
                    rw [e3]
                    simp only
                    rw [if_neg h4, c2, ← h.1, ← h.2]

theorem parseNode_extend_budget (w : Char) (t : List Char) (hw : isspace w = true)
    (Types : List Alt) (k : Nat) : ∀ (d : Nat) (is is1 : IStream) (T : TreeNode),
    parseNode Types d is = some (some T, is1) →
      parseNode Types (d + k) (is.extend (w :: t)) = some (some T, is1.extend (w :: t)) := by
  induction k with
  | zero => intro d is is1 T h; exact (parseNode_extend w t hw Types d is is1 T h).2
  | succ k ih =>
    intro d is is1 T h
    have key : ∀ (e : Nat) (js js1 : IStream) (U : TreeNode),
        parseNode Types e js = some (some U, js1) →
          parseNode Types (e + 1) js = some (some U, js1) := by
      intro e
      induction e with
      | zero => intro js js1 U hU; simp [parseNode] at hU
      | succ e ihe =>
        intro js js4 U hU
        rw [parseNode] at hU ⊢
        cases h1 : TreeNode.LoadNodeData Types TreeNode.init js with
        | mk b rest =>
          obtain ⟨node, js1⟩ := rest
          cases b with
          | false => rw [h1] at hU; simp at hU
          | true =>
            rw [h1] at hU
            simp only at hU ⊢
            cases h3 : js1.extractInt with
            | mk oi js2 =>
              cases oi with
              | none => rw [h3] at hU; simp at hU
              | some n =>
                rw [h3] at hU
                simp only at hU ⊢
                by_cases h4 : n < 0
                · rw [if_pos h4] at hU; simp at hU
                · rw [if_neg h4] at hU ⊢
                  cases hcs : parseChilds (parseNode Types e) n.toNat js2 with
                  | none => rw [hcs] at hU; simp at hU
                  | some r1 =>
                    obtain ⟨ocs, js3⟩ := r1
                    cases ocs with
                    | none => rw [hcs] at hU; simp at hU
                    | some cs =>
                      rw [hcs] at hU
                      have c1 := parseChilds_congr_some (p := parseNode Types e)
                        (q := parseNode Types (e + 1)) (f := id)
                        (fun is c is1 hp => ihe is is1 c hp) n.toNat js2 js3 cs hcs
                      simp only [id] at c1
                      rw [c1]
                      exact hU
    have := ih d is is1 T h
    exact key (d + k) _ _ T this

/-- A successful `Load` is not disturbed by characters put after the stream,
when they begin with whitespace: it builds the same tree and leaves the added
characters in the stream. -/
theorem Tree.Load_extend (w : Char) (t : List Char) (hw : isspace w = true)
    (Types : List Alt) (self T : Tree) (is is1 : IStream)
    (h : self.Load Types is = some (true, T, is1)) :
    self.Load Types (is.extend (w :: t)) = some (true, T, is1.extend (w :: t)) := by
  rw [Tree.Load_eq_recursiveDescent] at h ⊢
  unfold RecursiveDescent.Load at h ⊢
  by_cases hg : is.good = true
  · have hg' : (is.extend (w :: t)).good = true := by
      simp only [IStream.good, IStream.extend, Bool.and_eq_true, Bool.not_eq_true'] at hg ⊢
      exact ⟨⟨trivial, hg.1.2⟩, hg.2⟩
    simp only [hg, hg', Bool.not_true, Bool.false_eq_true, if_false] at h ⊢
    cases hp : parseNode Types (is.buf.length + 1) is with
    | none => rw [hp] at h; simp at h
    | some r =>
      obtain ⟨o, is2⟩ := r
      cases o with
      | none => rw [hp] at h; simp at h
      | some root =>
        rw [hp] at h
        simp only [Option.some.injEq, Prod.mk.injEq, true_and] at h
        have := parseNode_extend_budget w t hw Types (t.length + 1) (is.buf.length + 1) is is2
          root hp
        have e : (is.extend (w :: t)).buf.length + 1 = is.buf.length + 1 + (t.length + 1) := by
          simp only [IStream.extend, List.length_append, List.length_cons]; omega
        rw [e, this]
        simp only [Option.some.injEq, Prod.mk.injEq, true_and]
        rw [← h.1, ← h.2]
        exact ⟨rfl, rfl⟩
  · simp only [Bool.not_eq_true] at hg
    simp [hg] at h

end Extend3

/-- Claim C19. `Load` reads only the prefix that forms one complete tree: when
`Load` succeeds on a stream and builds the tree `T`, then on the same stream
followed by a whitespace character and any further characters `Load` also
succeeds and builds the same `T`, and what was added is still in the stream
after the call: it is neither examined nor a cause of failure. In particular
this holds for a token stream `s` given as a text. -/
theorem C19_load_reads_one_tree (Types : List Alt) (self T : Tree) (is is1 : IStream)
    (w : Char) (t : List Char) (hw : isspace w = true)
    (h : self.Load Types is = some (true, T, is1)) :
    self.Load Types (is.extend (w :: t)) = some (true, T, is1.extend (w :: t)) ∧
      (∀ s : List Char, is = IStream.ofChars s →
        self.Load Types (IStream.ofChars (s ++ w :: t)) =
          some (true, T, { is1 with buf := is1.buf ++ w :: t, eofbit := false })) := by
  refine ⟨Tree.Load_extend w t hw Types self T is is1 h, ?_⟩
  intro s hs
  subst hs
  exact Tree.Load_extend w t hw Types self T _ is1 h

/-- Witness for C19: the scenario stream followed by ` junk -1 x`. -/
theorem C19_load_reads_one_tree_witness :
    (isspace ' ' = true ∧
      (Tree.mk TreeNode.init).Load demoTypes (IStream.ofChars "1 5 2 2 3.5 0 3 hello 0".toList) =
        some (true, scenarioTree,
          { buf := [], eofbit := true, failbit := false, badbit := false })) ∧
    ((Tree.mk TreeNode.init).Load demoTypes
        ((IStream.ofChars "1 5 2 2 3.5 0 3 hello 0".toList).extend (' ' :: "junk -1 x".toList)) =
      some (true, scenarioTree,
        ({ buf := [], eofbit := true, failbit := false, badbit := false } : IStream).extend
          (' ' :: "junk -1 x".toList)) ∧
      (∀ s : List Char, IStream.ofChars "1 5 2 2 3.5 0 3 hello 0".toList = IStream.ofChars s →
        (Tree.mk TreeNode.init).Load demoTypes (IStream.ofChars (s ++ ' ' :: "junk -1 x".toList)) =
          some (true, scenarioTree,
            { ({ buf := [], eofbit := true, failbit := false, badbit := false } : IStream) with
              buf := ([] : List Char) ++ ' ' :: "junk -1 x".toList, eofbit := false }))) :=
  ⟨⟨by decide, by decide!⟩,
    C19_load_reads_one_tree demoTypes (Tree.mk TreeNode.init) scenarioTree
      (IStream.ofChars "1 5 2 2 3.5 0 3 hello 0".toList)
      { buf := [], eofbit := true, failbit := false, badbit := false } ' ' "junk -1 x".toList
      (by decide) (by decide!)⟩


section StackInvariant

/-- Of two pointers on the rightmost path, the shorter one is a beginning of
the longer one. -/
theorem onRightmostPath_prefix (q : List Nat) : ∀ (root : TreeNode) (p : List Nat),
    root.onRightmostPath p = true → root.onRightmostPath q = true → q.length ≤ p.length →
      ∃ r, p = q ++ r := by
  induction q with
  | nil => intro root p _ _ _; exact ⟨p, rfl⟩
  | cons j q ih =>
    intro root p hp hq hl
    cases p with
    | nil => simp at hl
    | cons i p =>
      simp only [TreeNode.onRightmostPath, Bool.and_eq_true, beq_iff_eq] at hp hq
      have hij : j = i := by omega
      subst hij
      cases hc : root.m_childs[j]? with
      | none => rw [hc] at hp; simp at hp
      | some c =>
        rw [hc] at hp hq
        obtain ⟨r, hr⟩ := ih c p hp.2 hq.2 (by simpa using hl)
        exact ⟨r, by rw [hr]; rfl⟩

/-- A pointer on the rightmost path refers to a node. -/
theorem onRightmostPath_deref (p : List Nat) : ∀ (root : TreeNode),
    root.onRightmostPath p = true → (root.deref p).isSome = true := by
  induction p with
  | nil => intro root _; rfl
  | cons i p ih =>
    intro root h
    simp only [TreeNode.onRightmostPath, Bool.and_eq_true, beq_iff_eq] at h
    simp only [TreeNode.deref]
    cases hc : root.m_childs[i]? with
    | none => rw [hc] at h; simp at h
    | some c =>
      rw [hc] at h
      exact ih c h.2

/-- The node above the end of a pointer on the rightmost path has that end as
its last child. -/
theorem onRightmostPath_last (p : List Nat) : ∀ (root : TreeNode) (m : Nat) (c : TreeNode),
    root.onRightmostPath (p ++ [m]) = true → root.deref p = some c →
      c.m_childs.length = m + 1 := by
  induction p with
  | nil =>
    intro root m c h hc
    simp only [TreeNode.deref, Option.some.injEq] at hc
    subst hc
    simp only [List.nil_append, TreeNode.onRightmostPath, Bool.and_eq_true, beq_iff_eq] at h
    exact h.1.symm
  | cons i p ih =>
    intro root m c h hc
    simp only [List.cons_append, TreeNode.onRightmostPath, Bool.and_eq_true, beq_iff_eq] at h
    simp only [TreeNode.deref] at hc
    cases hi : root.m_childs[i]? with
    | none => rw [hi] at hc; simp at hc
    | some c1 =>
      rw [hi] at h hc
      exact ih c1 m c h.2 hc

/-- Appending a child to a node on the rightmost path: the call succeeds, the
new child is the last child of that node and is on the rightmost path, and
every pointer on the rightmost path that is not deeper than the parent stays on
it. -/
theorem AddChildAt_rightmost (p : List Nat) : ∀ (root x : TreeNode),
    root.onRightmostPath p = true →
      ∃ r m, root.AddChildAt p x = some (r, p ++ [m]) ∧
        r.onRightmostPath (p ++ [m]) = true ∧
        ∀ q : List Nat, q.length ≤ p.length → root.onRightmostPath q = true →
          r.onRightmostPath q = true := by
  induction p with
  | nil =>
    intro root x _
    obtain ⟨d, cs⟩ := root
    refine ⟨.mk d (cs ++ [x]), cs.length, ?_, ?_, ?_⟩
    · simp [TreeNode.AddChildAt, TreeNode.AddChild]
    · simp [TreeNode.onRightmostPath]
    · intro q hq _
      cases q with
      | nil => rfl
      | cons j q => simp at hq
  | cons i p ih =>
    intro root x h
    obtain ⟨d, cs⟩ := root
    simp only [TreeNode.onRightmostPath, Bool.and_eq_true, beq_iff_eq,
      TreeNode.m_childs_mk] at h
    cases hc : cs[i]? with
    | none => rw [hc] at h; simp at h
    | some c =>
      rw [hc] at h
      obtain ⟨r, m, h1, h2, h3⟩ := ih c x h.2
      have hi : i < cs.length := by omega
      refine ⟨.mk d (cs.set i r), m, ?_, ?_, ?_⟩
      · simp only [TreeNode.AddChildAt, TreeNode.m_childs_mk, TreeNode.m_data_mk, hc, h1]
        rfl
      · simp only [List.cons_append, TreeNode.onRightmostPath, TreeNode.m_childs_mk,
          List.length_set, Bool.and_eq_true, beq_iff_eq]
        refine ⟨h.1, ?_⟩
        rw [List.getElem?_set_self hi]
        exact h2
      · intro q hq hr
        cases q with
        | nil => rfl
        | cons j q =>
          simp only [TreeNode.onRightmostPath, Bool.and_eq_true, beq_iff_eq,
            TreeNode.m_childs_mk, List.length_set] at hr ⊢
          have hij : j = i := by omega
          subst hij
          rw [hc] at hr
          refine ⟨hr.1, ?_⟩
          rw [List.getElem?_set_self hi]
          exact h3 q (by simpa using hq) hr.2

/-- The invariant of the work stack survives the append of a child to the node
popped from it, for the slots that remain. -/
theorem StackInvariant_append {root root1 node : TreeNode} {parent parent1 : List Nat}
    {stck : List (List Nat)}
    (hinv : Tree.LoadImpl.StackInvariant root (parent :: stck))
    (ha : root.AddChildAt parent node = some (root1, parent1)) :
    Tree.LoadImpl.StackInvariant root1 stck ∧ root1.onRightmostPath parent1 = true ∧
      (∃ m, parent1 = parent ++ [m]) ∧ ∀ q ∈ stck, q.length < parent1.length := by
  obtain ⟨hall, hpw⟩ := hinv
  obtain ⟨r, m, h1, h2, h3⟩ := AddChildAt_rightmost parent root node
    (hall parent (List.mem_cons_self _ _))
  rw [h1] at ha
  simp only [Option.some.injEq, Prod.mk.injEq] at ha
  obtain ⟨e1, e2⟩ := ha
  subst e1 e2
  rw [List.pairwise_cons] at hpw
  refine ⟨⟨?_, hpw.2⟩, h2, ⟨m, rfl⟩, ?_⟩
  · intro q hq
    exact h3 q (hpw.1 q hq) (hall q (List.mem_cons_of_mem _ hq))
  · intro q hq
    have := hpw.1 q hq
    simp only [List.length_append, List.length_cons, List.length_nil]
    omega

/-- The invariant of the work stack survives one pass through the body of the
loop. -/
theorem StackInvariant_body {Types : List Alt} {root : TreeNode} {parent : List Nat}
    {stck : List (List Nat)} {is : IStream} {s : Tree.LoadState}
    (hinv : Tree.LoadImpl.StackInvariant root (parent :: stck))
    (h : Tree.LoadImpl.body Types root parent stck is = .next s) :
    Tree.LoadImpl.StackInvariant s.root s.stck := by
  unfold Tree.LoadImpl.body at h
  split at h
  · simp at h
  · next node is1 h1 =>
    split at h
    · simp at h
    · next root1 parent1 ha =>
      obtain ⟨⟨hall, hpw⟩, hp1, _, hlt⟩ := StackInvariant_append hinv ha
      split at h
      · simp at h
      · next n is2 h3 =>
        split at h
        · simp at h
        · simp only [Tree.LoadStep.next.injEq] at h
          subst h
          simp only [pushCopies_eq]
          constructor
          · intro q hq
            rw [List.mem_append] at hq
            rcases hq with hq | hq
            · rw [List.eq_of_mem_replicate hq]; exact hp1
            · exact hall q hq
          · rw [List.pairwise_append]
            refine ⟨?_, hpw, ?_⟩
            · rw [List.pairwise_replicate]
              exact Or.inr (Nat.le_refl _)
            · intro a ha b hb
              rw [List.eq_of_mem_replicate ha]
              exact Nat.le_of_lt (hlt b hb)

/-- The invariant of the work stack holds at the head of the loop after any
number of passes. -/
theorem StackInvariant_stateAt (Types : List Alt) (is : IStream) :
    ∀ (k : Nat) (s : Tree.LoadState), Tree.LoadImpl.stateAt Types is k = some s →
      Tree.LoadImpl.StackInvariant s.root s.stck := by
  intro k
  induction k with
  | zero =>
    intro s h
    unfold Tree.LoadImpl.stateAt at h
    split at h
    · simp at h
    · split at h
      · simp at h
      · split at h
        · simp at h
        · split at h
          · simp at h
          · simp only [Option.some.injEq] at h
            subst h
            simp only [pushCopies_eq, List.append_nil]
            constructor
            · intro q hq
              rw [List.eq_of_mem_replicate hq]
              rfl
            · rw [List.pairwise_replicate]
              exact Or.inr (Nat.le_refl _)
  | succ k ih =>
    intro s h
    rw [Tree.LoadImpl.stateAt] at h
    split at h
    · next root parent stck is1 hk =>
      split at h
      · next s1 hb =>
        simp only [Option.some.injEq] at h
        subst h
        exact StackInvariant_body (ih _ hk) hb
      · simp at h
    · simp at h

end StackInvariant

/-- Claim C18. The invariant of the work stack of `Load`: at the head of the
loop after any number `k` of passes, every slot of the stack refers to a node
on the rightmost path of the tree built so far, and the slots are ordered from
the deepest at the top to the shallowest at the bottom. Hence, when the next
pass pops `parent` and appends a child to it, the call finds the parent, the
new child `parent1` is a last child `parent ++ [m]` on the rightmost path, the
remaining slots still satisfy the invariant in the tree after the append, and
no remaining slot refers to an earlier sibling `parent ++ [j]`, `j < m`, of the
new child or to a node `parent ++ j :: rest` inside the subtree of one. -/
theorem C18_load_stack_invariant (Types : List Alt) (is : IStream) (k : Nat)
    (s : Tree.LoadState) (h : Tree.LoadImpl.stateAt Types is k = some s) :
    Tree.LoadImpl.StackInvariant s.root s.stck ∧
      ∀ (parent : List Nat) (stck : List (List Nat)), s.stck = parent :: stck →
        ∀ node : TreeNode, ∃ (root1 : TreeNode) (m : Nat),
          s.root.AddChildAt parent node = some (root1, parent ++ [m]) ∧
          (∀ c, root1.deref parent = some c → c.m_childs.length = m + 1) ∧
          root1.onRightmostPath (parent ++ [m]) = true ∧
          Tree.LoadImpl.StackInvariant root1 stck ∧
          ∀ q ∈ stck, ∀ (j : Nat) (rest : List Nat), j < m → q ≠ parent ++ j :: rest := by
  have hinv := StackInvariant_stateAt Types is k s h
  refine ⟨hinv, ?_⟩
  intro parent stck hs node
  rw [hs] at hinv
  obtain ⟨r, m, h1, h2, _⟩ := AddChildAt_rightmost parent s.root node
    (hinv.1 parent (List.mem_cons_self _ _))
  obtain ⟨hi, _, _, hlt⟩ := StackInvariant_append hinv h1
  refine ⟨r, m, h1, ?_, h2, hi, ?_⟩
  · intro c hc
    exact onRightmostPath_last parent r m c h2 hc
  · intro q hq j rest _ he
    have := hlt q hq
    rw [he] at this
    simp only [List.length_append, List.length_cons, List.length_nil] at this
    omega

/-- Witness for C18: the scenario stream after one pass through the body. -/
theorem C18_load_stack_invariant_witness :
    Tree.LoadImpl.stateAt demoTypes (IStream.ofChars "1 5 2 2 3.5 0 3 hello 0".toList) 0 =
        some { root := .mk ⟨1, .int 5⟩ [], stck := [[], []],
               is := { buf := " 2 3.5 0 3 hello 0".toList, eofbit := false, failbit := false,
                       badbit := false } } ∧
      (Tree.LoadImpl.StackInvariant (TreeNode.mk ⟨1, .int 5⟩ []) [[], []] ∧
        ∀ (parent : List Nat) (stck : List (List Nat)), [[], []] = parent :: stck →
          ∀ node : TreeNode, ∃ (root1 : TreeNode) (m : Nat),
            (TreeNode.mk ⟨1, .int 5⟩ []).AddChildAt parent node = some (root1, parent ++ [m]) ∧
            (∀ c, root1.deref parent = some c → c.m_childs.length = m + 1) ∧
            root1.onRightmostPath (parent ++ [m]) = true ∧
            Tree.LoadImpl.StackInvariant root1 stck ∧
            ∀ q ∈ stck, ∀ (j : Nat) (rest : List Nat), j < m → q ≠ parent ++ j :: rest) :=
  ⟨by decide!,
    C18_load_stack_invariant demoTypes (IStream.ofChars "1 5 2 2 3.5 0 3 hello 0".toList) 0
      { root := .mk ⟨1, .int 5⟩ [], stck := [[], []],
        is := { buf := " 2 3.5 0 3 hello 0".toList, eofbit := false, failbit := false,
                badbit := false } } (by decide!)⟩


section Termination

open Tree

/-- One pass through the body of the loop from a stack that satisfies the
invariant: it fails, or it consumes the kind index of the new node and more,
and pushes as many slots as the child count it has read. The popped pointer
never dangles. -/
theorem LoadImpl.body_progress {Types : List Alt} {root : TreeNode} {parent : List Nat}
    {stck : List (List Nat)} (is : IStream)
    (hinv : LoadImpl.StackInvariant root (parent :: stck)) :
    (∃ is1, LoadImpl.body Types root parent stck is = .fail is1) ∨
      ∃ (i n : Int) (is0 is1 is2 : IStream) (node root1 : TreeNode) (m : Nat),
        is.extractInt = (some i, is0) ∧ is0.buf.length < is.buf.length ∧
        TreeNode.LoadNodeData Types TreeNode.init is = (true, node, is1) ∧
        is1.buf.length ≤ is0.buf.length ∧
        root.AddChildAt parent node = some (root1, parent ++ [m]) ∧
        is1.extractInt = (some n, is2) ∧ 0 ≤ n ∧ is2.buf.length < is1.buf.length ∧
        LoadImpl.body Types root parent stck is =
          .next { root := root1, stck := List.replicate n.toNat (parent ++ [m]) ++ stck,
                  is := is2 } := by
  cases h1 : TreeNode.LoadNodeData Types TreeNode.init is with
  | mk b rest =>
    obtain ⟨node, is1⟩ := rest
    cases b with
    | false => exact Or.inl ⟨is1, LoadImpl.body_fail_node stck h1⟩
    | true =>
      obtain ⟨root1, m, ha, _, _⟩ := AddChildAt_rightmost parent root node
        (hinv.1 parent (List.mem_cons_self _ _))
      obtain ⟨i, is0, T, d, he, _, _, hu, _⟩ := LoadNodeData_true h1
      cases h3 : is1.extractInt with
      | mk oi is2 =>
        cases oi with
        | none =>
          left
          refine ⟨is2, ?_⟩
          simp only [LoadImpl.body, h1, ha, h3]
        | some n =>
          by_cases h4 : n < 0
          · left
            refine ⟨is2, ?_⟩
            simp only [LoadImpl.body, h1, ha, h3, h4, if_true]
          · right
            exact ⟨i, n, is0, is1, is2, node, root1, m, he, extractInt_some_length he, rfl,
              UnPackVisitor_some_length hu, ha, h3, by omega, extractInt_some_length h3,
              LoadImpl.body_next stck h1 ha h3 h4⟩

/-- What `Load` returns when the loop reaches a state. -/
theorem Load_of_stateAt {Types : List Alt} (self : Tree) {is : IStream} {k : Nat}
    {s : LoadState} (h : LoadImpl.stateAt Types is k = some s) :
    k < is.buf.length ∧
    self.Load Types is =
      match LoadImpl.loop Types (is.buf.length - k) s with
      | some (some root1, is3) => some (true, { m_root := root1 }, is3)
      | some (none, is3) => some (false, self, is3)
      | none => none := by
  obtain ⟨s0, h0, hl, he⟩ := LoadImpl.stateAt_spec Types is k s h
  refine ⟨by omega, ?_⟩
  have e := Load_of_stateAt_zero self h0
  rw [he] at e
  exact e

end Termination

/-- Claim C17. `Load` terminates on every finite stream: it returns a result
within its budget of one pass per character. At the head of the loop after `k`
passes, with `parent` on top of the stack, `k` is less than the number of
characters of the stream, and the pass either fails, which ends the loop and
makes `Load` return false, or consumes at least the kind index of the new node,
leaves a strictly shorter stream and replaces the popped slot by as many slots
as the child count `n` it has read from the stream. When the stack is empty at
the head of the loop, `Load` returns true with the tree built so far. -/
theorem C17_load_terminates (Types : List Alt) (self : Tree) (is : IStream) (k : Nat)
    (s : Tree.LoadState) (parent : List Nat) (stck : List (List Nat))
    (h : Tree.LoadImpl.stateAt Types is k = some s) (hs : s.stck = parent :: stck) :
    (∃ b T is1, self.Load Types is = some (b, T, is1)) ∧
    k < is.buf.length ∧
    ((∃ is1, Tree.LoadImpl.body Types s.root parent stck s.is = .fail is1 ∧
        Tree.LoadImpl.stateAt Types is (k + 1) = none ∧
        self.Load Types is = some (false, self, is1)) ∨
      (∃ (i n : Int) (is0 : IStream) (s1 : Tree.LoadState),
        s.is.extractInt = (some i, is0) ∧ is0.buf.length < s.is.buf.length ∧
        Tree.LoadImpl.body Types s.root parent stck s.is = .next s1 ∧
        Tree.LoadImpl.stateAt Types is (k + 1) = some s1 ∧
        s1.is.buf.length < is0.buf.length ∧
        Tree.LoadImpl.countAt Types is (k + 1) = some n ∧ 0 ≤ n ∧
        s1.stck.length = stck.length + n.toNat)) ∧
    (∀ (j : Nat) (t : Tree.LoadState), Tree.LoadImpl.stateAt Types is j = some t →
      t.stck = [] → self.Load Types is = some (true, { m_root := t.root }, t.is)) := by
  obtain ⟨root, st, is1⟩ := s
  simp only at hs
  subst hs
  obtain ⟨hk, hL⟩ := Load_of_stateAt self h
  have hinv := StackInvariant_stateAt Types is k _ h
  refine ⟨?_, hk, ?_, ?_⟩
  · have := Tree.Load_isSome Types self is
    cases hr : self.Load Types is with
    | none => rw [hr] at this; simp at this
    | some r => exact ⟨r.1, r.2.1, r.2.2, rfl⟩
  · obtain ⟨f, hf⟩ : ∃ f, is.buf.length - k = f + 1 := ⟨is.buf.length - k - 1, by omega⟩
    rw [hf, LoadImpl.loop_cons] at hL
    rcases @LoadImpl.body_progress Types _ _ _ is1 hinv with ⟨is2, hb⟩ |
      ⟨i, n, is0, is2, is3, node, root1, m, he, hl0, h1, hl1, ha, h3, hn, hl3, hb⟩
    · left
      refine ⟨is2, hb, ?_, ?_⟩
      · rw [Tree.LoadImpl.stateAt, h]
        simp only [hb]
      · rw [hL, hb]
    · right
      refine ⟨i, n, is0, _, he, hl0, hb, ?_, ?_, ?_, hn, ?_⟩
      · rw [Tree.LoadImpl.stateAt, h]
        simp only [hb]
      · simp only
        omega
      · simp only [Tree.LoadImpl.countAt, Tree.LoadImpl.countStream, h, h1, ha, h3]
      · simp only [List.length_append, List.length_replicate]
        omega
  · intro j t ht hnil
    obtain ⟨r, st, js⟩ := t
    simp only at hnil
    subst hnil
    have := (Load_of_stateAt self ht).2
    rw [LoadImpl.loop_nil] at this
    exact this

/-- Witness for C17: the scenario stream at the head of the loop, before the
first pass. -/
theorem C17_load_terminates_witness :
    (Tree.LoadImpl.stateAt demoTypes (IStream.ofChars "1 5 2 2 3.5 0 3 hello 0".toList) 0 =
        some { root := .mk ⟨1, .int 5⟩ [], stck := [[], []],
               is := { buf := " 2 3.5 0 3 hello 0".toList, eofbit := false, failbit := false,
                       badbit := false } } ∧
      (Tree.LoadImpl.stateAt demoTypes (IStream.ofChars "1 5 2 2 3.5 0 3 hello 0".toList) 1 =
        some { root := .mk ⟨1, .int 5⟩ [.mk ⟨2, .double dbl_3_5⟩ []], stck := [[]],
               is := { buf := " 3 hello 0".toList, eofbit := false, failbit := false,
                       badbit := false } })) ∧
    ((∃ b T is1, (Tree.mk TreeNode.init).Load demoTypes
        (IStream.ofChars "1 5 2 2 3.5 0 3 hello 0".toList) = some (b, T, is1)) ∧
    0 < (IStream.ofChars "1 5 2 2 3.5 0 3 hello 0".toList).buf.length) :=
  have w := C17_load_terminates demoTypes (Tree.mk TreeNode.init)
    (IStream.ofChars "1 5 2 2 3.5 0 3 hello 0".toList) 0
    { root := .mk ⟨1, .int 5⟩ [], stck := [[], []],
      is := { buf := " 2 3.5 0 3 hello 0".toList, eofbit := false, failbit := false,
              badbit := false } } [] [[]] (by decide!) rfl
  ⟨⟨by decide!, by decide!⟩, w.1, w.2.1⟩


section OneLine

open Tree

theorem isdigit_ne_lf {c : Char} (h : isdigit c = true) : c ≠ '\n' := by
  intro e
  subst e
  revert h
  decide

theorem natToChars_no_lf (n : Nat) : '\n' ∉ natToChars n := by
  intro h
  exact isdigit_ne_lf (natToChars_isdigit n _ h) rfl

theorem intToChars_no_lf (i : Int) : '\n' ∉ intToChars i := by
  unfold intToChars
  split
  · intro h
    rw [List.mem_cons] at h
    rcases h with h | h
    · revert h; decide
    · exact natToChars_no_lf _ h
  · exact natToChars_no_lf _

theorem stripTrailingZeros_subset (ds : List Char) : ∀ c ∈ stripTrailingZeros ds, c ∈ ds := by
  intro c h
  unfold stripTrailingZeros at h
  rw [List.mem_reverse] at h
  have := (List.dropWhile_sublist (fun c => decide (c = '0')) (l := ds.reverse)).subset h
  exact List.mem_reverse.mp this

theorem fracPart_no_lf (ds : List Char) (h : '\n' ∉ ds) : '\n' ∉ fracPart ds := by
  unfold fracPart
  cases hs : stripTrailingZeros ds with
  | nil => simp
  | cons d r =>
    simp only
    intro hm
    rw [List.mem_cons] at hm
    rcases hm with hm | hm
    · revert hm; decide
    · apply h
      apply stripTrailingZeros_subset
      rw [hs]
      exact hm

theorem formatG_no_lf (num den : Nat) : '\n' ∉ formatG num den := by
  unfold formatG
  simp only
  generalize (if 1000000 ≤ roundHalfEven _ _ then _ / 10 else roundHalfEven _ _ : Nat) = d
  generalize (if 1000000 ≤ roundHalfEven _ _ then _ + 1 else _ : Int) = x
  have hd := natToChars_no_lf d
  have htake : ∀ k, '\n' ∉ (natToChars d).take k := fun k hm => hd (List.mem_of_mem_take hm)
  have hdrop : ∀ k, '\n' ∉ (natToChars d).drop k := fun k hm => hd (List.mem_of_mem_drop hm)
  split
  · intro hm
    simp only [List.mem_append, List.mem_cons, List.mem_singleton] at hm
    rcases hm with ((hm | hm) | hm) | hm
    · exact htake _ hm
    · exact fracPart_no_lf _ (hdrop _) hm
    · rcases hm with hm | hm | hm
      · revert hm; decide
      · split at hm <;> revert hm <;> decide
      · simp at hm
    · split at hm
      · rw [List.mem_cons] at hm
        rcases hm with hm | hm
        · revert hm; decide
        · exact natToChars_no_lf _ hm
      · exact natToChars_no_lf _ hm
  · split
    · intro hm
      rw [List.mem_append] at hm
      rcases hm with hm | hm
      · exact htake _ hm
      · exact fracPart_no_lf _ (hdrop _) hm
    · intro hm
      rw [List.mem_cons] at hm
      rcases hm with hm | hm
      · revert hm; decide
      · refine fracPart_no_lf _ ?_ hm
        intro h2
        rw [List.mem_append] at h2
        rcases h2 with h2 | h2
        · have := List.eq_of_mem_replicate h2
          revert this; decide
        · exact hd h2

theorem Dbl.format_no_lf (v : Dbl) : '\n' ∉ v.format := by
  cases v with
  | nan neg => cases neg <;> decide
  | inf neg => cases neg <;> decide
  | finite neg m e =>
    unfold Dbl.format
    intro hm
    rw [List.mem_append] at hm
    rcases hm with hm | hm
    · split at hm
      · revert hm; decide
      · simp at hm
    · split at hm
      · revert hm; decide
      · exact formatG_no_lf _ _ hm

theorem extractString_no_lf {is is1 : IStream} {v : List Char}
    (h : is.extractString = (some v, is1)) : '\n' ∉ v := by
  unfold IStream.extractString at h
  split at h
  · simp at h
  · simp only at h
    split at h
    · simp at h
    · simp only [Prod.mk.injEq, Option.some.injEq] at h
      rw [← h.1]
      intro hm
      have := List.mem_takeWhile_imp hm
      revert this
      decide

/-- What `PrintVisitor` writes for a value that `UnPackVisitor` has extracted
holds no line feed. -/
theorem PrintVisitor_no_lf {T : Alt} {is is1 : IStream} {d : Data}
    (h : UnPackVisitor T is = (some d, is1)) : '\n' ∉ PrintVisitor T [] d := by
  unfold UnPackVisitor at h
  split at h
  · simp only [Prod.mk.injEq, Option.some.injEq] at h
    rw [← h.1]
    decide
  · split at h
    · simp only [Prod.mk.injEq, Option.some.injEq] at h
      rw [← h.1]
      simp only [PrintVisitor, List.nil_append]
      exact intToChars_no_lf _
    · simp at h
  · split at h
    · simp only [Prod.mk.injEq, Option.some.injEq] at h
      rw [← h.1]
      simp only [PrintVisitor, List.nil_append]
      exact Dbl.format_no_lf _
    · simp at h
  · split at h
    · next v is2 he =>
      simp only [Prod.mk.injEq, Option.some.injEq] at h
      rw [← h.1]
      simp only [PrintVisitor, List.nil_append, List.singleton_append, List.cons_append]
      intro hm
      simp only [List.mem_cons, List.mem_append, List.mem_singleton] at hm
      rcases hm with hm | hm | hm
      · revert hm; decide
      · exact extractString_no_lf he hm
      · revert hm; decide
    · simp at h

/-- The node `LoadNodeData` has filled is drawn by `Print` on one line when it
has no child: the text holds one line feed, at its end. -/
theorem Print_loaded_leaf {Types : List Alt} {self node : TreeNode} {is is1 : IStream}
    (h : TreeNode.LoadNodeData Types self is = (true, node, is1)) (x : TreeNode)
    (hd : x.m_data = node.m_data) (hc : x.m_childs = []) :
    lineCount ((Tree.mk x).Print Types) = 1 ∧
      ((Tree.mk x).Print Types).getLast? = some '\n' := by
  obtain ⟨i, is0, T, d, _, _, hT, hu, hn⟩ := LoadNodeData_true h
  have hx : variant_alternative Types x.m_data.index = some T := by
    rw [hd, hn]; exact hT
  have hdata : x.m_data.data = d := by rw [hd, hn]; rfl
  unfold Tree.Print
  rw [PrintImpl_line, hc, PrintNodeData_eq x [] hx, hdata]
  have := PrintVisitor_no_lf hu
  constructor
  · simp only [lineCount, childBlocks, List.reverse_nil, List.append_nil, List.nil_append,
      connector, List.count_append, List.count_eq_zero_of_not_mem this]
    decide
  · simp [childBlocks]

end OneLine


section Trace

open Tree

/-- The pointer `AddChild` returns refers to no node before the call. -/
theorem AddChildAt_deref_fresh (p : List Nat) : ∀ (root x r : TreeNode) (q : List Nat),
    root.AddChildAt p x = some (r, q) → root.deref q = none := by
  induction p with
  | nil =>
    intro root x r q h
    obtain ⟨d, cs⟩ := root
    simp only [TreeNode.AddChildAt, TreeNode.AddChild, Option.some.injEq, Prod.mk.injEq,
      TreeNode.m_childs_mk, TreeNode.m_data_mk] at h
    rw [← h.2]
    simp [TreeNode.deref]
  | cons i p ih =>
    intro root x r q h
    simp only [TreeNode.AddChildAt] at h
    cases hc : root.m_childs[i]? with
    | none => rw [hc] at h; simp at h
    | some c =>
      rw [hc] at h
      simp only at h
      cases ha : c.AddChildAt p x with
      | none => rw [ha] at h; simp at h
      | some r1 =>
        obtain ⟨c1, q1⟩ := r1
        rw [ha] at h
        simp only [Option.some.injEq, Prod.mk.injEq] at h
        rw [← h.2]
        simp only [TreeNode.deref, hc]
        exact ih c x c1 q1 ha

/-- The call `parent->AddChild(child)` leaves the value and the number of
children of every node as they are, but for the parent, which gets one child
more. -/
theorem AddChildAt_deref_other (p : List Nat) : ∀ (root x r : TreeNode) (q p' : List Nat)
    (y : TreeNode), root.AddChildAt p x = some (r, q) → root.deref p' = some y →
      ∃ y', r.deref p' = some y' ∧ y'.m_data = y.m_data ∧
        y'.m_childs.length = y.m_childs.length + (if p = p' then 1 else 0) := by
  induction p with
  | nil =>
    intro root x r q p' y h hy
    obtain ⟨d, cs⟩ := root
    simp only [TreeNode.AddChildAt, TreeNode.AddChild, Option.some.injEq, Prod.mk.injEq,
      TreeNode.m_childs_mk, TreeNode.m_data_mk] at h
    rw [← h.1]
    cases p' with
    | nil =>
      simp only [TreeNode.deref, Option.some.injEq] at hy
      rw [← hy]
      exact ⟨_, rfl, rfl, by simp⟩
    | cons j p' =>
      simp only [TreeNode.deref, TreeNode.m_childs_mk] at hy ⊢
      cases hj : cs[j]? with
      | none => rw [hj] at hy; simp at hy
      | some c =>
        rw [hj] at hy
        have hlt : j < cs.length := by
          by_contra hge
          rw [List.getElem?_eq_none (by omega)] at hj
          simp at hj
        rw [List.getElem?_append_left hlt, hj]
        exact ⟨y, hy, rfl, by simp⟩
  | cons i p ih =>
    intro root x r q p' y h hy
    obtain ⟨d, cs⟩ := root
    simp only [TreeNode.AddChildAt, TreeNode.m_childs_mk, TreeNode.m_data_mk] at h
    cases hc : cs[i]? with
    | none => rw [hc] at h; simp at h
    | some c =>
      rw [hc] at h
      simp only at h
      cases ha : c.AddChildAt p x with
      | none => rw [ha] at h; simp at h
      | some r1 =>
        obtain ⟨c1, q1⟩ := r1
        rw [ha] at h
        simp only [Option.some.injEq, Prod.mk.injEq] at h
        rw [← h.1]
        have hi : i < cs.length := by
          by_contra hge
          rw [List.getElem?_eq_none (by omega)] at hc
          simp at hc
        cases p' with
        | nil =>
          simp only [TreeNode.deref, Option.some.injEq] at hy
          rw [← hy]
          exact ⟨_, rfl, rfl, by simp⟩
        | cons j p' =>
          simp only [TreeNode.deref, TreeNode.m_childs_mk] at hy ⊢
          by_cases hij : j = i
          · subst hij
            rw [hc] at hy
            obtain ⟨y', h1, h2, h3⟩ := ih c x c1 q1 p' y ha hy
            rw [List.getElem?_set_self hi]
            refine ⟨y', h1, h2, ?_⟩
            rw [h3]
            simp
          · rw [List.getElem?_set_ne (fun e => hij e.symm)]
            cases hj : cs[j]? with
            | none => rw [hj] at hy; simp at hy
            | some c2 =>
              rw [hj] at hy
              refine ⟨y, hy, rfl, ?_⟩
              have : ¬ (i :: p = j :: p') := by
                intro e
                exact hij (List.cons.inj e).1.symm
              simp [this]

/-- The parts of one pass through the body of the loop that goes on. -/
theorem LoadImpl.body_next_parts {Types : List Alt} {root : TreeNode} {parent : List Nat}
    {stck : List (List Nat)} {is : IStream} {s : LoadState}
    (h : LoadImpl.body Types root parent stck is = .next s) :
    ∃ (node root1 : TreeNode) (parent1 : List Nat) (is1 is2 : IStream) (n : Int),
      TreeNode.LoadNodeData Types TreeNode.init is = (true, node, is1) ∧
      root.AddChildAt parent node = some (root1, parent1) ∧
      is1.extractInt = (some n, is2) ∧ 0 ≤ n ∧
      s = { root := root1, stck := List.replicate n.toNat parent1 ++ stck, is := is2 } := by
  unfold LoadImpl.body at h
  split at h
  · simp at h
  · next node is1 h1 =>
    split at h
    · simp at h
    · next root1 parent1 ha =>
      split at h
      · simp at h
      · next n is2 h3 =>
        split at h
        · simp at h
        · next h4 =>
          simp only [LoadStep.next.injEq] at h
          refine ⟨node, root1, parent1, is1, is2, n, h1, ha, h3, by omega, ?_⟩
          rw [← h, pushCopies_eq]

/-- The parts of the state at the head of the loop before the first pass. -/
theorem LoadImpl.stateAt_zero_parts {Types : List Alt} {is : IStream} {s : LoadState}
    (h : LoadImpl.stateAt Types is 0 = some s) :
    ∃ (root : TreeNode) (is1 is2 : IStream) (n : Int),
      is.good = true ∧
      TreeNode.LoadNodeData Types TreeNode.init is = (true, root, is1) ∧
      is1.extractInt = (some n, is2) ∧ 0 ≤ n ∧
      s = { root := root, stck := List.replicate n.toNat [], is := is2 } := by
  unfold LoadImpl.stateAt at h
  split at h
  · simp at h
  · next hg =>
    split at h
    · simp at h
    · next root is1 h1 =>
      split at h
      · simp at h
      · next n is2 h3 =>
        split at h
        · simp at h
        · next h4 =>
          simp only [Option.some.injEq] at h
          refine ⟨root, is1, is2, n, by simpa using hg, h1, h3, by omega, ?_⟩
          rw [← h, pushCopies_eq, List.append_nil]

/-- The state after one more pass. -/
theorem LoadImpl.stateAt_succ_parts {Types : List Alt} {is : IStream} {k : Nat} {s : LoadState}
    (h : LoadImpl.stateAt Types is (k + 1) = some s) :
    ∃ (root : TreeNode) (parent : List Nat) (stck : List (List Nat)) (is1 : IStream),
      LoadImpl.stateAt Types is k = some { root := root, stck := parent :: stck, is := is1 } ∧
      LoadImpl.body Types root parent stck is1 = .next s := by
  rw [LoadImpl.stateAt] at h
  split at h
  · next root parent stck is1 hk =>
    split at h
    · next s1 hb =>
      simp only [Option.some.injEq] at h
      subst h
      exact ⟨root, parent, stck, is1, hk, hb⟩
    · simp at h
  · simp at h

/-- The record of every node read so far, at the head of the loop: the node is
in the tree under the pointer `LoadImpl` held to it, with the value read, and
its children so far and the slots still pending for it add up to the child
count read for it. -/
theorem LoadImpl.trace_invariant (Types : List Alt) (is : IStream) :
    ∀ (K : Nat) (s : LoadState), LoadImpl.stateAt Types is K = some s →
      ∀ (k : Nat) (p : List Nat) (node : TreeNode) (n : Int), k ≤ K →
        LoadImpl.nodeAt Types is k = some (p, node) → LoadImpl.countAt Types is k = some n →
          0 ≤ n ∧ ∃ x, s.root.deref p = some x ∧ x.m_data = node.m_data ∧
            x.m_childs.length + s.stck.count p = n.toNat := by
  intro K
  induction K with
  | zero =>
    intro s h k p node n hk hp hn
    have hk0 : k = 0 := by omega
    subst hk0
    obtain ⟨root, is1, is2, n0, hg, h1, h3, h4, hs⟩ := LoadImpl.stateAt_zero_parts h
    simp only [LoadImpl.nodeAt, hg, Bool.not_true, Bool.false_eq_true, if_false, h1,
      Option.some.injEq, Prod.mk.injEq] at hp
    simp only [LoadImpl.countAt, LoadImpl.countStream, hg, Bool.not_true, Bool.false_eq_true,
      if_false, h1, h3, Option.some.injEq] at hn
    obtain ⟨e1, e2⟩ := hp
    subst e1 e2 hn hs
    refine ⟨h4, root, rfl, rfl, ?_⟩
    rw [LoadNodeData_init_childs h1]
    simp [List.count_replicate_self]
  | succ K ih =>
    intro s h k p node n hk hp hn
    obtain ⟨root, parent, stck, is1, hK, hb⟩ := LoadImpl.stateAt_succ_parts h
    obtain ⟨node1, root1, parent1, is2, is3, n1, h1, ha, h3, h4, hs⟩ :=
      LoadImpl.body_next_parts hb
    have hfresh := AddChildAt_deref_fresh parent root node1 root1 parent1 ha
    by_cases hlast : k = K + 1
    · subst hlast
      simp only [LoadImpl.nodeAt, hK, h1, ha, Option.some.injEq, Prod.mk.injEq] at hp
      simp only [LoadImpl.countAt, LoadImpl.countStream, hK, h1, ha, h3,
        Option.some.injEq] at hn
      obtain ⟨e1, e2⟩ := hp
      subst e1 e2 hn hs
      refine ⟨h4, node1, AddChildAt_deref_new parent root node1 root1 parent1 ha, rfl, ?_⟩
      have hinv := StackInvariant_stateAt Types is K _ hK
      obtain ⟨_, _, _, hlt⟩ := StackInvariant_append hinv ha
      have hnot : parent1 ∉ stck := fun hm => Nat.lt_irrefl _ (hlt parent1 hm)
      rw [LoadNodeData_init_childs h1]
      simp [List.count_append, List.count_replicate_self, List.count_eq_zero_of_not_mem hnot]
    · obtain ⟨hn0, x, hx, hd, hc⟩ := ih _ hK k p node n (by omega) hp hn
      simp only at hx hc
      obtain ⟨y, hy1, hy2, hy3⟩ := AddChildAt_deref_other parent root node1 root1 parent1 p x ha hx
      have hne : parent1 ≠ p := by
        intro e
        rw [e, hx] at hfresh
        simp at hfresh
      subst hs
      refine ⟨hn0, y, hy1, hy2.trans hd, ?_⟩
      simp only [List.count_append, List.count_replicate, beq_iff_eq, hne, if_false]
      rw [hy3, ← hc, List.count_cons]
      simp only [beq_iff_eq]
      omega

/-- The states at the head of the loop come one after the other: before a state
that is reached, every state is reached and has a pending slot. -/
theorem LoadImpl.stateAt_before (Types : List Alt) (is : IStream) :
    ∀ (K : Nat) (s : LoadState), LoadImpl.stateAt Types is K = some s →
      ∀ j, j < K → ∃ t, LoadImpl.stateAt Types is j = some t ∧ t.stck ≠ [] := by
  intro K
  induction K with
  | zero => intro s _ j hj; omega
  | succ K ih =>
    intro s h j hj
    obtain ⟨root, parent, stck, is1, hK, _⟩ := LoadImpl.stateAt_succ_parts h
    by_cases e : j = K
    · subst e
      exact ⟨_, hK, by simp⟩
    · exact ih _ hK j (by omega)

/-- A loop that ends with the stack empty has reached a state with the stack
empty. -/
theorem LoadImpl.loop_final (Types : List Alt) (is : IStream) :
    ∀ (f k : Nat) (s : LoadState) (r : TreeNode) (js : IStream),
      LoadImpl.stateAt Types is k = some s → LoadImpl.loop Types f s = some (some r, js) →
        ∃ K, LoadImpl.stateAt Types is K = some { root := r, stck := [], is := js } := by
  intro f
  induction f with
  | zero =>
    intro k s r js hk hl
    obtain ⟨root, stck, is1⟩ := s
    cases stck with
    | nil =>
      rw [LoadImpl.loop_nil] at hl
      simp only [Option.some.injEq, Prod.mk.injEq] at hl
      rw [← hl.1, ← hl.2]
      exact ⟨k, hk⟩
    | cons parent stck => simp [LoadImpl.loop] at hl
  | succ f ih =>
    intro k s r js hk hl
    obtain ⟨root, stck, is1⟩ := s
    cases stck with
    | nil =>
      rw [LoadImpl.loop_nil] at hl
      simp only [Option.some.injEq, Prod.mk.injEq] at hl
      rw [← hl.1, ← hl.2]
      exact ⟨k, hk⟩
    | cons parent stck =>
      rw [LoadImpl.loop_cons] at hl
      cases hb : LoadImpl.body Types root parent stck is1 with
      | next s1 =>
        rw [hb] at hl
        simp only at hl
        refine ih (k + 1) s1 r js ?_ hl
        rw [LoadImpl.stateAt, hk]
        simp only [hb]
      | fail is2 => rw [hb] at hl; simp at hl
      | dangling => rw [hb] at hl; simp at hl

/-- A successful `Load` has reached a state with the stack empty, whose tree
and stream it returns. -/
theorem Load_true_final {Types : List Alt} {self T : Tree} {is is1 : IStream}
    (h : self.Load Types is = some (true, T, is1)) :
    ∃ K, LoadImpl.stateAt Types is K = some { root := T.m_root, stck := [], is := is1 } := by
  cases h0 : LoadImpl.stateAt Types is 0 with
  | none =>
    exfalso
    unfold LoadImpl.stateAt at h0
    unfold Tree.Load Tree.LoadImpl at h
    split at h
    · simp at h
    · next hg =>
      simp only [hg, if_false] at h0
      split at h
      · simp at h
      · next root is2 h1 =>
        rw [h1] at h0
        simp only at h0
        split at h
        · simp at h
        · next n is3 h3 =>
          rw [h3] at h0
          simp only at h0
          split at h
          · simp at h
          · next h4 => simp [h4] at h0
  | some s0 =>
    rw [Load_of_stateAt_zero self h0] at h
    cases hl : LoadImpl.loop Types is.buf.length s0 with
    | none => rw [hl] at h; simp at h
    | some res =>
      obtain ⟨o, js⟩ := res
      cases o with
      | none => rw [hl] at h; simp at h
      | some r =>
        rw [hl] at h
        simp only [Option.some.injEq, Prod.mk.injEq, true_and] at h
        obtain ⟨K, hK⟩ := LoadImpl.loop_final Types is _ 0 s0 r js h0 hl
        refine ⟨K, ?_⟩
        rw [hK, ← h.1, ← h.2]

/-- After a successful `Load`, the node of every record is in the tree under
the pointer `LoadImpl` held to it, with the value read and as many children as
the child count read for it. -/
theorem Load_true_records {Types : List Alt} {self T : Tree} {is is1 : IStream}
    (h : self.Load Types is = some (true, T, is1)) {k : Nat} {p : List Nat} {node : TreeNode}
    {n : Int} (hp : LoadImpl.nodeAt Types is k = some (p, node))
    (hn : LoadImpl.countAt Types is k = some n) :
    0 ≤ n ∧ ∃ x, T.m_root.deref p = some x ∧ x.m_data = node.m_data ∧
      x.m_childs.length = n.toNat := by
  obtain ⟨K, hK⟩ := Load_true_final h
  have hk : k ≤ K := by
    by_contra hgt
    cases k with
    | zero => omega
    | succ j =>
      cases hj : LoadImpl.stateAt Types is j with
      | none => simp [LoadImpl.nodeAt, hj] at hp
      | some t =>
        by_cases e : j = K
        · subst e
          rw [hK] at hj
          simp only [Option.some.injEq] at hj
          subst hj
          simp [LoadImpl.nodeAt, hK] at hp
        · obtain ⟨t1, ht1, hne⟩ := LoadImpl.stateAt_before Types is j t hj K (by omega)
          rw [hK] at ht1
          simp only [Option.some.injEq] at ht1
          subst ht1
          exact hne rfl
  obtain ⟨h0, x, hx, hd, hc⟩ := LoadImpl.trace_invariant Types is K _ hK k p node n hk hp hn
  exact ⟨h0, x, hx, hd, by simpa using hc⟩

/-- The node of a record has been filled by `LoadNodeData`. -/
theorem LoadImpl.nodeAt_loaded {Types : List Alt} {is : IStream} {k : Nat} {p : List Nat}
    {node : TreeNode} (hp : LoadImpl.nodeAt Types is k = some (p, node)) :
    ∃ js js1, TreeNode.LoadNodeData Types TreeNode.init js = (true, node, js1) := by
  cases k with
  | zero =>
    unfold LoadImpl.nodeAt at hp
    by_cases hg : (!is.good) = true
    · rw [if_pos hg] at hp
      simp at hp
    · rw [if_neg hg] at hp
      cases h1 : TreeNode.LoadNodeData Types TreeNode.init is with
      | mk b rest =>
        obtain ⟨root, js1⟩ := rest
        rw [h1] at hp
        cases b with
        | false => simp at hp
        | true =>
          simp only [Option.some.injEq, Prod.mk.injEq] at hp
          rw [← hp.2]
          exact ⟨_, _, h1⟩
  | succ k =>
    rw [LoadImpl.nodeAt] at hp
    split at hp
    · split at hp
      · next node1 js1 h1 =>
        split at hp
        · simp only [Option.some.injEq, Prod.mk.injEq] at hp
          rw [← hp.2]
          exact ⟨_, _, h1⟩
        · simp at hp
      · simp at hp
    · simp at hp

end Trace


/-- The pointer to the node of the first record is `&root`. -/
theorem LoadImpl.nodeAt_zero {Types : List Alt} {is : IStream} {p : List Nat}
    {node : TreeNode} (hp : Tree.LoadImpl.nodeAt Types is 0 = some (p, node)) : p = [] := by
  unfold Tree.LoadImpl.nodeAt at hp
  by_cases hg : (!is.good) = true
  · rw [if_pos hg] at hp
    simp at hp
  · rw [if_neg hg] at hp
    cases h1 : TreeNode.LoadNodeData Types TreeNode.init is with
    | mk b rest =>
      obtain ⟨root, js1⟩ := rest
      rw [h1] at hp
      cases b with
      | false => simp at hp
      | true =>
        simp only [Option.some.injEq, Prod.mk.injEq] at hp
        exact hp.1.symm

/-- Claim C12. Leaf detection: after every successful `Load`, the node of the
`k`-th node record, found in the loaded tree under the pointer `Load` held to
it, has the value read for it and as many children as the child count `n` read
for it; so it reports `IsLeaf() == true` when its record carried the child
count 0 and `false` when the count was positive. `Print` of a tree consisting
of such a single leaf writes exactly one line: a text with one line feed, at
its end; in particular so does `Print` of the loaded tree when the root's
record carried the child count 0. -/
theorem C12_leaf_detection (Types : List Alt) (self T : Tree) (is is1 : IStream) (k : Nat)
    (p : List Nat) (node : TreeNode) (n : Int)
    (h : self.Load Types is = some (true, T, is1))
    (hp : Tree.LoadImpl.nodeAt Types is k = some (p, node))
    (hn : Tree.LoadImpl.countAt Types is k = some n) :
    0 ≤ n ∧ ∃ x, T.m_root.deref p = some x ∧ x.m_data = node.m_data ∧
      x.m_childs.length = n.toNat ∧
      (n = 0 → x.IsLeaf = true) ∧ (0 < n → x.IsLeaf = false) ∧
      (n = 0 → lineCount ((Tree.mk x).Print Types) = 1 ∧
        ((Tree.mk x).Print Types).getLast? = some '\n') ∧
      (k = 0 → n = 0 → lineCount (T.Print Types) = 1 ∧
        (T.Print Types).getLast? = some '\n') := by
  obtain ⟨h0, x, hx, hd, hc⟩ := Load_true_records h hp hn
  obtain ⟨js, js1, hl⟩ := LoadImpl.nodeAt_loaded hp
  have hleaf : n = 0 → x.m_childs = [] := by
    intro e
    rw [e] at hc
    exact List.length_eq_zero.mp hc
  have hline : n = 0 → lineCount ((Tree.mk x).Print Types) = 1 ∧
      ((Tree.mk x).Print Types).getLast? = some '\n' :=
    fun e => Print_loaded_leaf hl x hd (hleaf e)
  refine ⟨h0, x, hx, hd, hc, ?_, ?_, hline, ?_⟩
  · intro e
    simp [TreeNode.IsLeaf, TreeNode.HasChilds, hleaf e]
  · intro hpos
    have : x.m_childs ≠ [] := by
      intro e
      rw [e] at hc
      simp only [List.length_nil] at hc
      omega
    cases hcs : x.m_childs with
    | nil => exact absurd hcs this
    | cons c cs => simp [TreeNode.IsLeaf, TreeNode.HasChilds, hcs]
  · intro ek en
    subst ek
    have hp1 : p = [] := LoadImpl.nodeAt_zero hp
    subst hp1
    simp only [TreeNode.deref, Option.some.injEq] at hx
    have := hline en
    rw [← hx] at this
    exact this

/-- Witness for C12: in the scenario stream the record of the node `3.5`
carries the child count 0. -/
theorem C12_leaf_detection_witness :
    ((Tree.mk TreeNode.init).Load demoTypes (IStream.ofChars "1 5 2 2 3.5 0 3 hello 0".toList) =
        some (true, scenarioTree,
          { buf := [], eofbit := true, failbit := false, badbit := false }) ∧
      Tree.LoadImpl.nodeAt demoTypes (IStream.ofChars "1 5 2 2 3.5 0 3 hello 0".toList) 1 =
        some ([0], .mk ⟨2, .double dbl_3_5⟩ []) ∧
      Tree.LoadImpl.countAt demoTypes (IStream.ofChars "1 5 2 2 3.5 0 3 hello 0".toList) 1 =
        some 0) ∧
    ((0 : Int) ≤ 0 ∧ ∃ x, scenarioTree.m_root.deref [0] = some x ∧
      x.m_data = (TreeNode.mk ⟨2, .double dbl_3_5⟩ []).m_data ∧
      x.m_childs.length = (0 : Int).toNat ∧
      ((0 : Int) = 0 → x.IsLeaf = true) ∧ ((0 : Int) < 0 → x.IsLeaf = false) ∧
      ((0 : Int) = 0 → lineCount ((Tree.mk x).Print demoTypes) = 1 ∧
        ((Tree.mk x).Print demoTypes).getLast? = some '\n') ∧
      (1 = 0 → (0 : Int) = 0 → lineCount (scenarioTree.Print demoTypes) = 1 ∧
        (scenarioTree.Print demoTypes).getLast? = some '\n')) :=
  ⟨⟨by decide!, by decide!, by decide!⟩,
    C12_leaf_detection demoTypes (Tree.mk TreeNode.init) scenarioTree
      (IStream.ofChars "1 5 2 2 3.5 0 3 hello 0".toList)
      { buf := [], eofbit := true, failbit := false, badbit := false } 1 [0]
      (.mk ⟨2, .double dbl_3_5⟩ []) 0 (by decide!) (by decide!) (by decide!)⟩

end tree_lib
